import Mathlib

/-!
# A verification development for `phosphor-signaling` (src/src/index.ts)

This file gives a shallow embedding of the signal registry of
`phosphor-signaling` and proves properties of its operations.

The embedding follows the TypeScript source closely:

* `Connection` mirrors the `Connection` class: a `token`, a nullable
  `callback` (a function identity, `none` meaning the cleared/tombstoned
  state), a `thisArg` JS value, the singly linked `nextReceiver` pointer of
  the per-emitter list, and the doubly linked `nextEmitter` / `prevEmitter`
  pointers of the per-receiver list.
* `ConnectionList` mirrors the `ConnectionList` class (`refs`, `first`,
  `last`).
* `SigState` holds both heaps (connections and connection lists are
  heap-allocated, addressed by `Nat` ids, because the source aliases the
  list object captured by `emit` even after `disconnectEmitter` deletes the
  registry entry), the two weak maps, the `currentEmitter` module variable,
  and a ghost `trace` of callback invocations used only to state theorems.
* JS values are modelled by `JSVal`; `===` is `jsEq` (with `NaN` unequal to
  itself) and truthiness is `truthy`, so the source's `thisArg || void 0`
  and `thisArg || callback` coercions are translated literally via `jsOr`.
* Callbacks are interpreted: a callback identity is a `Nat`, and an
  environment maps a callback identity, its `this` value and the emitted
  `args` to a list of `Act`ions performed by the callback body (calls back
  into the registry API, or throwing).  The interpreter is fuel-indexed;
  theorems are conditioned on the run not running out of fuel.
-/

/-- A JavaScript value, as far as the registry observes one: `undefined`,
`null`, `NaN`, numbers, strings, booleans, object identities and function
identities. -/
inductive JSVal where
  | undef : JSVal
  | null : JSVal
  | nan : JSVal
  | num : Int → JSVal
  | str : String → JSVal
  | bool : Bool → JSVal
  | obj : Nat → JSVal
  | fn : Nat → JSVal
deriving DecidableEq, Repr

/-- JS truthiness of a `JSVal`: `undefined`, `null`, `NaN`, `0`, `""` and
`false` are falsy; objects and functions are always truthy. -/
def truthy : JSVal → Bool
  | JSVal.undef => false
  | JSVal.null => false
  | JSVal.nan => false
  | JSVal.num n => decide (n ≠ 0)
  | JSVal.str s => decide (s ≠ "")
  | JSVal.bool b => b
  | JSVal.obj _ => true
  | JSVal.fn _ => true

/-- JS strict equality `===`: structural identity except that `NaN` is not
equal to anything, itself included. -/
def jsEq (a b : JSVal) : Bool :=
  match a, b with
  | JSVal.nan, _ => false
  | _, JSVal.nan => false
  | a, b => decide (a = b)

/-- The JS short-circuit `a || b` (returns `a` when truthy, else `b`). -/
def jsOr (a b : JSVal) : JSVal :=
  if truthy a then a else b

/-- The JS value of a nullable callback field (`null` when cleared). -/
def cbVal : Option Nat → JSVal
  | some c => JSVal.fn c
  | none => JSVal.null

/-- A `Connection` record, as in the source class `Connection`.  `callback`
is `none` exactly when the source field is `null` (a tombstoned/dead
connection). -/
structure Connection where
  token : JSVal := JSVal.null
  callback : Option Nat := none
  thisArg : JSVal := JSVal.null
  nextReceiver : Option Nat := none
  nextEmitter : Option Nat := none
  prevEmitter : Option Nat := none
deriving DecidableEq, Repr

/-- A `ConnectionList` record, as in the source class (`refs`, `first`,
`last`). -/
structure ConnectionList where
  refs : Int := 0
  first : Option Nat := none
  last : Option Nat := none
deriving DecidableEq, Repr

/-- A ghost record of one callback invocation performed by `invokeList`:
the connection id, the callback identity and `thisArg` it was invoked with,
the emitted `args`, and the value `emitter()` would have returned at the
moment of invocation. -/
structure Event where
  conn : Nat
  cb : Nat
  thisArg : JSVal
  args : JSVal
  seen : JSVal
deriving DecidableEq, Repr

/-- The whole mutable state of the module: the connection heap and its
allocation counter, the connection-list heap and its counter, the
`emitterMap` and `receiverMap` weak maps (association lists from key values
to heap ids), the `currentEmitter` variable, and the ghost invocation
trace. -/
structure SigState where
  conns : Nat → Connection
  numConns : Nat
  lists : Nat → ConnectionList
  numLists : Nat
  emitterMap : List (JSVal × Nat)
  receiverMap : List (JSVal × Nat)
  currentEmitter : JSVal
  trace : List Event

/-- The initial state: empty heaps, empty maps, no current emitter. -/
def emptyState : SigState where
  conns := fun _ => {}
  numConns := 0
  lists := fun _ => {}
  numLists := 0
  emitterMap := []
  receiverMap := []
  currentEmitter := JSVal.null
  trace := []

/-- `WeakMap.get`: the first association whose key is `===` the query. -/
def alookup (m : List (JSVal × Nat)) (k : JSVal) : Option Nat :=
  (m.find? fun p => jsEq p.1 k).map Prod.snd

/-- `WeakMap.delete`. -/
def aremove (m : List (JSVal × Nat)) (k : JSVal) : List (JSVal × Nat) :=
  m.filter fun p => !jsEq p.1 k

/-- `WeakMap.set`. -/
def aset (m : List (JSVal × Nat)) (k : JSVal) (v : Nat) : List (JSVal × Nat) :=
  (k, v) :: aremove m k

/-- Update one connection in the heap. -/
def updConn (s : SigState) (i : Nat) (f : Connection → Connection) : SigState :=
  { s with conns := fun j => if j = i then f (s.conns j) else s.conns j }

/-- Update one connection list in the heap. -/
def updList (s : SigState) (i : Nat) (f : ConnectionList → ConnectionList) : SigState :=
  { s with lists := fun j => if j = i then f (s.lists j) else s.lists j }

/-- Source `emitter()`: return the object emitting the current signal
(`null` when none). -/
def emitter (s : SigState) : JSVal :=
  s.currentEmitter

/-- Source `removeFromEmittersList(conn)`: unlink `conn` from the doubly
linked per-receiver list, fixing up `receiverMap` when `conn` was the
head. -/
def removeFromEmittersList (s : SigState) (cid : Nat) : SigState :=
  let conn := s.conns cid
  let receiver := jsOr conn.thisArg (cbVal conn.callback)
  let s1 :=
    match conn.prevEmitter, conn.nextEmitter with
    | none, none => { s with receiverMap := aremove s.receiverMap receiver }
    | none, some nx =>
        updConn { s with receiverMap := aset s.receiverMap receiver nx } nx
          (fun c => { c with prevEmitter := none })
    | some pv, none => updConn s pv (fun c => { c with nextEmitter := none })
    | some pv, some nx =>
        updConn (updConn s pv (fun c => { c with nextEmitter := some nx })) nx
          (fun c => { c with prevEmitter := some pv })
  updConn s1 cid (fun c => { c with prevEmitter := none, nextEmitter := none })

/-- The loop of source `findConnection`: walk the `nextReceiver` chain
looking for a `===`-matching `(token, callback, thisArg)` triple.  The fuel
only bounds the walk; with fuel at least the chain length it is exact. -/
def findLoop (s : SigState) : Nat → Option Nat → JSVal → Nat → JSVal → Option Nat
  | _, none, _, _, _ => none
  | 0, some _, _, _, _ => none
  | fuel + 1, some c, token, cb, thisArg =>
      if jsEq (s.conns c).token token = true ∧ (s.conns c).callback = some cb ∧
          jsEq (s.conns c).thisArg thisArg = true then
        some c
      else
        findLoop s fuel ((s.conns c).nextReceiver) token cb thisArg

/-- Source `findConnection(list, token, callback, thisArg)` for the list at
heap id `lid`. -/
def findConnection (s : SigState) (lid : Nat) (token : JSVal) (cb : Nat)
    (thisArg : JSVal) : Option Nat :=
  findLoop s s.numConns ((s.lists lid).first) token cb thisArg

/-- The result of `connect`: a boolean return with the new state, or a
thrown `TypeError`.  The source crashes on `list.last.nextReceiver = conn`
when the registry holds an entry whose list is empty (which `cleanList`
can produce); the crash happens before any shared state is mutated, so the
state carried by `crash` is the entry state (the freshly allocated
`Connection` is unreachable and thus unobservable). -/
inductive ConnectRes where
  | ret : Bool → SigState → ConnectRes
  | crash : SigState → ConnectRes

/-- The state built by `connect` when the owner already has a (non-empty)
connection list: allocate the connection, append it behind `list.last`,
then link it into the receiver side and update `receiverMap`. -/
def connectAppend (s : SigState) (lid lastId : Nat) (token : JSVal) (cb : Nat)
    (thisArg : JSVal) : SigState :=
  let cid := s.numConns
  let conn : Connection := { token := token, callback := some cb, thisArg := thisArg }
  let s1 := { s with conns := fun j => if j = cid then conn else s.conns j,
                      numConns := s.numConns + 1 }
  let s2 := updConn s1 lastId (fun c => { c with nextReceiver := some cid })
  let s3 := updList s2 lid (fun l => { l with last := some cid })
  let receiver := jsOr thisArg (JSVal.fn cb)
  let s4 :=
    match alookup s3.receiverMap receiver with
    | some h =>
        updConn (updConn s3 h (fun c => { c with prevEmitter := some cid }))
          cid (fun c => { c with nextEmitter := some h })
    | none => s3
  { s4 with receiverMap := aset s4.receiverMap receiver cid }

/-- The state built by `connect` when the owner has no registry entry:
allocate the connection and a fresh one-element list, register it, then
link the receiver side. -/
def connectFresh (s : SigState) (owner token : JSVal) (cb : Nat) (thisArg : JSVal) :
    SigState :=
  let cid := s.numConns
  let conn : Connection := { token := token, callback := some cb, thisArg := thisArg }
  let s1 := { s with conns := fun j => if j = cid then conn else s.conns j,
                      numConns := s.numConns + 1 }
  let lid := s1.numLists
  let s2 := { s1 with
    lists := fun j => if j = lid then { refs := 0, first := some cid, last := some cid }
                      else s1.lists j,
    numLists := s1.numLists + 1,
    emitterMap := aset s1.emitterMap owner lid }
  let receiver := jsOr thisArg (JSVal.fn cb)
  let s3 :=
    match alookup s2.receiverMap receiver with
    | some h =>
        updConn (updConn s2 h (fun c => { c with prevEmitter := some cid }))
          cid (fun c => { c with nextEmitter := some h })
    | none => s2
  { s3 with receiverMap := aset s3.receiverMap receiver cid }

/-- Source `connect(owner, token, callback, thisArg)`. -/
def connect (s : SigState) (owner token : JSVal) (cb : Nat) (thisArg : JSVal) :
    ConnectRes :=
  -- Coerce a falsy `thisArg` to `undefined` (`thisArg = thisArg || void 0`).
  let thisArg := jsOr thisArg JSVal.undef
  match alookup s.emitterMap owner with
  | some lid =>
      if (findConnection s lid token cb thisArg).isSome then
        ConnectRes.ret false s
      else
        match (s.lists lid).last with
        | none => ConnectRes.crash s
        | some lastId => ConnectRes.ret true (connectAppend s lid lastId token cb thisArg)
  | none => ConnectRes.ret true (connectFresh s owner token cb thisArg)

/-- Source `disconnect(owner, token, callback, thisArg)`: unlink the
matching connection from the per-receiver list and tombstone it (clear
`callback` and `thisArg`), leaving it in the per-emitter list. -/
def disconnect (s : SigState) (owner token : JSVal) (cb : Nat) (thisArg : JSVal) :
    Bool × SigState :=
  let thisArg := jsOr thisArg JSVal.undef
  match alookup s.emitterMap owner with
  | none => (false, s)
  | some lid =>
      match findConnection s lid token cb thisArg with
      | none => (false, s)
      | some c =>
          let s1 := removeFromEmittersList s c
          (true, updConn s1 c (fun cn => { cn with callback := none, thisArg := JSVal.null }))

/-- The loop of source `disconnectEmitter`: walk the per-emitter list,
unlinking each connection from its per-receiver list and tombstoning it. -/
def dcELoop (s : SigState) : Nat → Option Nat → SigState
  | _, none => s
  | 0, some _ => s
  | fuel + 1, some c =>
      let s1 := removeFromEmittersList s c
      let s2 := updConn s1 c (fun cn => { cn with callback := none, thisArg := JSVal.null })
      dcELoop s2 fuel ((s2.conns c).nextReceiver)

/-- Source `disconnectEmitter(obj)`. -/
def disconnectEmitter (s : SigState) (obj : JSVal) : SigState :=
  match alookup s.emitterMap obj with
  | none => s
  | some lid =>
      let s1 := dcELoop s s.numConns ((s.lists lid).first)
      { s1 with emitterMap := aremove s1.emitterMap obj }

/-- The loop of source `disconnectReceiver`: walk the per-receiver list,
tombstoning each connection and clearing its `prevEmitter`/`nextEmitter`
links (the saved `next` is read before the node is cleared). -/
def dcRLoop (s : SigState) : Nat → Option Nat → SigState
  | _, none => s
  | 0, some _ => s
  | fuel + 1, some c =>
      let next := (s.conns c).nextEmitter
      let s1 := updConn s c (fun cn =>
        { cn with callback := none, thisArg := JSVal.null,
                  prevEmitter := none, nextEmitter := none })
      dcRLoop s1 fuel next

/-- Source `disconnectReceiver(obj)`. -/
def disconnectReceiver (s : SigState) (obj : JSVal) : SigState :=
  match alookup s.receiverMap obj with
  | none => s
  | some h =>
      let s1 := dcRLoop s s.numConns (some h)
      { s1 with receiverMap := aremove s1.receiverMap obj }

/-- The loop of source `cleanList`: walk the per-emitter list once,
unlinking tombstoned nodes (`nextReceiver = null`) and relinking the live
remainder behind `prev`, updating `first` when the first live node is
found.  Returns the updated state and the final `prev`. -/
def cleanLoop (lid : Nat) : Nat → Option Nat → Option Nat → SigState → SigState × Option Nat
  | _, prev, none, s => (s, prev)
  | 0, prev, some _, s => (s, prev)
  | fuel + 1, prev, some c, s =>
      let next := (s.conns c).nextReceiver
      if (s.conns c).callback = none then
        cleanLoop lid fuel prev next (updConn s c (fun cn => { cn with nextReceiver := none }))
      else
        match prev with
        | none =>
            cleanLoop lid fuel (some c) next (updList s lid (fun l => { l with first := some c }))
        | some p =>
            cleanLoop lid fuel (some c) next (updConn s p (fun cn => { cn with nextReceiver := some c }))

/-- Source `cleanList(list)` for the list at heap id `lid`: remove the dead
connections and fix up `first`/`last`. -/
def cleanList (s : SigState) (lid : Nat) : SigState :=
  match cleanLoop lid s.numConns none ((s.lists lid).first) s with
  | (s1, none) => updList s1 lid (fun l => { l with first := none, last := none })
  | (s1, some p) =>
      updList (updConn s1 p (fun cn => { cn with nextReceiver := none })) lid
        (fun l => { l with last := some p })

/-- One action performed by an interpreted callback body: a call back into
the registry API, or throwing an exception. -/
inductive Act where
  | connectA : JSVal → JSVal → Nat → JSVal → Act
  | disconnectA : JSVal → JSVal → Nat → JSVal → Act
  | disconnectEmitterA : JSVal → Act
  | disconnectReceiverA : JSVal → Act
  | emitA : JSVal → JSVal → JSVal → Act
  | throwA : Act
deriving DecidableEq, Repr

/-- A callback environment: the body of callback identity `cb`, invoked
with a given `this` value and `args`, is the action list `env cb this args`. -/
def Env : Type := Nat → JSVal → JSVal → List Act

/-- Result of running a callback body or a single action: normal return,
a propagating exception, or fuel exhaustion. -/
inductive Res where
  | ok : SigState → Res
  | exn : SigState → Res
  | oog : Res

/-- Result of `emit`: normal return or a propagating exception, each
carrying the ghost `dirty` flag returned by its own `invokeList` pass and
the ghost list of invocations performed directly by that pass (nested
emits' invocations are not included; they appear in the state trace). -/
inductive ERes where
  | ok : SigState → Bool → List Event → ERes
  | exn : SigState → List Event → ERes
  | oog : ERes

/-- Result of `invokeList`/its loop: the `dirty` return value with the
final state and the ghost list of invocations made directly by this pass,
or a propagating exception. -/
inductive IRes where
  | ok : Bool → SigState → List Event → IRes
  | exn : SigState → List Event → IRes
  | oog : IRes

mutual

/-- Run a callback body (a list of actions) in sequence, stopping at the
first exception. -/
def runActs (env : Env) : Nat → List Act → SigState → Res
  | 0, _, _ => Res.oog
  | _ + 1, [], s => Res.ok s
  | fuel + 1, a :: rest, s =>
      match runAct env fuel a s with
      | Res.ok s1 => runActs env fuel rest s1
      | r => r

/-- Run a single callback action. -/
def runAct (env : Env) : Nat → Act → SigState → Res
  | 0, _, _ => Res.oog
  | fuel + 1, act, s =>
      match act with
      | Act.connectA o t cb ctx =>
          match connect s o t cb ctx with
          | ConnectRes.ret _ s1 => Res.ok s1
          | ConnectRes.crash s1 => Res.exn s1
      | Act.disconnectA o t cb ctx => Res.ok (disconnect s o t cb ctx).2
      | Act.disconnectEmitterA o => Res.ok (disconnectEmitter s o)
      | Act.disconnectReceiverA r => Res.ok (disconnectReceiver s r)
      | Act.emitA o t a =>
          match emit env fuel o t a s with
          | ERes.ok s1 _ _ => Res.ok s1
          | ERes.exn s1 _ => Res.exn s1
          | ERes.oog => Res.oog
      | Act.throwA => Res.exn s

/-- Source `emit(owner, token, args)`: look up the owner's list, set
`currentEmitter` and bump `refs`, dispatch via `invokeList`, then restore
`currentEmitter` and `refs` on every exit; on normal exit run `cleanList`
when the pass was dirty and the refcount returned to zero. -/
def emit (env : Env) : Nat → JSVal → JSVal → JSVal → SigState → ERes
  | 0, _, _, _, _ => ERes.oog
  | fuel + 1, owner, token, args, s =>
      match alookup s.emitterMap owner with
      | none => ERes.ok s false []
      | some lid =>
          let prev := s.currentEmitter
          let s2 := updList { s with currentEmitter := owner } lid
            (fun l => { l with refs := l.refs + 1 })
          match invokeList env fuel lid token args s2 with
          | IRes.oog => ERes.oog
          | IRes.exn s3 inv =>
              ERes.exn (updList { s3 with currentEmitter := prev } lid
                (fun l => { l with refs := l.refs - 1 })) inv
          | IRes.ok dirty s3 inv =>
              let s4 := updList { s3 with currentEmitter := prev } lid
                (fun l => { l with refs := l.refs - 1 })
              if dirty = true ∧ (s4.lists lid).refs = 0 then
                ERes.ok (cleanList s4 lid) dirty inv
              else
                ERes.ok s4 dirty inv

/-- Source `invokeList(list, token, args)`: snapshot `last`, walk from
`first`. -/
def invokeList (env : Env) : Nat → Nat → JSVal → JSVal → SigState → IRes
  | 0, _, _, _, _ => IRes.oog
  | fuel + 1, lid, token, args, s =>
      invokeLoop env fuel token args ((s.lists lid).last) ((s.lists lid).first) false [] s

/-- The `while` loop of `invokeList`: invoke a live, token-matching
connection (recording the ghost event), mark `dirty` on a dead one, and
stop at the snapshotted `last`. -/
def invokeLoop (env : Env) :
    Nat → JSVal → JSVal → Option Nat → Option Nat → Bool → List Event → SigState → IRes
  | 0, _, _, _, _, _, _, _ => IRes.oog
  | fuel + 1, token, args, last, conn?, dirty, inv, s =>
      match conn? with
      | none => IRes.ok dirty s inv
      | some c =>
          match (s.conns c).callback with
          | some cb =>
              if jsEq (s.conns c).token token = true then
                let e : Event :=
                  { conn := c, cb := cb, thisArg := (s.conns c).thisArg,
                    args := args, seen := emitter s }
                match runActs env fuel (env cb (s.conns c).thisArg args)
                    { s with trace := s.trace ++ [e] } with
                | Res.ok s1 => invokeStep env fuel token args last c dirty (inv ++ [e]) s1
                | Res.exn s1 => IRes.exn s1 (inv ++ [e])
                | Res.oog => IRes.oog
              else
                invokeStep env fuel token args last c dirty inv s
          | none => invokeStep env fuel token args last c true inv s

/-- The tail of one loop iteration: `if (conn === last) break;
conn = conn.nextReceiver;`. -/
def invokeStep (env : Env) :
    Nat → JSVal → JSVal → Option Nat → Nat → Bool → List Event → SigState → IRes
  | 0, _, _, _, _, _, _, _ => IRes.oog
  | fuel + 1, token, args, last, c, dirty, inv, s =>
      if last = some c then IRes.ok dirty s inv
      else invokeLoop env fuel token args last ((s.conns c).nextReceiver) dirty inv s

end

/-!
## Chains and the well-formedness invariant

A per-emitter list is described by the list of connection ids reached from
`first` following `nextReceiver`.  `follow` computes it with fuel;
`ChainP` is the corresponding relational description used in proofs.
-/

/-- Follow `nextReceiver` pointers, collecting ids, with fuel. -/
def follow (s : SigState) : Nat → Option Nat → Option (List Nat)
  | _, none => some []
  | 0, some _ => none
  | fuel + 1, some c => (follow s fuel ((s.conns c).nextReceiver)).map (fun l => c :: l)

/-- The chain of the list at heap id `lid` (with fuel `numConns`, enough
for any well-formed chain). -/
def chainOf (s : SigState) (lid : Nat) : Option (List Nat) :=
  follow s s.numConns ((s.lists lid).first)

/-- `chainOf` with default `[]`. -/
def chainD (s : SigState) (lid : Nat) : List Nat :=
  (chainOf s lid).getD []

/-- `ChainP s x ns`: starting from pointer `x`, following `nextReceiver`
visits exactly the ids `ns` and ends at `null`. -/
def ChainP (s : SigState) : Option Nat → List Nat → Prop
  | x, [] => x = none
  | x, c :: rest => x = some c ∧ ChainP s ((s.conns c).nextReceiver) rest

/-- A connection is live when its callback has not been cleared. -/
def isLive (s : SigState) (c : Nat) : Prop :=
  (s.conns c).callback ≠ none

instance (s : SigState) (c : Nat) : Decidable (isLive s c) := by
  unfold isLive; infer_instance

/-- Two connections carry `===`-equal `(token, callback, thisArg)`
triples. -/
def sameTriple (s : SigState) (a b : Nat) : Prop :=
  jsEq (s.conns a).token (s.conns b).token = true ∧
  (s.conns a).callback = (s.conns b).callback ∧
  jsEq (s.conns a).thisArg (s.conns b).thisArg = true

instance (s : SigState) (a b : Nat) : Decidable (sameTriple s a b) := by
  unfold sameTriple; infer_instance

/-- Structural validity of the list at `lid`: its chain exists, has no
duplicates, stays within the allocated heap, and `last` points at its
final node. -/
def ValidListAt (s : SigState) (lid : Nat) : Prop :=
  (chainOf s lid).isSome = true ∧ (chainD s lid).Nodup ∧
  (∀ c ∈ chainD s lid, c < s.numConns) ∧
  (s.lists lid).last = (chainD s lid).getLast?

instance (s : SigState) (lid : Nat) : Decidable (ValidListAt s lid) := by
  unfold ValidListAt; infer_instance

/-- The signal-uniqueness invariant: within any per-emitter list, no two
distinct live connections carry `===`-equal `(token, callback, thisArg)`
triples. -/
def UniqueLive (s : SigState) : Prop :=
  ∀ lid < s.numLists,
    (chainD s lid).Pairwise (fun a b => ¬(isLive s a ∧ isLive s b ∧ sameTriple s a b))

instance (s : SigState) : Decidable (UniqueLive s) := by
  unfold UniqueLive; infer_instance

/-- Structural well-formedness of a registry state: registry values point
into the list heap and are distinct, every allocated list has a valid
chain, chains of distinct lists are disjoint, and refcounts are
nonnegative. -/
def StructInv (s : SigState) : Prop :=
  (∀ p ∈ s.emitterMap, p.2 < s.numLists) ∧
  s.emitterMap.Pairwise (fun p q => p.2 ≠ q.2) ∧
  (∀ lid < s.numLists, ValidListAt s lid) ∧
  (∀ l1 < s.numLists, ∀ l2 < s.numLists, l1 ≠ l2 →
    ∀ c ∈ chainD s l1, c ∉ chainD s l2) ∧
  (∀ lid < s.numLists, 0 ≤ (s.lists lid).refs)

instance (s : SigState) : Decidable (StructInv s) := by
  unfold StructInv; infer_instance

/-- The full invariant of reachable registry states used by the theorems
below. -/
def WfState (s : SigState) : Prop :=
  StructInv s ∧ UniqueLive s

instance (s : SigState) : Decidable (WfState s) := by
  unfold WfState; infer_instance

/-- How one registry state evolves into another under any sequence of API
calls: well-formedness is kept, heaps only grow, `currentEmitter` and all
refcounts are restored, tokens of existing connections never change, dead
connections never come back to life, chains of lists under active
iteration only grow at the tail, and the invocation trace only grows. -/
def Evolves (s s' : SigState) : Prop :=
  WfState s' ∧ s.numConns ≤ s'.numConns ∧ s.numLists ≤ s'.numLists ∧
  s'.currentEmitter = s.currentEmitter ∧
  (∀ lid < s.numLists, (s'.lists lid).refs = (s.lists lid).refs) ∧
  (∀ c < s.numConns, (s'.conns c).token = (s.conns c).token) ∧
  (∀ c < s.numConns, (s.conns c).callback = none → (s'.conns c).callback = none) ∧
  (∀ lid < s.numLists, 1 ≤ (s.lists lid).refs →
    ∃ t, chainOf s' lid = some (chainD s lid ++ t)) ∧
  (∃ t, s'.trace = s.trace ++ t)

/-!
## Basic lemmas about state updates, `jsEq`, and chains
-/

@[simp]
theorem updConn_conns (s : SigState) (i : Nat) (f : Connection → Connection) (j : Nat) :
    (updConn s i f).conns j = if j = i then f (s.conns i) else s.conns j := by
  by_cases h : j = i <;> simp [updConn, h]

@[simp]
theorem updConn_lists (s : SigState) (i : Nat) (f : Connection → Connection) :
    (updConn s i f).lists = s.lists := rfl

@[simp]
theorem updConn_numConns (s : SigState) (i : Nat) (f : Connection → Connection) :
    (updConn s i f).numConns = s.numConns := rfl

@[simp]
theorem updConn_numLists (s : SigState) (i : Nat) (f : Connection → Connection) :
    (updConn s i f).numLists = s.numLists := rfl

@[simp]
theorem updConn_emitterMap (s : SigState) (i : Nat) (f : Connection → Connection) :
    (updConn s i f).emitterMap = s.emitterMap := rfl

@[simp]
theorem updConn_receiverMap (s : SigState) (i : Nat) (f : Connection → Connection) :
    (updConn s i f).receiverMap = s.receiverMap := rfl

@[simp]
theorem updConn_currentEmitter (s : SigState) (i : Nat) (f : Connection → Connection) :
    (updConn s i f).currentEmitter = s.currentEmitter := rfl

@[simp]
theorem updConn_trace (s : SigState) (i : Nat) (f : Connection → Connection) :
    (updConn s i f).trace = s.trace := rfl

@[simp]
theorem updList_lists (s : SigState) (i : Nat) (f : ConnectionList → ConnectionList) (j : Nat) :
    (updList s i f).lists j = if j = i then f (s.lists i) else s.lists j := by
  by_cases h : j = i <;> simp [updList, h]

@[simp]
theorem updList_conns (s : SigState) (i : Nat) (f : ConnectionList → ConnectionList) :
    (updList s i f).conns = s.conns := rfl

@[simp]
theorem updList_numConns (s : SigState) (i : Nat) (f : ConnectionList → ConnectionList) :
    (updList s i f).numConns = s.numConns := rfl

@[simp]
theorem updList_numLists (s : SigState) (i : Nat) (f : ConnectionList → ConnectionList) :
    (updList s i f).numLists = s.numLists := rfl

@[simp]
theorem updList_emitterMap (s : SigState) (i : Nat) (f : ConnectionList → ConnectionList) :
    (updList s i f).emitterMap = s.emitterMap := rfl

@[simp]
theorem updList_receiverMap (s : SigState) (i : Nat) (f : ConnectionList → ConnectionList) :
    (updList s i f).receiverMap = s.receiverMap := rfl

@[simp]
theorem updList_currentEmitter (s : SigState) (i : Nat) (f : ConnectionList → ConnectionList) :
    (updList s i f).currentEmitter = s.currentEmitter := rfl

@[simp]
theorem updList_trace (s : SigState) (i : Nat) (f : ConnectionList → ConnectionList) :
    (updList s i f).trace = s.trace := rfl

theorem jsEq_iff (a b : JSVal) : jsEq a b = true ↔ a = b ∧ a ≠ JSVal.nan := by
  cases a <;> cases b <;> simp [jsEq]

theorem jsEq_eq {a b : JSVal} (h : jsEq a b = true) : a = b :=
  ((jsEq_iff a b).mp h).1

theorem jsEq_self (a : JSVal) (h : a ≠ JSVal.nan) : jsEq a a = true :=
  (jsEq_iff a a).mpr ⟨rfl, h⟩

/-!
### Chain lemmas
-/

theorem chainP_of_follow (s : SigState) :
    ∀ (f : Nat) (x : Option Nat) (ns : List Nat), follow s f x = some ns → ChainP s x ns := by
  intro f
  induction f with
  | zero =>
      intro x ns h
      cases x with
      | none =>
          have hns : ns = [] := by simpa [follow] using h.symm
          subst hns; rfl
      | some c => simp [follow] at h
  | succ f ih =>
      intro x ns h
      cases x with
      | none =>
          have hns : ns = [] := by simpa [follow] using h.symm
          subst hns; rfl
      | some c =>
          simp only [follow, Option.map_eq_some'] at h
          obtain ⟨l, hl, rfl⟩ := h
          exact ⟨rfl, ih _ l hl⟩

theorem follow_of_chainP (s : SigState) :
    ∀ (ns : List Nat) (x : Option Nat) (f : Nat), ChainP s x ns → ns.length ≤ f →
      follow s f x = some ns := by
  intro ns
  induction ns with
  | nil =>
      intro x f h _
      cases h
      cases f <;> simp [follow]
  | cons c rest ih =>
      intro x f h hf
      obtain ⟨rfl, hrest⟩ := h
      cases f with
      | zero => simp at hf
      | succ f =>
          simp only [List.length_cons, Nat.succ_le_succ_iff] at hf
          simp [follow, ih _ f hrest hf]

theorem chainP_unique (s : SigState) :
    ∀ (ns ns' : List Nat) (x : Option Nat), ChainP s x ns → ChainP s x ns' → ns = ns' := by
  intro ns
  induction ns with
  | nil =>
      intro ns' x h h'
      cases h
      cases ns' with
      | nil => rfl
      | cons c rest => exact absurd h'.1 (by simp)
  | cons c rest ih =>
      intro ns' x h h'
      obtain ⟨rfl, hrest⟩ := h
      cases ns' with
      | nil => exact absurd h' (by simp [ChainP])
      | cons c' rest' =>
          obtain ⟨hc, hrest'⟩ := h'
          cases hc
          rw [ih rest' _ hrest hrest']

theorem chainP_congr {s s' : SigState} :
    ∀ (ns : List Nat) (x : Option Nat),
      (∀ c ∈ ns, (s'.conns c).nextReceiver = (s.conns c).nextReceiver) →
      ChainP s x ns → ChainP s' x ns := by
  intro ns
  induction ns with
  | nil => intro x _ h; exact h
  | cons c rest ih =>
      intro x hmem h
      obtain ⟨rfl, hrest⟩ := h
      refine ⟨rfl, ?_⟩
      rw [hmem c (by simp)]
      exact ih _ (fun d hd => hmem d (by simp [hd])) hrest

theorem chainP_head {s : SigState} {x : Option Nat} {ns : List Nat} (h : ChainP s x ns) :
    x = ns.head? := by
  cases ns with
  | nil => exact h
  | cons c rest => exact h.1

theorem chainP_next_mid {s : SigState} :
    ∀ (as : List Nat) (x : Option Nat) (c : Nat) (bs : List Nat),
      ChainP s x (as ++ c :: bs) → (s.conns c).nextReceiver = bs.head? := by
  intro as
  induction as with
  | nil =>
      intro x c bs h
      exact chainP_head h.2
  | cons a as' ih =>
      intro x c bs h
      exact ih _ c bs h.2

theorem chainP_drop {s : SigState} :
    ∀ (as bs : List Nat) (x : Option Nat), ChainP s x (as ++ bs) → ChainP s bs.head? bs := by
  intro as
  induction as with
  | nil =>
      intro bs x h
      cases bs with
      | nil => simp [ChainP]
      | cons c rest => exact ⟨rfl, (h.1 ▸ h).2⟩
  | cons a as' ih => intro bs x h; exact ih bs _ h.2

theorem chainP_last_next {s : SigState} {x : Option Nat} {ns : List Nat} (h : ChainP s x ns)
    (hne : ns ≠ []) : (s.conns (ns.getLast hne)).nextReceiver = none := by
  have hd := List.dropLast_append_getLast hne
  rw [← hd] at h
  simpa using chainP_next_mid ns.dropLast x (ns.getLast hne) [] (by simpa using h)

theorem follow_congr_all {s s' : SigState}
    (hnext : ∀ c, (s'.conns c).nextReceiver = (s.conns c).nextReceiver) :
    ∀ (f : Nat) (x : Option Nat), follow s' f x = follow s f x := by
  intro f
  induction f with
  | zero => intro x; cases x <;> simp [follow]
  | succ f ih => intro x; cases x <;> simp [follow, hnext, ih]

theorem chainP_chainOf {s : SigState} {lid : Nat} {ns : List Nat}
    (h : chainOf s lid = some ns) : ChainP s ((s.lists lid).first) ns :=
  chainP_of_follow s _ _ _ h

theorem chainOf_of_chainP {s : SigState} {lid : Nat} {ns : List Nat}
    (h : ChainP s ((s.lists lid).first) ns) (hlen : ns.length ≤ s.numConns) :
    chainOf s lid = some ns :=
  follow_of_chainP s _ _ _ h hlen

theorem chainD_eq {s : SigState} {lid : Nat} {ns : List Nat} (h : chainOf s lid = some ns) :
    chainD s lid = ns := by
  simp [chainD, h]

theorem nodup_length_le (ns : List Nat) (N : Nat) (hnd : ns.Nodup) (hb : ∀ c ∈ ns, c < N) :
    ns.length ≤ N := by
  classical
  have h1 : ns.toFinset.card = ns.length := List.toFinset_card_of_nodup hnd
  have h2 : ns.toFinset ⊆ Finset.range N := by
    intro c hc
    rw [List.mem_toFinset] at hc
    exact Finset.mem_range.mpr (hb c hc)
  calc ns.length = ns.toFinset.card := h1.symm
    _ ≤ (Finset.range N).card := Finset.card_le_card h2
    _ = N := Finset.card_range N

/-- Unpacked form of `ValidListAt`. -/
theorem validListAt_iff (s : SigState) (lid : Nat) :
    ValidListAt s lid ↔ ∃ ns, chainOf s lid = some ns ∧ ns.Nodup ∧
      (∀ c ∈ ns, c < s.numConns) ∧ (s.lists lid).last = ns.getLast? := by
  constructor
  · rintro ⟨h1, h2, h3, h4⟩
    obtain ⟨ns, hns⟩ := Option.isSome_iff_exists.mp h1
    exact ⟨ns, hns, by rwa [chainD_eq hns] at h2, by rwa [chainD_eq hns] at h3,
      by rwa [chainD_eq hns] at h4⟩
  · rintro ⟨ns, hns, h2, h3, h4⟩
    refine ⟨by simp [hns], ?_, ?_, ?_⟩ <;> rw [chainD_eq hns] <;> assumption

/-!
### Frame lemmas for `removeFromEmittersList`
-/

theorem rfel_conns (s : SigState) (i c : Nat) :
    ((removeFromEmittersList s i).conns c).nextReceiver = (s.conns c).nextReceiver ∧
    ((removeFromEmittersList s i).conns c).callback = (s.conns c).callback ∧
    ((removeFromEmittersList s i).conns c).thisArg = (s.conns c).thisArg ∧
    ((removeFromEmittersList s i).conns c).token = (s.conns c).token := by
  unfold removeFromEmittersList
  cases hp : (s.conns i).prevEmitter <;> cases hn : (s.conns i).nextEmitter <;>
    simp [hp, hn] <;> split_ifs <;> simp_all

theorem rfel_lists (s : SigState) (i : Nat) :
    (removeFromEmittersList s i).lists = s.lists := by
  unfold removeFromEmittersList
  cases hp : (s.conns i).prevEmitter <;> cases hn : (s.conns i).nextEmitter <;> simp [hp, hn]

theorem rfel_numConns (s : SigState) (i : Nat) :
    (removeFromEmittersList s i).numConns = s.numConns := by
  unfold removeFromEmittersList
  cases hp : (s.conns i).prevEmitter <;> cases hn : (s.conns i).nextEmitter <;> simp [hp, hn]

theorem rfel_numLists (s : SigState) (i : Nat) :
    (removeFromEmittersList s i).numLists = s.numLists := by
  unfold removeFromEmittersList
  cases hp : (s.conns i).prevEmitter <;> cases hn : (s.conns i).nextEmitter <;> simp [hp, hn]

theorem rfel_emitterMap (s : SigState) (i : Nat) :
    (removeFromEmittersList s i).emitterMap = s.emitterMap := by
  unfold removeFromEmittersList
  cases hp : (s.conns i).prevEmitter <;> cases hn : (s.conns i).nextEmitter <;> simp [hp, hn]

theorem rfel_currentEmitter (s : SigState) (i : Nat) :
    (removeFromEmittersList s i).currentEmitter = s.currentEmitter := by
  unfold removeFromEmittersList
  cases hp : (s.conns i).prevEmitter <;> cases hn : (s.conns i).nextEmitter <;> simp [hp, hn]

theorem rfel_trace (s : SigState) (i : Nat) :
    (removeFromEmittersList s i).trace = s.trace := by
  unfold removeFromEmittersList
  cases hp : (s.conns i).prevEmitter <;> cases hn : (s.conns i).nextEmitter <;> simp [hp, hn]

/-- `removeFromEmittersList` leaves every chain unchanged. -/
theorem rfel_chainOf (s : SigState) (i lid : Nat) :
    chainOf (removeFromEmittersList s i) lid = chainOf s lid := by
  unfold chainOf
  rw [rfel_numConns, rfel_lists, follow_congr_all (fun c => (rfel_conns s i c).1)]

/-!
### Congruence lemmas for the invariant
-/

/-- `StructInv` only depends on the chains, `last` pointers, refcounts,
heap bounds and the registry entries. -/
theorem structInv_congr {s s' : SigState}
    (hnc : s'.numConns = s.numConns) (hnl : s'.numLists = s.numLists)
    (hem : s'.emitterMap.Sublist s.emitterMap)
    (hch : ∀ lid, chainOf s' lid = chainOf s lid)
    (hlast : ∀ lid, (s'.lists lid).last = (s.lists lid).last)
    (hrefs : ∀ lid, (s'.lists lid).refs = (s.lists lid).refs) :
    StructInv s → StructInv s' := by
  rintro ⟨h1, h2, h3, h4, h5⟩
  have hcd : ∀ lid, chainD s' lid = chainD s lid := fun lid => by
    simp [chainD, hch lid]
  refine ⟨?_, ?_, ?_, ?_, ?_⟩
  · intro p hp
    rw [hnl]
    exact h1 p (hem.mem hp)
  · exact h2.sublist hem
  · intro lid hlid
    rw [hnl] at hlid
    obtain ⟨ns, hns, hnd, hb, hl⟩ := (validListAt_iff s lid).mp (h3 lid hlid)
    exact (validListAt_iff s' lid).mpr
      ⟨ns, (hch lid).trans hns, hnd, fun c hc => hnc ▸ hb c hc, (hlast lid).trans hl⟩
  · intro l1 hl1 l2 hl2 hne c hc
    rw [hnl] at hl1 hl2
    rw [hcd] at hc ⊢
    exact h4 l1 hl1 l2 hl2 hne c hc
  · intro lid hlid
    rw [hnl] at hlid
    rw [hrefs]
    exact h5 lid hlid

/-- `UniqueLive` is preserved by operations that keep the chains and
either keep a connection's `(token, callback, thisArg)` or clear its
callback. -/
theorem uniqueLive_congr {s s' : SigState}
    (hnl : s'.numLists = s.numLists)
    (hch : ∀ lid, chainOf s' lid = chainOf s lid)
    (hc : ∀ c, ((s'.conns c).callback = (s.conns c).callback ∧
        (s'.conns c).thisArg = (s.conns c).thisArg ∧
        (s'.conns c).token = (s.conns c).token) ∨ (s'.conns c).callback = none) :
    UniqueLive s → UniqueLive s' := by
  intro h lid hlid
  rw [hnl] at hlid
  have hcd : chainD s' lid = chainD s lid := by simp [chainD, hch lid]
  rw [hcd]
  refine (h lid hlid).imp ?_
  rintro a b hnab ⟨ha, hb, hsame⟩
  rcases hc a with ⟨ha1, ha2, ha3⟩ | ha4
  · rcases hc b with ⟨hb1, hb2, hb3⟩ | hb4
    · refine hnab ⟨?_, ?_, ?_⟩
      · simpa [isLive, ha1] using ha
      · simpa [isLive, hb1] using hb
      · obtain ⟨hs1, hs2, hs3⟩ := hsame
        exact ⟨by rwa [ha3, hb3] at hs1, by rwa [ha1, hb1] at hs2, by rwa [ha2, hb2] at hs3⟩
    · exact hb (by simp [isLive, hb4])
  · exact ha (by simp [isLive, ha4])

/-- Produce an `Evolves` fact for an operation that keeps the heap sizes,
all chains, the maps (up to deleting entries), refcounts, `last` pointers,
`currentEmitter` and the trace, and only tombstones connections. -/
theorem evolves_of_frame {s s' : SigState} (hw : WfState s)
    (hnc : s'.numConns = s.numConns) (hnl : s'.numLists = s.numLists)
    (hem : s'.emitterMap.Sublist s.emitterMap)
    (hch : ∀ lid, chainOf s' lid = chainOf s lid)
    (hlast : ∀ lid, (s'.lists lid).last = (s.lists lid).last)
    (hrefs : ∀ lid, (s'.lists lid).refs = (s.lists lid).refs)
    (hcur : s'.currentEmitter = s.currentEmitter)
    (hc : ∀ c, ((s'.conns c).callback = (s.conns c).callback ∧
        (s'.conns c).thisArg = (s.conns c).thisArg ∧
        (s'.conns c).token = (s.conns c).token) ∨
        ((s'.conns c).callback = none ∧ (s'.conns c).token = (s.conns c).token))
    (htr : s'.trace = s.trace) : Evolves s s' := by
  obtain ⟨hs, hu⟩ := hw
  refine ⟨⟨structInv_congr hnc hnl hem hch hlast hrefs hs,
    uniqueLive_congr hnl hch (fun c => (hc c).imp id And.left) hu⟩,
    le_of_eq hnc.symm, le_of_eq hnl.symm, hcur, fun lid _ => hrefs lid, ?_, ?_, ?_, ⟨[], by simp [htr]⟩⟩
  · intro c _
    rcases hc c with ⟨_, _, h⟩ | ⟨_, h⟩ <;> exact h
  · intro c _ hdead
    rcases hc c with ⟨h, _, _⟩ | ⟨h, _⟩
    · rw [h, hdead]
    · exact h
  · intro lid hlid _
    obtain ⟨ns, hns, _, _, _⟩ := (validListAt_iff s lid).mp (hs.2.2.1 lid hlid)
    exact ⟨[], by simp [hch lid, hns, chainD_eq hns]⟩

theorem evolves_refl {s : SigState} (hw : WfState s) : Evolves s s :=
  evolves_of_frame hw rfl rfl (List.Sublist.refl _) (fun _ => rfl) (fun _ => rfl)
    (fun _ => rfl) rfl (fun _ => Or.inl ⟨rfl, rfl, rfl⟩) rfl

/-- `chainOf` only depends on `numConns`, `first` pointers and
`nextReceiver` fields. -/
theorem chainOf_eq_of {s s' : SigState} (hnc : s'.numConns = s.numConns)
    (hfirst : ∀ lid, (s'.lists lid).first = (s.lists lid).first)
    (hnext : ∀ c, (s'.conns c).nextReceiver = (s.conns c).nextReceiver) :
    ∀ lid, chainOf s' lid = chainOf s lid := by
  intro lid
  unfold chainOf
  rw [hnc, hfirst, follow_congr_all hnext]

/-- Unlinking one connection from the receiver side and tombstoning it
evolves the state. -/
theorem evolves_kill_one {s : SigState} (hw : WfState s) (c : Nat) :
    Evolves s (updConn (removeFromEmittersList s c) c
      (fun cn => { cn with callback := none, thisArg := JSVal.null })) := by
  set s2 := updConn (removeFromEmittersList s c) c
    (fun cn => { cn with callback := none, thisArg := JSVal.null }) with hs2
  have hnext : ∀ d, (s2.conns d).nextReceiver = (s.conns d).nextReceiver := by
    intro d
    rw [hs2, updConn_conns]
    split_ifs with hd
    · rw [hd]; exact (rfel_conns s c c).1
    · exact (rfel_conns s c d).1
  refine evolves_of_frame hw ?_ ?_ ?_
    (chainOf_eq_of ?_ ?_ hnext) ?_ ?_ ?_ ?_ ?_
  · rw [hs2, updConn_numConns, rfel_numConns]
  · rw [hs2, updConn_numLists, rfel_numLists]
  · rw [hs2, updConn_emitterMap, rfel_emitterMap]
  · rw [hs2, updConn_numConns, rfel_numConns]
  · intro lid'; rw [hs2, updConn_lists, rfel_lists]
  · intro lid'; rw [hs2, updConn_lists, rfel_lists]
  · intro lid'; rw [hs2, updConn_lists, rfel_lists]
  · rw [hs2, updConn_currentEmitter, rfel_currentEmitter]
  · intro d
    rw [hs2, updConn_conns]
    split_ifs with hd
    · rw [hd]
      exact Or.inr ⟨rfl, (rfel_conns s c c).2.2.2⟩
    · exact Or.inl ⟨(rfel_conns s c d).2.1, (rfel_conns s c d).2.2.1,
        (rfel_conns s c d).2.2.2⟩
  · rw [hs2, updConn_trace, rfel_trace]

/-- `disconnect` evolves the state: it only unlinks from the receiver side
and tombstones the matched connection. -/
theorem evolves_disconnect {s : SigState} (hw : WfState s) (o t : JSVal) (cb : Nat)
    (ctx : JSVal) : Evolves s (disconnect s o t cb ctx).2 := by
  cases halk : alookup s.emitterMap o with
  | none => simp only [disconnect, halk]; exact evolves_refl hw
  | some lid =>
      cases hfc : findConnection s lid t cb (jsOr ctx JSVal.undef) with
      | none => simp only [disconnect, halk, hfc]; exact evolves_refl hw
      | some c => simp only [disconnect, halk, hfc]; exact evolves_kill_one hw c

/-- Cumulative frame facts for the `disconnectEmitter` loop. -/
theorem dcELoop_frame : ∀ (f : Nat) (s : SigState) (x : Option Nat),
    (dcELoop s f x).lists = s.lists ∧ (dcELoop s f x).numConns = s.numConns ∧
    (dcELoop s f x).numLists = s.numLists ∧ (dcELoop s f x).emitterMap = s.emitterMap ∧
    (dcELoop s f x).currentEmitter = s.currentEmitter ∧ (dcELoop s f x).trace = s.trace ∧
    ∀ c, ((dcELoop s f x).conns c).nextReceiver = (s.conns c).nextReceiver ∧
      ((dcELoop s f x).conns c).token = (s.conns c).token ∧
      ((((dcELoop s f x).conns c).callback = (s.conns c).callback ∧
        ((dcELoop s f x).conns c).thisArg = (s.conns c).thisArg) ∨
        ((dcELoop s f x).conns c).callback = none) := by
  intro f
  induction f with
  | zero =>
      intro s x
      cases x <;> simp [dcELoop, fun c => Or.inl (⟨rfl, rfl⟩ : _ ∧ _)]
  | succ f ih =>
      intro s x
      cases x with
      | none => simp [dcELoop, fun c => Or.inl (⟨rfl, rfl⟩ : _ ∧ _)]
      | some c =>
          show _ ∧ _ ∧ _ ∧ _ ∧ _ ∧ _ ∧ _
          rw [dcELoop]
          set s2 := updConn (removeFromEmittersList s c) c
            (fun cn => { cn with callback := none, thisArg := JSVal.null }) with hs2
          obtain ⟨i1, i2, i3, i4, i5, i6, i7⟩ := ih s2 ((s2.conns c).nextReceiver)
          have f2lists : s2.lists = s.lists := by rw [hs2, updConn_lists, rfel_lists]
          have f2conns : ∀ d, (s2.conns d).nextReceiver = (s.conns d).nextReceiver ∧
              (s2.conns d).token = (s.conns d).token ∧
              (((s2.conns d).callback = (s.conns d).callback ∧
                (s2.conns d).thisArg = (s.conns d).thisArg) ∨ (s2.conns d).callback = none) := by
            intro d
            rw [hs2, updConn_conns]
            split_ifs with hd
            · rw [hd]
              exact ⟨(rfel_conns s c c).1, (rfel_conns s c c).2.2.2, Or.inr rfl⟩
            · exact ⟨(rfel_conns s c d).1, (rfel_conns s c d).2.2.2,
                Or.inl ⟨(rfel_conns s c d).2.1, (rfel_conns s c d).2.2.1⟩⟩
          refine ⟨by rw [i1, f2lists], by rw [i2, hs2]; simp [rfel_numConns],
            by rw [i3, hs2]; simp [rfel_numLists], by rw [i4, hs2]; simp [rfel_emitterMap],
            by rw [i5, hs2]; simp [rfel_currentEmitter], by rw [i6, hs2]; simp [rfel_trace], ?_⟩
          intro d
          obtain ⟨j1, j2, j3⟩ := i7 d
          obtain ⟨k1, k2, k3⟩ := f2conns d
          refine ⟨j1.trans k1, j2.trans k2, ?_⟩
          rcases j3 with ⟨jc, jt⟩ | jn
          · rcases k3 with ⟨kc, kt⟩ | kn
            · exact Or.inl ⟨jc.trans kc, jt.trans kt⟩
            · exact Or.inr (jc.trans kn)
          · exact Or.inr jn


/-- `disconnectEmitter` evolves the state. -/
theorem evolves_disconnectEmitter {s : SigState} (hw : WfState s) (o : JSVal) :
    Evolves s (disconnectEmitter s o) := by
  cases halk : alookup s.emitterMap o with
  | none => simp only [disconnectEmitter, halk]; exact evolves_refl hw
  | some lid =>
      simp only [disconnectEmitter, halk]
      obtain ⟨i1, i2, i3, i4, i5, i6, i7⟩ := dcELoop_frame s.numConns s ((s.lists lid).first)
      set s1 := dcELoop s s.numConns ((s.lists lid).first) with hs1
      refine evolves_of_frame hw ?_ ?_ ?_ (chainOf_eq_of ?_ ?_ ?_) ?_ ?_ ?_ ?_ ?_
      · exact i2
      · exact i3
      · show (aremove s1.emitterMap o).Sublist s.emitterMap
        rw [show aremove s1.emitterMap o = aremove s.emitterMap o from by rw [i4]]
        exact List.filter_sublist _
      · exact i2
      · intro lid'
        show (s1.lists lid').first = (s.lists lid').first
        rw [i1]
      · intro d
        exact (i7 d).1
      · intro lid'
        show (s1.lists lid').last = (s.lists lid').last
        rw [i1]
      · intro lid'
        show (s1.lists lid').refs = (s.lists lid').refs
        rw [i1]
      · exact i5
      · intro d
        rcases (i7 d).2.2 with ⟨hc, ht⟩ | hn
        · exact Or.inl ⟨hc, ht, (i7 d).2.1⟩
        · exact Or.inr ⟨hn, (i7 d).2.1⟩
      · exact i6

/-- Cumulative frame facts for the `disconnectReceiver` loop. -/
theorem dcRLoop_frame : ∀ (f : Nat) (s : SigState) (x : Option Nat),
    (dcRLoop s f x).lists = s.lists ∧ (dcRLoop s f x).numConns = s.numConns ∧
    (dcRLoop s f x).numLists = s.numLists ∧ (dcRLoop s f x).emitterMap = s.emitterMap ∧
    (dcRLoop s f x).receiverMap = s.receiverMap ∧
    (dcRLoop s f x).currentEmitter = s.currentEmitter ∧ (dcRLoop s f x).trace = s.trace ∧
    ∀ c, ((dcRLoop s f x).conns c).nextReceiver = (s.conns c).nextReceiver ∧
      ((dcRLoop s f x).conns c).token = (s.conns c).token ∧
      ((((dcRLoop s f x).conns c).callback = (s.conns c).callback ∧
        ((dcRLoop s f x).conns c).thisArg = (s.conns c).thisArg) ∨
        ((dcRLoop s f x).conns c).callback = none) := by
  intro f
  induction f with
  | zero =>
      intro s x
      cases x <;> simp [dcRLoop, fun c => Or.inl (⟨rfl, rfl⟩ : _ ∧ _)]
  | succ f ih =>
      intro s x
      cases x with
      | none => simp [dcRLoop, fun c => Or.inl (⟨rfl, rfl⟩ : _ ∧ _)]
      | some c =>
          rw [dcRLoop]
          set s2 := updConn s c (fun cn =>
            { cn with callback := none, thisArg := JSVal.null,
                      prevEmitter := none, nextEmitter := none }) with hs2
          obtain ⟨i1, i2, i3, i4, i5, i6, i7, i8⟩ := ih s2 ((s.conns c).nextEmitter)
          have f2conns : ∀ d, (s2.conns d).nextReceiver = (s.conns d).nextReceiver ∧
              (s2.conns d).token = (s.conns d).token ∧
              (((s2.conns d).callback = (s.conns d).callback ∧
                (s2.conns d).thisArg = (s.conns d).thisArg) ∨ (s2.conns d).callback = none) := by
            intro d
            rw [hs2, updConn_conns]
            split_ifs with hd
            · rw [hd]; exact ⟨rfl, rfl, Or.inr rfl⟩
            · exact ⟨rfl, rfl, Or.inl ⟨rfl, rfl⟩⟩
          refine ⟨by rw [i1, hs2]; rfl, by rw [i2, hs2]; rfl, by rw [i3, hs2]; rfl,
            by rw [i4, hs2]; rfl, by rw [i5, hs2]; rfl, by rw [i6, hs2]; rfl,
            by rw [i7, hs2]; rfl, ?_⟩
          intro d
          obtain ⟨j1, j2, j3⟩ := i8 d
          obtain ⟨k1, k2, k3⟩ := f2conns d
          refine ⟨j1.trans k1, j2.trans k2, ?_⟩
          rcases j3 with ⟨jc, jt⟩ | jn
          · rcases k3 with ⟨kc, kt⟩ | kn
            · exact Or.inl ⟨jc.trans kc, jt.trans kt⟩
            · exact Or.inr (jc.trans kn)
          · exact Or.inr jn

/-- `disconnectReceiver` evolves the state. -/
theorem evolves_disconnectReceiver {s : SigState} (hw : WfState s) (r : JSVal) :
    Evolves s (disconnectReceiver s r) := by
  cases halk : alookup s.receiverMap r with
  | none => simp only [disconnectReceiver, halk]; exact evolves_refl hw
  | some h =>
      simp only [disconnectReceiver, halk]
      obtain ⟨i1, i2, i3, i4, i5, i6, i7, i8⟩ := dcRLoop_frame s.numConns s (some h)
      set s1 := dcRLoop s s.numConns (some h) with hs1
      refine evolves_of_frame hw ?_ ?_ ?_ (chainOf_eq_of ?_ ?_ ?_) ?_ ?_ ?_ ?_ ?_
      · exact i2
      · exact i3
      · show s1.emitterMap.Sublist s.emitterMap
        rw [i4]
      · exact i2
      · intro lid'
        show (s1.lists lid').first = (s.lists lid').first
        rw [i1]
      · intro d
        exact (i8 d).1
      · intro lid'
        show (s1.lists lid').last = (s.lists lid').last
        rw [i1]
      · intro lid'
        show (s1.lists lid').refs = (s.lists lid').refs
        rw [i1]
      · exact i6
      · intro d
        rcases (i8 d).2.2 with ⟨hc, ht⟩ | hn
        · exact Or.inl ⟨hc, ht, (i8 d).2.1⟩
        · exact Or.inr ⟨hn, (i8 d).2.1⟩
      · exact i7

/-!
### `findConnection`, `alookup` and chain-append lemmas
-/

/-- The match condition tested by `findConnection`. -/
def matchesQ (s : SigState) (c : Nat) (token : JSVal) (cb : Nat) (thisArg : JSVal) : Prop :=
  jsEq (s.conns c).token token = true ∧ (s.conns c).callback = some cb ∧
    jsEq (s.conns c).thisArg thisArg = true

instance (s : SigState) (c : Nat) (token : JSVal) (cb : Nat) (thisArg : JSVal) :
    Decidable (matchesQ s c token cb thisArg) := by
  unfold matchesQ; infer_instance

theorem findLoop_none_iff {s : SigState} {t : JSVal} {cb : Nat} {ctx : JSVal} :
    ∀ (ns : List Nat) (x : Option Nat) (f : Nat), ChainP s x ns → ns.length ≤ f →
      (findLoop s f x t cb ctx = none ↔ ∀ c ∈ ns, ¬matchesQ s c t cb ctx) := by
  intro ns
  induction ns with
  | nil =>
      intro x f h _
      cases h
      cases f <;> simp [findLoop]
  | cons c rest ih =>
      intro x f h hf
      obtain ⟨rfl, hrest⟩ := h
      cases f with
      | zero => simp at hf
      | succ f =>
          simp only [List.length_cons, Nat.succ_le_succ_iff] at hf
          by_cases hm : matchesQ s c t cb ctx
          · have hred : findLoop s (f + 1) (some c) t cb ctx = some c := by
              simp only [findLoop]
              simp only [matchesQ] at hm
              rw [if_pos hm]
            rw [hred]
            refine iff_of_false (by simp) ?_
            intro hall
            exact hall c (by simp) hm
          · have hred : findLoop s (f + 1) (some c) t cb ctx =
                findLoop s f ((s.conns c).nextReceiver) t cb ctx := by
              simp only [findLoop]
              simp only [matchesQ] at hm
              rw [if_neg hm]
            rw [hred, ih _ f hrest hf]
            constructor
            · intro hall d hd
              rcases List.mem_cons.mp hd with rfl | hd'
              · exact hm
              · exact hall d hd'
            · intro hall d hd
              exact hall d (List.mem_cons_of_mem _ hd)

theorem findLoop_some_mem {s : SigState} {t : JSVal} {cb : Nat} {ctx : JSVal} :
    ∀ (ns : List Nat) (x : Option Nat) (f : Nat) (c : Nat), ChainP s x ns →
      findLoop s f x t cb ctx = some c → c ∈ ns ∧ matchesQ s c t cb ctx := by
  intro ns
  induction ns with
  | nil =>
      intro x f c h hfl
      cases h
      cases f <;> simp [findLoop] at hfl
  | cons d rest ih =>
      intro x f c h hfl
      obtain ⟨rfl, hrest⟩ := h
      cases f with
      | zero => simp [findLoop] at hfl
      | succ f =>
          by_cases hm : matchesQ s d t cb ctx
          · have hred : findLoop s (f + 1) (some d) t cb ctx = some d := by
              simp only [findLoop]
              simp only [matchesQ] at hm
              rw [if_pos hm]
            rw [hred] at hfl
            cases hfl
            exact ⟨by simp, hm⟩
          · have hred : findLoop s (f + 1) (some d) t cb ctx =
                findLoop s f ((s.conns d).nextReceiver) t cb ctx := by
              simp only [findLoop]
              simp only [matchesQ] at hm
              rw [if_neg hm]
            rw [hred] at hfl
            obtain ⟨h1, h2⟩ := ih _ f c hrest hfl
            exact ⟨List.mem_cons_of_mem _ h1, h2⟩

theorem alookup_mem {m : List (JSVal × Nat)} {k : JSVal} {v : Nat}
    (h : alookup m k = some v) : ∃ k', (k', v) ∈ m ∧ jsEq k' k = true := by
  unfold alookup at h
  obtain ⟨p, hp, rfl⟩ := Option.map_eq_some'.mp h
  refine ⟨p.1, ?_, ?_⟩
  · simpa using List.mem_of_find?_eq_some hp
  · simpa using List.find?_some hp

theorem alookup_aremove_self (m : List (JSVal × Nat)) (k : JSVal) :
    alookup (aremove m k) k = none := by
  unfold alookup aremove
  have hnone : List.find? (fun p => jsEq p.1 k) (List.filter (fun p => !jsEq p.1 k) m) = none := by
    rw [List.find?_eq_none]
    intro p hp
    simp only [List.mem_filter] at hp
    simpa using hp.2
  rw [hnone]
  rfl

/-- Extend a chain by one fresh node linked behind the old final node. -/
theorem chainP_append_one {s s' : SigState} (L d : Nat) :
    ∀ (ns : List Nat) (x : Option Nat), ChainP s x (ns ++ [L]) →
      (∀ c ∈ ns, (s'.conns c).nextReceiver = (s.conns c).nextReceiver) →
      (s'.conns L).nextReceiver = some d →
      (s'.conns d).nextReceiver = none →
      ChainP s' x ((ns ++ [L]) ++ [d]) := by
  intro ns
  induction ns with
  | nil =>
      intro x h hkeep hL hd
      exact ⟨h.1, hL, hd⟩
  | cons a ns' ih =>
      intro x h hkeep hL hd
      refine ⟨h.1, ?_⟩
      rw [hkeep a (by simp)]
      exact ih _ h.2 (fun c hc => hkeep c (by simp [hc])) hL hd

/-- The receiver-side linking step of `connect` only touches
`prevEmitter`/`nextEmitter` fields. -/
theorem recvSideFacts (s3 : SigState) (cid : Nat) (x : Option Nat) :
    (∀ d, (((match x with
      | some h => updConn (updConn s3 h (fun c => { c with prevEmitter := some cid }))
          cid (fun c => { c with nextEmitter := some h })
      | none => s3) : SigState).conns d).nextReceiver = (s3.conns d).nextReceiver ∧
      (((match x with
      | some h => updConn (updConn s3 h (fun c => { c with prevEmitter := some cid }))
          cid (fun c => { c with nextEmitter := some h })
      | none => s3) : SigState).conns d).callback = (s3.conns d).callback ∧
      (((match x with
      | some h => updConn (updConn s3 h (fun c => { c with prevEmitter := some cid }))
          cid (fun c => { c with nextEmitter := some h })
      | none => s3) : SigState).conns d).thisArg = (s3.conns d).thisArg ∧
      (((match x with
      | some h => updConn (updConn s3 h (fun c => { c with prevEmitter := some cid }))
          cid (fun c => { c with nextEmitter := some h })
      | none => s3) : SigState).conns d).token = (s3.conns d).token) ∧
    ((match x with
      | some h => updConn (updConn s3 h (fun c => { c with prevEmitter := some cid }))
          cid (fun c => { c with nextEmitter := some h })
      | none => s3) : SigState).lists = s3.lists ∧
    ((match x with
      | some h => updConn (updConn s3 h (fun c => { c with prevEmitter := some cid }))
          cid (fun c => { c with nextEmitter := some h })
      | none => s3) : SigState).numConns = s3.numConns ∧
    ((match x with
      | some h => updConn (updConn s3 h (fun c => { c with prevEmitter := some cid }))
          cid (fun c => { c with nextEmitter := some h })
      | none => s3) : SigState).numLists = s3.numLists ∧
    ((match x with
      | some h => updConn (updConn s3 h (fun c => { c with prevEmitter := some cid }))
          cid (fun c => { c with nextEmitter := some h })
      | none => s3) : SigState).emitterMap = s3.emitterMap ∧
    ((match x with
      | some h => updConn (updConn s3 h (fun c => { c with prevEmitter := some cid }))
          cid (fun c => { c with nextEmitter := some h })
      | none => s3) : SigState).currentEmitter = s3.currentEmitter ∧
    ((match x with
      | some h => updConn (updConn s3 h (fun c => { c with prevEmitter := some cid }))
          cid (fun c => { c with nextEmitter := some h })
      | none => s3) : SigState).trace = s3.trace := by
  cases x with
  | none => exact ⟨fun d => ⟨rfl, rfl, rfl, rfl⟩, rfl, rfl, rfl, rfl, rfl, rfl⟩
  | some h =>
      refine ⟨?_, rfl, rfl, rfl, rfl, rfl, rfl⟩
      intro d
      simp only [updConn_conns]
      split_ifs with h1 h2 h2 <;> subst_vars <;> simp

/-- Values added by `aset` keep the value-distinctness of the registry. -/
theorem aset_pairwise_values {m : List (JSVal × Nat)} {k : JSVal} {v : Nat}
    (h : m.Pairwise (fun p q => p.2 ≠ q.2)) (hv : ∀ p ∈ m, p.2 ≠ v) :
    (aset m k v).Pairwise (fun p q => p.2 ≠ q.2) := by
  unfold aset aremove
  rw [List.pairwise_cons]
  exact ⟨fun p hp => (hv p (List.mem_of_mem_filter hp)).symm,
    h.sublist (List.filter_sublist _)⟩

theorem aset_mem_bound {m : List (JSVal × Nat)} {k : JSVal} {v : Nat} {P : JSVal × Nat → Prop}
    (h : ∀ p ∈ m, P p) (hv : P (k, v)) : ∀ p ∈ aset m k v, P p := by
  intro p hp
  rcases List.mem_cons.mp hp with rfl | hp'
  · exact hv
  · exact h p (List.mem_of_mem_filter hp')

/-- `connectAppend` (the successful `connect` on an owner with a non-empty
list) evolves the state and appends the fresh connection at the tail of
the owner's chain. -/
theorem evolves_connectAppend {s : SigState} (hw : WfState s) {o t : JSVal} {cb : Nat}
    {ctxC : JSVal} {lid lastId : Nat}
    (halk : alookup s.emitterMap o = some lid)
    (hfindn : findConnection s lid t cb ctxC = none)
    (hlast : (s.lists lid).last = some lastId) :
    Evolves s (connectAppend s lid lastId t cb ctxC) ∧
    chainOf (connectAppend s lid lastId t cb ctxC) lid =
      some (chainD s lid ++ [s.numConns]) := by
  obtain ⟨⟨hmapb, hmapp, hvalid, hdisj, hrefs0⟩, hul⟩ := hw
  have hlidlt : lid < s.numLists := by
    obtain ⟨k', hk', _⟩ := alookup_mem halk
    exact hmapb _ hk'
  obtain ⟨ns, hns, hnd, hb, hlastc⟩ := (validListAt_iff s lid).mp (hvalid lid hlidlt)
  set cid := s.numConns with hcid
  set s1 : SigState := { s with
    conns := fun j => if j = cid then
      ({ token := t, callback := some cb, thisArg := ctxC } : Connection) else s.conns j,
    numConns := s.numConns + 1 } with hs1def
  set s2 : SigState := updConn s1 lastId (fun c => { c with nextReceiver := some cid })
    with hs2def
  set s3 : SigState := updList s2 lid (fun l => { l with last := some cid }) with hs3def
  set recv : JSVal := jsOr ctxC (JSVal.fn cb) with hrecvdef
  obtain ⟨r1, r2, r3, r4, r5, r6, r7⟩ := recvSideFacts s3 cid (alookup s3.receiverMap recv)
  set sf := connectAppend s lid lastId t cb ctxC with hsf
  -- basic facts about the old chain
  have hnsne : ns ≠ [] := by
    intro hnil
    rw [hnil] at hlastc
    rw [hlast] at hlastc
    simp at hlastc
  have hlastmem : lastId ∈ ns := by
    have hx : some lastId = ns.getLast? := hlast ▸ hlastc
    rw [List.getLast?_eq_getLast ns hnsne] at hx
    have hg : ns.getLast hnsne = lastId := Option.some.inj hx.symm
    rw [← hg]
    exact List.getLast_mem _
  have hlastlt : lastId < s.numConns := hb lastId hlastmem
  have hlastne_cid : lastId ≠ cid := fun hh => absurd hlastlt (hh ▸ lt_irrefl _)
  have hcid_not_ns : cid ∉ ns := fun hmem => absurd (hb cid hmem) (lt_irrefl _)
  have hdecomp : ns = ns.dropLast ++ [lastId] := by
    have hdla := List.dropLast_append_getLast hnsne
    have hx : some lastId = ns.getLast? := hlast ▸ hlastc
    rw [List.getLast?_eq_getLast ns hnsne] at hx
    rw [Option.some.inj hx.symm] at hdla
    exact hdla.symm
  have hlast_not_dl : lastId ∉ ns.dropLast := by
    intro hmem
    have hnd' := hdecomp ▸ hnd
    rw [List.nodup_append] at hnd'
    exact hnd'.2.2 hmem (by simp)
  -- field summaries for the final state
  have hconnssf : sf.conns = (match alookup s3.receiverMap recv with
    | some h => updConn (updConn s3 h (fun c => { c with prevEmitter := some cid }))
        cid (fun c => { c with nextEmitter := some h })
    | none => s3).conns := by
    rw [hsf]
    rfl
  have hnext : ∀ d, (sf.conns d).nextReceiver =
      if d = cid then none else if d = lastId then some cid
      else (s.conns d).nextReceiver := by
    intro d
    have heq : (sf.conns d).nextReceiver = (s3.conns d).nextReceiver := by
      rw [hconnssf]
      exact (r1 d).1
    rw [heq, hs3def, updList_conns, hs2def, updConn_conns]
    by_cases hdc : d = cid
    · rw [if_pos hdc, if_neg (hdc ▸ fun hh => hlastne_cid hh.symm), hs1def]
      all_goals simp [hdc]
    · rw [if_neg hdc]
      by_cases hdl : d = lastId
      · rw [if_pos hdl, if_pos hdl]
      · rw [if_neg hdl, if_neg hdl, hs1def]
        simp [hdc]
  have hcb2 : ∀ d, (sf.conns d).callback =
      if d = cid then some cb else (s.conns d).callback := by
    intro d
    have heq : (sf.conns d).callback = (s3.conns d).callback := by
      rw [hconnssf]
      exact (r1 d).2.1
    rw [heq, hs3def, updList_conns, hs2def, updConn_conns]
    by_cases hdc : d = cid
    · rw [if_pos hdc, if_neg (hdc ▸ fun hh => hlastne_cid hh.symm), hs1def]
      simp [hdc]
    · rw [if_neg hdc]
      by_cases hdl : d = lastId
      · rw [if_pos hdl, hs1def]
        simp [hdl, hdc, hlastne_cid]
      · rw [if_neg hdl, hs1def]
        simp [hdc]
  have hthis2 : ∀ d, (sf.conns d).thisArg =
      if d = cid then ctxC else (s.conns d).thisArg := by
    intro d
    have heq : (sf.conns d).thisArg = (s3.conns d).thisArg := by
      rw [hconnssf]
      exact (r1 d).2.2.1
    rw [heq, hs3def, updList_conns, hs2def, updConn_conns]
    by_cases hdc : d = cid
    · rw [if_pos hdc, if_neg (hdc ▸ fun hh => hlastne_cid hh.symm), hs1def]
      simp [hdc]
    · rw [if_neg hdc]
      by_cases hdl : d = lastId
      · rw [if_pos hdl, hs1def]
        simp [hdl, hdc, hlastne_cid]
      · rw [if_neg hdl, hs1def]
        simp [hdc]
  have htok2 : ∀ d, (sf.conns d).token =
      if d = cid then t else (s.conns d).token := by
    intro d
    have heq : (sf.conns d).token = (s3.conns d).token := by
      rw [hconnssf]
      exact (r1 d).2.2.2
    rw [heq, hs3def, updList_conns, hs2def, updConn_conns]
    by_cases hdc : d = cid
    · rw [if_pos hdc, if_neg (hdc ▸ fun hh => hlastne_cid hh.symm), hs1def]
      simp [hdc]
    · rw [if_neg hdc]
      by_cases hdl : d = lastId
      · rw [if_pos hdl, hs1def]
        simp [hdl, hdc, hlastne_cid]
      · rw [if_neg hdl, hs1def]
        simp [hdc]
  have hlists2 : ∀ j, sf.lists j =
      if j = lid then { s.lists lid with last := some cid } else s.lists j := by
    intro j
    have heq : sf.lists = s3.lists := by
      rw [hsf]
      exact r2
    rw [heq, hs3def, updList_lists]
    by_cases hj : j = lid
    · rw [if_pos hj, if_pos hj, hs2def, updConn_lists, hs1def]
    · rw [if_neg hj, if_neg hj, hs2def, updConn_lists, hs1def]
  have hnc2 : sf.numConns = s.numConns + 1 := by
    have heq : sf.numConns = s3.numConns := by rw [hsf]; exact r3
    rw [heq, hs3def, updList_numConns, hs2def, updConn_numConns, hs1def]
  have hnl2 : sf.numLists = s.numLists := by
    have heq : sf.numLists = s3.numLists := by rw [hsf]; exact r4
    rw [heq, hs3def, updList_numLists, hs2def, updConn_numLists, hs1def]
  have hem2 : sf.emitterMap = s.emitterMap := by
    have heq : sf.emitterMap = s3.emitterMap := by rw [hsf]; exact r5
    rw [heq, hs3def, updList_emitterMap, hs2def, updConn_emitterMap, hs1def]
  have hcur2 : sf.currentEmitter = s.currentEmitter := by
    have heq : sf.currentEmitter = s3.currentEmitter := by rw [hsf]; exact r6
    rw [heq, hs3def, updList_currentEmitter, hs2def, updConn_currentEmitter, hs1def]
  have htr2 : sf.trace = s.trace := by
    have heq : sf.trace = s3.trace := by rw [hsf]; exact r7
    rw [heq, hs3def, updList_trace, hs2def, updConn_trace, hs1def]
  -- the new chain of `lid`
  have hchain_lid : chainOf sf lid = some (ns ++ [cid]) := by
    have hcp : ChainP sf ((s.lists lid).first) (ns ++ [cid]) := by
      have hbase : ChainP s ((s.lists lid).first) (ns.dropLast ++ [lastId]) := by
        rw [← hdecomp]
        exact chainP_chainOf hns
      have hstep := chainP_append_one lastId cid ns.dropLast ((s.lists lid).first) hbase
        (fun c hc => by
          rw [hnext c, if_neg, if_neg]
          · intro hcl
            exact hlast_not_dl (hcl ▸ hc)
          · intro hcc
            exact absurd (hb c ((List.dropLast_sublist ns).subset hc)) (hcc ▸ lt_irrefl _))
        (by rw [hnext lastId, if_neg hlastne_cid, if_pos rfl])
        (by rw [hnext cid, if_pos rfl])
      rw [← hdecomp] at hstep
      exact hstep
    unfold chainOf
    rw [show (sf.lists lid).first = (s.lists lid).first from by rw [hlists2, if_pos rfl]]
    refine follow_of_chainP sf _ _ _ hcp ?_
    rw [hnc2]
    have := nodup_length_le ns s.numConns hnd hb
    simp only [List.length_append, List.length_cons, List.length_nil]
    omega
  have hchain_lid' : chainOf sf lid = some (chainD s lid ++ [cid]) := by
    rw [chainD_eq hns]
    exact hchain_lid
  -- other chains unchanged
  have hchain_other : ∀ lid2, lid2 < s.numLists → lid2 ≠ lid →
      chainOf sf lid2 = chainOf s lid2 := by
    intro lid2 hlt hne
    obtain ⟨ns2, hns2, hnd2, hb2, _⟩ := (validListAt_iff s lid2).mp (hvalid lid2 hlt)
    have hcp2 : ChainP sf ((s.lists lid2).first) ns2 := by
      refine chainP_congr _ _ ?_ (chainP_chainOf hns2)
      intro c hc
      rw [hnext c, if_neg, if_neg]
      · intro hcl
        subst hcl
        exact hdisj lid2 hlt lid hlidlt hne c ((chainD_eq hns2) ▸ hc) ((chainD_eq hns) ▸ hlastmem)
      · intro hcc
        exact absurd (hb2 c hc) (hcc ▸ lt_irrefl _)
    have h1 : chainOf sf lid2 = some ns2 := by
      unfold chainOf
      rw [show (sf.lists lid2).first = (s.lists lid2).first from by rw [hlists2, if_neg hne]]
      refine follow_of_chainP sf _ _ _ hcp2 ?_
      rw [hnc2]
      exact le_trans (nodup_length_le ns2 s.numConns hnd2 hb2) (Nat.le_succ _)
    rw [h1, hns2]
  -- matching facts from `findConnection = none`
  have hnomatch : ∀ c ∈ ns, ¬matchesQ s c t cb ctxC := by
    have hcp := chainP_chainOf hns
    have hlen := nodup_length_le ns s.numConns hnd hb
    exact (findLoop_none_iff ns _ s.numConns hcp hlen).mp hfindn
  -- well-formedness of the new state
  have hwf : WfState sf := by
    refine ⟨⟨?_, ?_, ?_, ?_, ?_⟩, ?_⟩
    · intro p hp
      rw [hnl2]
      exact hmapb p (hem2 ▸ hp)
    · rw [hem2]
      exact hmapp
    · intro lid2 hlt
      rw [hnl2] at hlt
      by_cases hne : lid2 = lid
      · subst hne
        refine (validListAt_iff sf lid2).mpr ⟨ns ++ [cid], hchain_lid, ?_, ?_, ?_⟩
        · rw [List.nodup_append]
          refine ⟨hnd, List.nodup_singleton _, fun a ha hb2 => ?_⟩
          simp at hb2
          exact hcid_not_ns (hb2 ▸ ha)
        · intro c hc
          rw [hnc2]
          rcases List.mem_append.mp hc with hc' | hc'
          · exact Nat.lt_succ_of_lt (hb c hc')
          · simp at hc'
            subst hc'
            exact Nat.lt_succ_self _
        · rw [hlists2, if_pos rfl]
          simp [List.getLast?_concat]
      · obtain ⟨ns2, hns2, hnd2, hb2, hl2⟩ := (validListAt_iff s lid2).mp (hvalid lid2 hlt)
        refine (validListAt_iff sf lid2).mpr ⟨ns2, (hchain_other lid2 hlt hne).trans hns2, hnd2,
          fun c hc => by rw [hnc2]; exact Nat.lt_succ_of_lt (hb2 c hc), ?_⟩
        rw [hlists2, if_neg hne]
        exact hl2
    · intro l1 hl1 l2 hl2 hne c hc
      rw [hnl2] at hl1 hl2
      have hcd : ∀ l', l' < s.numLists → chainD sf l' =
          if l' = lid then ns ++ [cid] else chainD s l' := by
        intro l' hl'
        by_cases h' : l' = lid
        · subst h'
          rw [if_pos rfl, chainD_eq hchain_lid]
        · rw [if_neg h']
          unfold chainD
          rw [hchain_other l' hl' h']
      rw [hcd l1 hl1] at hc
      rw [hcd l2 hl2]
      by_cases h1 : l1 = lid
      · subst h1
        rw [if_pos rfl] at hc
        rw [if_neg (fun hh => hne hh.symm)]
        rcases List.mem_append.mp hc with hc' | hc'
        · exact hdisj l1 hl1 l2 hl2 hne c ((chainD_eq hns) ▸ hc')
        · simp at hc'
          subst hc'
          intro hmem
          obtain ⟨ns2x, hns2x, _, hb2x, _⟩ := (validListAt_iff s l2).mp (hvalid l2 hl2)
          exact absurd (hb2x _ ((chainD_eq hns2x) ▸ hmem)) (lt_irrefl _)
      · rw [if_neg h1] at hc
        by_cases h2 : l2 = lid
        · subst h2
          rw [if_pos rfl]
          intro hmem
          rcases List.mem_append.mp hmem with hm' | hm'
          · exact hdisj l1 hl1 l2 hl2 hne c hc ((chainD_eq hns) ▸ hm')
          · simp at hm'
            obtain ⟨ns1x, hns1x, _, hb1x, _⟩ := (validListAt_iff s l1).mp (hvalid l1 hl1)
            rw [hm'] at hc
            exact absurd (hb1x _ ((chainD_eq hns1x) ▸ hc)) (lt_irrefl _)
        · rw [if_neg h2]
          exact hdisj l1 hl1 l2 hl2 hne c hc
    · intro lid2 hlt
      rw [hnl2] at hlt
      rw [hlists2]
      by_cases h' : lid2 = lid
      · rw [if_pos h']
        exact h' ▸ hrefs0 lid2 hlt
      · rw [if_neg h']
        exact hrefs0 lid2 hlt
    · intro lid2 hlt
      rw [hnl2] at hlt
      by_cases h' : lid2 = lid
      · subst h'
        rw [chainD_eq hchain_lid, List.pairwise_append]
        refine ⟨?_, List.pairwise_singleton _ _, ?_⟩
        · have hpw := (chainD_eq hns) ▸ hul lid2 hlt
          refine List.Pairwise.imp_of_mem ?_ hpw
          intro a b ha hbm hrel ⟨hla, hlb, hst⟩
          have hane : a ≠ cid := fun hh => hcid_not_ns (hh ▸ ha)
          have hbne : b ≠ cid := fun hh => hcid_not_ns (hh ▸ hbm)
          refine hrel ⟨?_, ?_, ?_, ?_, ?_⟩
          · simpa [isLive, hcb2 a, if_neg hane] using hla
          · simpa [isLive, hcb2 b, if_neg hbne] using hlb
          · have := hst.1
            rwa [htok2 a, htok2 b, if_neg hane, if_neg hbne] at this
          · have := hst.2.1
            rwa [hcb2 a, hcb2 b, if_neg hane, if_neg hbne] at this
          · have := hst.2.2
            rwa [hthis2 a, hthis2 b, if_neg hane, if_neg hbne] at this
        · intro a ha b hbm
          simp only [List.mem_singleton] at hbm
          subst hbm
          rintro ⟨hla, hlb, hst⟩
          have hane : a ≠ cid := fun hh => hcid_not_ns (hh ▸ ha)
          refine hnomatch a ha ⟨?_, ?_, ?_⟩
          · have := hst.1
            rwa [htok2 a, htok2 cid, if_neg hane, if_pos rfl] at this
          · have := hst.2.1
            rw [hcb2 a, hcb2 cid, if_neg hane, if_pos rfl] at this
            exact this
          · have := hst.2.2
            rwa [hthis2 a, hthis2 cid, if_neg hane, if_pos rfl] at this
      · have hcd2 : chainD sf lid2 = chainD s lid2 := by
          unfold chainD
          rw [hchain_other lid2 hlt h']
        rw [hcd2]
        refine List.Pairwise.imp_of_mem ?_ (hul lid2 hlt)
        intro a b ha hbm hrel ⟨hla, hlb, hst⟩
        obtain ⟨ns2, hns2, _, hb2, _⟩ := (validListAt_iff s lid2).mp (hvalid lid2 hlt)
        have hane : a ≠ cid := fun hh =>
          absurd (hb2 a ((chainD_eq hns2) ▸ ha)) (hh ▸ lt_irrefl _)
        have hbne : b ≠ cid := fun hh =>
          absurd (hb2 b ((chainD_eq hns2) ▸ hbm)) (hh ▸ lt_irrefl _)
        refine hrel ⟨?_, ?_, ?_, ?_, ?_⟩
        · simpa [isLive, hcb2 a, if_neg hane] using hla
        · simpa [isLive, hcb2 b, if_neg hbne] using hlb
        · have := hst.1
          rwa [htok2 a, htok2 b, if_neg hane, if_neg hbne] at this
        · have := hst.2.1
          rwa [hcb2 a, hcb2 b, if_neg hane, if_neg hbne] at this
        · have := hst.2.2
          rwa [hthis2 a, hthis2 b, if_neg hane, if_neg hbne] at this
  refine ⟨⟨hwf, ?_, ?_, hcur2, ?_, ?_, ?_, ?_, ⟨[], by rw [htr2, List.append_nil]⟩⟩, hchain_lid'⟩
  · rw [hnc2]
    exact Nat.le_succ _
  · rw [hnl2]
  · intro lid2 _
    rw [hlists2]
    by_cases h' : lid2 = lid
    · rw [if_pos h', h']
    · rw [if_neg h']
  · intro c hclt
    have hne : c ≠ cid := fun hh => absurd ((hh.trans hcid) ▸ hclt) (lt_irrefl s.numConns)
    rw [htok2, if_neg hne]
  · intro c hclt hdead
    have hne : c ≠ cid := fun hh => absurd ((hh.trans hcid) ▸ hclt) (lt_irrefl s.numConns)
    rw [hcb2, if_neg hne]
    exact hdead
  · intro lid2 hlt _
    by_cases h' : lid2 = lid
    · subst h'
      exact ⟨[cid], hchain_lid'⟩
    · refine ⟨[], ?_⟩
      rw [List.append_nil, hchain_other lid2 hlt h']
      obtain ⟨ns2, hns2, _, _, _⟩ := (validListAt_iff s lid2).mp (hvalid lid2 hlt)
      rw [hns2, chainD_eq hns2]

/-- `connectFresh` (the successful `connect` on an owner with no registry
entry) evolves the state and registers a fresh singleton list. -/
theorem evolves_connectFresh {s : SigState} (hw : WfState s) (o t : JSVal) (cb : Nat)
    (ctxC : JSVal) :
    Evolves s (connectFresh s o t cb ctxC) ∧
    (o ≠ JSVal.nan → alookup (connectFresh s o t cb ctxC).emitterMap o = some s.numLists) ∧
    chainOf (connectFresh s o t cb ctxC) s.numLists = some [s.numConns] := by
  obtain ⟨⟨hmapb, hmapp, hvalid, hdisj, hrefs0⟩, hul⟩ := hw
  set cid := s.numConns with hcid
  set nlid := s.numLists with hnlid
  set s1 : SigState := { s with
    conns := fun j => if j = cid then
      ({ token := t, callback := some cb, thisArg := ctxC } : Connection) else s.conns j,
    numConns := s.numConns + 1 } with hs1def
  set s2 : SigState := { s1 with
    lists := fun j => if j = nlid then
      ({ refs := 0, first := some cid, last := some cid } : ConnectionList) else s1.lists j,
    numLists := s1.numLists + 1,
    emitterMap := aset s1.emitterMap o nlid } with hs2def
  set recv : JSVal := jsOr ctxC (JSVal.fn cb) with hrecvdef
  obtain ⟨r1, r2, r3, r4, r5, r6, r7⟩ := recvSideFacts s2 cid (alookup s2.receiverMap recv)
  set sf := connectFresh s o t cb ctxC with hsf
  have hconnssf : sf.conns = (match alookup s2.receiverMap recv with
    | some h => updConn (updConn s2 h (fun c => { c with prevEmitter := some cid }))
        cid (fun c => { c with nextEmitter := some h })
    | none => s2).conns := by
    rw [hsf]
    rfl
  have hnext : ∀ d, (sf.conns d).nextReceiver =
      if d = cid then none else (s.conns d).nextReceiver := by
    intro d
    have heq : (sf.conns d).nextReceiver = (s2.conns d).nextReceiver := by
      rw [hconnssf]
      exact (r1 d).1
    rw [heq, hs2def]
    show ((if d = cid then _ else s.conns d) : Connection).nextReceiver = _
    by_cases hdc : d = cid
    · rw [if_pos hdc, if_pos hdc]
    · rw [if_neg hdc, if_neg hdc]
  have hcb2 : ∀ d, (sf.conns d).callback =
      if d = cid then some cb else (s.conns d).callback := by
    intro d
    have heq : (sf.conns d).callback = (s2.conns d).callback := by
      rw [hconnssf]
      exact (r1 d).2.1
    rw [heq, hs2def]
    show ((if d = cid then _ else s.conns d) : Connection).callback = _
    by_cases hdc : d = cid
    · rw [if_pos hdc, if_pos hdc]
    · rw [if_neg hdc, if_neg hdc]
  have hthis2 : ∀ d, (sf.conns d).thisArg =
      if d = cid then ctxC else (s.conns d).thisArg := by
    intro d
    have heq : (sf.conns d).thisArg = (s2.conns d).thisArg := by
      rw [hconnssf]
      exact (r1 d).2.2.1
    rw [heq, hs2def]
    show ((if d = cid then _ else s.conns d) : Connection).thisArg = _
    by_cases hdc : d = cid
    · rw [if_pos hdc, if_pos hdc]
    · rw [if_neg hdc, if_neg hdc]
  have htok2 : ∀ d, (sf.conns d).token =
      if d = cid then t else (s.conns d).token := by
    intro d
    have heq : (sf.conns d).token = (s2.conns d).token := by
      rw [hconnssf]
      exact (r1 d).2.2.2
    rw [heq, hs2def]
    show ((if d = cid then _ else s.conns d) : Connection).token = _
    by_cases hdc : d = cid
    · rw [if_pos hdc, if_pos hdc]
    · rw [if_neg hdc, if_neg hdc]
  have hlists2 : ∀ j, sf.lists j =
      if j = nlid then ({ refs := 0, first := some cid, last := some cid } : ConnectionList)
      else s.lists j := by
    intro j
    have heq : sf.lists = s2.lists := by
      rw [hsf]
      exact r2
    rw [heq, hs2def]
  have hnc2 : sf.numConns = s.numConns + 1 := by
    have heq : sf.numConns = s2.numConns := by rw [hsf]; exact r3
    rw [heq, hs2def]
  have hnl2 : sf.numLists = s.numLists + 1 := by
    have heq : sf.numLists = s2.numLists := by rw [hsf]; exact r4
    rw [heq, hs2def]
  have hem2 : sf.emitterMap = aset s.emitterMap o nlid := by
    have heq : sf.emitterMap = s2.emitterMap := by rw [hsf]; exact r5
    rw [heq, hs2def]
  have hcur2 : sf.currentEmitter = s.currentEmitter := by
    have heq : sf.currentEmitter = s2.currentEmitter := by rw [hsf]; exact r6
    rw [heq, hs2def]
  have htr2 : sf.trace = s.trace := by
    have heq : sf.trace = s2.trace := by rw [hsf]; exact r7
    rw [heq, hs2def]
  have hchain_new : chainOf sf nlid = some [cid] := by
    unfold chainOf
    rw [show (sf.lists nlid).first = some cid from by rw [hlists2, if_pos rfl]]
    refine follow_of_chainP sf _ _ _ ⟨rfl, ?_⟩ ?_
    · show (sf.conns cid).nextReceiver = none
      rw [hnext cid, if_pos rfl]
    · rw [hnc2]
      simp
  have hchain_old : ∀ lid2, lid2 < s.numLists → chainOf sf lid2 = chainOf s lid2 := by
    intro lid2 hlt
    obtain ⟨ns2, hns2, hnd2, hb2, _⟩ := (validListAt_iff s lid2).mp (hvalid lid2 hlt)
    have hne : lid2 ≠ nlid := fun hh => absurd ((hh.trans hnlid) ▸ hlt) (lt_irrefl s.numLists)
    have hcp2 : ChainP sf ((s.lists lid2).first) ns2 := by
      refine chainP_congr _ _ ?_ (chainP_chainOf hns2)
      intro c hc
      have hcne : c ≠ cid := fun hh =>
        absurd ((hh.trans hcid) ▸ hb2 c hc) (lt_irrefl s.numConns)
      rw [hnext c, if_neg hcne]
    have h1 : chainOf sf lid2 = some ns2 := by
      unfold chainOf
      rw [show (sf.lists lid2).first = (s.lists lid2).first from by rw [hlists2, if_neg hne]]
      refine follow_of_chainP sf _ _ _ hcp2 ?_
      rw [hnc2]
      exact le_trans (nodup_length_le ns2 s.numConns hnd2 hb2) (Nat.le_succ _)
    rw [h1, hns2]
  have hlookup_new : o ≠ JSVal.nan → alookup sf.emitterMap o = some nlid := by
    intro hnan
    rw [hem2]
    unfold alookup aset
    rw [List.find?_cons_of_pos _ (by simpa using jsEq_self o hnan)]
    rfl
  have hwf : WfState sf := by
    refine ⟨⟨?_, ?_, ?_, ?_, ?_⟩, ?_⟩
    · rw [hem2, hnl2]
      intro p hp
      unfold aset at hp
      rcases List.mem_cons.mp hp with rfl | hp'
      · exact Nat.lt_succ_self _
      · exact Nat.lt_succ_of_lt (hmapb p (List.mem_of_mem_filter hp'))
    · rw [hem2]
      refine aset_pairwise_values hmapp ?_
      intro p hp hh
      have h1 : p.2 < nlid := hmapb p hp
      rw [hh] at h1
      exact absurd h1 (lt_irrefl _)
    · intro lid2 hlt
      rw [hnl2] at hlt
      by_cases hne : lid2 = nlid
      · rw [hne]
        refine (validListAt_iff sf nlid).mpr ⟨[cid], hchain_new, List.nodup_singleton _, ?_, ?_⟩
        · intro c hc
          simp at hc
          subst hc
          rw [hnc2]
          exact Nat.lt_succ_self _
        · rw [hlists2, if_pos rfl]
          rfl
      · have hlt' : lid2 < s.numLists := by
          rcases Nat.lt_succ_iff_lt_or_eq.mp hlt with h | h
          · exact h
          · exact absurd (h.trans hnlid.symm) hne
        obtain ⟨ns2, hns2, hnd2, hb2, hl2⟩ := (validListAt_iff s lid2).mp (hvalid lid2 hlt')
        refine (validListAt_iff sf lid2).mpr ⟨ns2, (hchain_old lid2 hlt').trans hns2, hnd2,
          fun c hc => by rw [hnc2]; exact Nat.lt_succ_of_lt (hb2 c hc), ?_⟩
        rw [hlists2, if_neg hne]
        exact hl2
    · intro l1 hl1 l2 hl2 hne c hc
      rw [hnl2] at hl1 hl2
      have hcd : ∀ l', l' < s.numLists + 1 → chainD sf l' =
          if l' = nlid then [cid] else chainD s l' := by
        intro l' hl'
        by_cases h' : l' = nlid
        · subst h'
          rw [if_pos rfl, chainD_eq hchain_new]
        · rw [if_neg h']
          unfold chainD
          rw [hchain_old l' (by
            rcases Nat.lt_succ_iff_lt_or_eq.mp hl' with h | h
            · exact h
            · exact absurd (h.trans hnlid.symm) h')]
      rw [hcd l1 hl1] at hc
      rw [hcd l2 hl2]
      by_cases h1 : l1 = nlid
      · subst h1
        rw [if_pos rfl] at hc
        simp at hc
        subst hc
        rw [if_neg (fun hh => hne hh.symm)]
        intro hmem
        have hl2' : l2 < s.numLists := by
          rcases Nat.lt_succ_iff_lt_or_eq.mp hl2 with h | h
          · exact h
          · exact absurd (h.trans hnlid.symm) (fun hh => hne hh.symm)
        obtain ⟨ns2x, hns2x, _, hb2x, _⟩ := (validListAt_iff s l2).mp (hvalid l2 hl2')
        exact absurd ((chainD_eq hns2x ▸ hb2x) _ hmem) (lt_irrefl _)
      · rw [if_neg h1] at hc
        have hl1' : l1 < s.numLists := by
          rcases Nat.lt_succ_iff_lt_or_eq.mp hl1 with h | h
          · exact h
          · exact absurd (h.trans hnlid.symm) h1
        by_cases h2 : l2 = nlid
        · subst h2
          rw [if_pos rfl]
          intro hmem
          simp at hmem
          obtain ⟨ns1x, hns1x, _, hb1x, _⟩ := (validListAt_iff s l1).mp (hvalid l1 hl1')
          rw [hmem] at hc
          exact absurd ((chainD_eq hns1x ▸ hb1x) _ hc) (lt_irrefl _)
        · rw [if_neg h2]
          have hl2' : l2 < s.numLists := by
            rcases Nat.lt_succ_iff_lt_or_eq.mp hl2 with h | h
            · exact h
            · exact absurd (h.trans hnlid.symm) h2
          exact hdisj l1 hl1' l2 hl2' hne c hc
    · intro lid2 hlt
      rw [hlists2]
      by_cases h' : lid2 = nlid
      · rw [if_pos h']
      · rw [if_neg h']
        rw [hnl2] at hlt
        refine hrefs0 lid2 ?_
        rcases Nat.lt_succ_iff_lt_or_eq.mp hlt with h | h
        · exact h
        · exact absurd (h.trans hnlid.symm) h'
    · intro lid2 hlt
      rw [hnl2] at hlt
      by_cases h' : lid2 = nlid
      · subst h'
        rw [chainD_eq hchain_new]
        exact List.pairwise_singleton _ _
      · have hlt' : lid2 < s.numLists := by
          rcases Nat.lt_succ_iff_lt_or_eq.mp hlt with h | h
          · exact h
          · exact absurd (h.trans hnlid.symm) h'
        have hcd2 : chainD sf lid2 = chainD s lid2 := by
          unfold chainD
          rw [hchain_old lid2 hlt']
        rw [hcd2]
        refine List.Pairwise.imp_of_mem ?_ (hul lid2 hlt')
        intro a b ha hbm hrel ⟨hla, hlb, hst⟩
        obtain ⟨ns2, hns2, _, hb2, _⟩ := (validListAt_iff s lid2).mp (hvalid lid2 hlt')
        have hane : a ≠ cid := fun hh =>
          absurd ((hh.trans hcid) ▸ hb2 a ((chainD_eq hns2) ▸ ha)) (lt_irrefl s.numConns)
        have hbne : b ≠ cid := fun hh =>
          absurd ((hh.trans hcid) ▸ hb2 b ((chainD_eq hns2) ▸ hbm)) (lt_irrefl s.numConns)
        refine hrel ⟨?_, ?_, ?_, ?_, ?_⟩
        · simpa [isLive, hcb2 a, if_neg hane] using hla
        · simpa [isLive, hcb2 b, if_neg hbne] using hlb
        · have := hst.1
          rwa [htok2 a, htok2 b, if_neg hane, if_neg hbne] at this
        · have := hst.2.1
          rwa [hcb2 a, hcb2 b, if_neg hane, if_neg hbne] at this
        · have := hst.2.2
          rwa [hthis2 a, hthis2 b, if_neg hane, if_neg hbne] at this
  refine ⟨⟨hwf, ?_, ?_, hcur2, ?_, ?_, ?_, ?_, ⟨[], by rw [htr2, List.append_nil]⟩⟩,
    hlookup_new, hchain_new⟩
  · rw [hnc2]
    exact Nat.le_succ _
  · rw [hnl2]
    exact Nat.le_succ _
  · intro lid2 hlt
    have hne : lid2 ≠ nlid := fun hh => absurd ((hh.trans hnlid) ▸ hlt) (lt_irrefl s.numLists)
    rw [hlists2, if_neg hne]
  · intro c hclt
    have hne : c ≠ cid := fun hh => absurd ((hh.trans hcid) ▸ hclt) (lt_irrefl s.numConns)
    rw [htok2, if_neg hne]
  · intro c hclt hdead
    have hne : c ≠ cid := fun hh => absurd ((hh.trans hcid) ▸ hclt) (lt_irrefl s.numConns)
    rw [hcb2, if_neg hne]
    exact hdead
  · intro lid2 hlt _
    refine ⟨[], ?_⟩
    rw [List.append_nil, hchain_old lid2 hlt]
    obtain ⟨ns2, hns2, _, _, _⟩ := (validListAt_iff s lid2).mp (hvalid lid2 hlt)
    rw [hns2, chainD_eq hns2]

/-- Case summary of `connect`: either it succeeds and evolves the state,
or it refuses a duplicate leaving the state unchanged, or it crashes on an
empty registered list leaving the state unchanged. -/
theorem evolves_connect {s : SigState} (hw : WfState s) (o t : JSVal) (cb : Nat)
    (ctx : JSVal) :
    (∃ s', connect s o t cb ctx = ConnectRes.ret true s' ∧ Evolves s s') ∨
    connect s o t cb ctx = ConnectRes.ret false s ∨
    connect s o t cb ctx = ConnectRes.crash s := by
  cases halk : alookup s.emitterMap o with
  | none =>
      left
      exact ⟨_, by simp only [connect, halk],
        (evolves_connectFresh hw o t cb (jsOr ctx JSVal.undef)).1⟩
  | some lid =>
      by_cases hf : (findConnection s lid t cb (jsOr ctx JSVal.undef)).isSome = true
      · right; left
        simp only [connect, halk]
        rw [if_pos hf]
      · have hfn : findConnection s lid t cb (jsOr ctx JSVal.undef) = none := by
          cases hx : findConnection s lid t cb (jsOr ctx JSVal.undef) with
          | none => rfl
          | some c => exact absurd (by rw [hx]; rfl) hf
        cases hlast : (s.lists lid).last with
        | none =>
            right; right
            simp only [connect, halk, hlast]
            rw [if_neg hf]
        | some lastId =>
            left
            exact ⟨_, by simp only [connect, halk, hlast]; rw [if_neg hf],
              (evolves_connectAppend hw halk hfn hlast).1⟩

/-!
### `cleanList` correctness
-/

/-- The liveness test used by `cleanList` (and `invokeList`'s dirty flag),
as a Bool on the pre-state. -/
def liveB (s : SigState) (c : Nat) : Bool :=
  ((s.conns c).callback).isSome

/-- Rebuild a `ChainP` from consecutive links plus a null tail pointer. -/
theorem chainP_of_chain' (σ : SigState) :
    ∀ l : List Nat, List.Chain' (fun a b => (σ.conns a).nextReceiver = some b) l →
      (∀ hne : l ≠ [], (σ.conns (l.getLast hne)).nextReceiver = none) →
      ChainP σ l.head? l := by
  intro l
  induction l with
  | nil => intro _ _; rfl
  | cons c rest ih =>
      intro hch hlast
      refine ⟨rfl, ?_⟩
      cases rest with
      | nil =>
          have := hlast (by simp)
          simp at this
          simp [this, ChainP]
      | cons r rest' =>
          rw [List.chain'_cons] at hch
          rw [hch.1]
          exact ih hch.2 (fun hne => by
            have := hlast (by simp)
            rwa [List.getLast_cons (by simp)] at this)
  
/-- Transport consecutive links across an update of the final node's
`nextReceiver`. -/
theorem chain'_epilogue {σ σ' : SigState} (p : Nat)
    (hdiff : ∀ c, c ≠ p → (σ'.conns c).nextReceiver = (σ.conns c).nextReceiver) :
    ∀ l : List Nat, ∀ hne : l ≠ [], l.getLast hne = p → l.Nodup →
      List.Chain' (fun a b => (σ.conns a).nextReceiver = some b) l →
      List.Chain' (fun a b => (σ'.conns a).nextReceiver = some b) l := by
  intro l
  induction l with
  | nil => intro hne; simp at hne
  | cons c rest ih =>
      intro hne hl hnd hch
      cases rest with
      | nil => simp
      | cons r rest' =>
          rw [List.chain'_cons] at hch ⊢
          rw [List.getLast_cons (by simp)] at hl
          rw [List.nodup_cons] at hnd
          have hcne : c ≠ p := by
            intro hcp
            apply hnd.1
            rw [hcp, ← hl]
            exact List.getLast_mem _
          exact ⟨by rw [hdiff c hcne]; exact hch.1, ih (by simp) hl hnd.2 hch.2⟩

/-- One unfolding of the `cleanList` loop at a live or dead node. -/
theorem cleanLoop_cons (lid : Nat) (f : Nat) (prevC : Option Nat) (c : Nat) (s : SigState) :
    cleanLoop lid (f + 1) prevC (some c) s =
      if (s.conns c).callback = none then
        cleanLoop lid f prevC ((s.conns c).nextReceiver)
          (updConn s c (fun cn => { cn with nextReceiver := none }))
      else
        match prevC with
        | none => cleanLoop lid f (some c) ((s.conns c).nextReceiver)
            (updList s lid (fun l => { l with first := some c }))
        | some p => cleanLoop lid f (some c) ((s.conns c).nextReceiver)
            (updConn s p (fun cn => { cn with nextReceiver := some c })) := rfl

theorem cleanLoop_cons_dead (lid : Nat) (f : Nat) (prevC : Option Nat) (c : Nat)
    (s : SigState) (h : (s.conns c).callback = none) :
    cleanLoop lid (f + 1) prevC (some c) s =
      cleanLoop lid f prevC ((s.conns c).nextReceiver)
        (updConn s c (fun cn => { cn with nextReceiver := none })) := by
  rw [cleanLoop_cons, if_pos h]

theorem cleanLoop_cons_live_none (lid : Nat) (f : Nat) (c : Nat)
    (s : SigState) (h : ¬(s.conns c).callback = none) :
    cleanLoop lid (f + 1) none (some c) s =
      cleanLoop lid f (some c) ((s.conns c).nextReceiver)
        (updList s lid (fun l => { l with first := some c })) := by
  rw [cleanLoop_cons, if_neg h]

theorem cleanLoop_cons_live_some (lid : Nat) (f : Nat) (p c : Nat)
    (s : SigState) (h : ¬(s.conns c).callback = none) :
    cleanLoop lid (f + 1) (some p) (some c) s =
      cleanLoop lid f (some c) ((s.conns c).nextReceiver)
        (updConn s p (fun cn => { cn with nextReceiver := some c })) := by
  rw [cleanLoop_cons, if_neg h]

/-- Full characterization of the `cleanList` walking loop on a valid
chain segment. -/
theorem cleanLoop_spec (lid : Nat) :
    ∀ (ns : List Nat) (s : SigState) (f : Nat) (prevC : Option Nat) (s' : SigState)
      (pr' : Option Nat),
      ChainP s ns.head? ns → ns.Nodup → (∀ p, prevC = some p → p ∉ ns) →
      ns.length ≤ f →
      cleanLoop lid f prevC ns.head? s = (s', pr') →
      (∀ c, (s'.conns c).callback = (s.conns c).callback ∧
        (s'.conns c).thisArg = (s.conns c).thisArg ∧
        (s'.conns c).token = (s.conns c).token ∧
        (s'.conns c).prevEmitter = (s.conns c).prevEmitter ∧
        (s'.conns c).nextEmitter = (s.conns c).nextEmitter) ∧
      (∀ c, c ∉ ns → prevC ≠ some c →
        (s'.conns c).nextReceiver = (s.conns c).nextReceiver) ∧
      (s'.numConns = s.numConns ∧ s'.numLists = s.numLists ∧
        s'.emitterMap = s.emitterMap ∧ s'.receiverMap = s.receiverMap ∧
        s'.currentEmitter = s.currentEmitter ∧ s'.trace = s.trace) ∧
      (∀ j, j ≠ lid → s'.lists j = s.lists j) ∧
      ((s'.lists lid).last = (s.lists lid).last ∧ (s'.lists lid).refs = (s.lists lid).refs) ∧
      (ns.filter (liveB s) = [] → (s'.lists lid).first = (s.lists lid).first ∧ pr' = prevC) ∧
      (∀ k ks, ns.filter (liveB s) = k :: ks →
        pr' = (k :: ks).getLast? ∧
        (prevC = none → (s'.lists lid).first = some k) ∧
        (∀ p, prevC = some p → (s'.lists lid).first = (s.lists lid).first)) ∧
      List.Chain' (fun a b => (s'.conns a).nextReceiver = some b)
        (prevC.toList ++ ns.filter (liveB s)) ∧
      (∀ c ∈ ns, (s.conns c).callback = none → (s'.conns c).nextReceiver = none) := by
  intro ns
  induction ns with
  | nil =>
      intro s f prevC s' pr' hcp hnd hprev hf heq
      have hid : s' = s ∧ pr' = prevC := by
        cases f <;> simp [cleanLoop] at heq <;> exact ⟨heq.1.symm, heq.2.symm⟩
      obtain ⟨rfl, rfl⟩ := hid
      refine ⟨fun c => ⟨rfl, rfl, rfl, rfl, rfl⟩, fun c _ _ => rfl,
        ⟨rfl, rfl, rfl, rfl, rfl, rfl⟩, fun j _ => rfl, ⟨rfl, rfl⟩,
        fun _ => ⟨rfl, rfl⟩, fun k ks h => by simp at h, ?_, fun c hc => by simp at hc⟩
      cases pr' <;> simp
  | cons c rest ih =>
      intro s f prevC s' pr' hcp hnd hprev hf heq
      obtain ⟨hhd, hrest⟩ := hcp
      have hnextc : (s.conns c).nextReceiver = rest.head? := chainP_head hrest
      rw [hnextc] at hrest
      rw [List.nodup_cons] at hnd
      cases f with
      | zero => simp at hf
      | succ f =>
          rw [show ((c :: rest : List Nat)).head? = some c from rfl] at heq
          by_cases hdead : (s.conns c).callback = none
          · rw [cleanLoop_cons_dead lid f prevC c s hdead, hnextc] at heq
            set s2 := updConn s c (fun cn => { cn with nextReceiver := none }) with hs2
            have hcp2 : ChainP s2 rest.head? rest := by
              refine chainP_congr _ _ ?_ hrest
              intro d hd
              have hdc : d ≠ c := fun hh => hnd.1 (hh ▸ hd)
              rw [hs2, updConn_conns, if_neg hdc]
            have hfilt : rest.filter (liveB s2) = rest.filter (liveB s) := by
              apply List.filter_congr
              intro d _
              rw [liveB, liveB, hs2, updConn_conns]
              by_cases hdc : d = c
              · rw [if_pos hdc, hdc]
              · rw [if_neg hdc]
            obtain ⟨A, B, C, D, E, F, G, H, I⟩ := ih s2 f prevC s' pr' hcp2 hnd.2
              (fun p hp hmem => hprev p hp (List.mem_cons_of_mem _ hmem))
              (by simpa using Nat.le_of_succ_le_succ hf) heq
            have hfiltc : (c :: rest).filter (liveB s) = rest.filter (liveB s) := by
              rw [List.filter_cons_of_neg]
              simp [liveB, hdead]
            have hs2conns : ∀ d, d ≠ c → s2.conns d = s.conns d := by
              intro d hd
              rw [hs2, updConn_conns, if_neg hd]
            refine ⟨?_, ?_, ?_, D, E, ?_, ?_, ?_, ?_⟩
            · intro d
              obtain ⟨a1, a2, a3, a4, a5⟩ := A d
              by_cases hdc : d = c
              · subst hdc
                refine ⟨?_, ?_, ?_, ?_, ?_⟩ <;>
                  simp [a1, a2, a3, a4, a5, hs2, updConn_conns]
              · rw [hs2conns d hdc] at a1 a2 a3 a4 a5
                exact ⟨a1, a2, a3, a4, a5⟩
            · intro d hd hp
              have hdc : d ≠ c := fun hh => hd (hh ▸ List.mem_cons_self _ _)
              rw [B d (fun hh => hd (List.mem_cons_of_mem _ hh)) hp, hs2conns d hdc]
            · obtain ⟨c1, c2, c3, c4, c5, c6⟩ := C
              exact ⟨c1, c2, c3, c4, c5, c6⟩
            · rw [hfiltc, ← hfilt]
              exact F
            · intro k ks hkks
              rw [hfiltc, ← hfilt] at hkks
              exact G k ks hkks
            · rw [hfiltc, ← hfilt]
              exact H
            · intro d hd hdea
              rcases List.mem_cons.mp hd with rfl | hd'
              · rw [B d (fun hh => hnd.1 hh)
                  (fun hh => hprev d hh (List.mem_cons_self _ _)), hs2, updConn_conns,
                  if_pos rfl]
              · have hdc : d ≠ c := fun hh => hnd.1 (hh ▸ hd')
                refine I d hd' ?_
                rw [hs2conns d hdc]
                exact hdea
          · have hlivec : liveB s c = true := by
              rw [liveB, Option.isSome_iff_ne_none]
              exact hdead
            have hfiltc : (c :: rest).filter (liveB s) = c :: rest.filter (liveB s) :=
              List.filter_cons_of_pos hlivec
            cases hpc : prevC with
            | none =>
                rw [hpc] at heq
                rw [cleanLoop_cons_live_none lid f c s hdead, hnextc] at heq
                set s2 := updList s lid (fun l => { l with first := some c }) with hs2
                have hcp2 : ChainP s2 rest.head? rest := by
                  refine chainP_congr _ _ ?_ hrest
                  intro d _
                  rw [hs2]
                  rfl
                have hfilt : rest.filter (liveB s2) = rest.filter (liveB s) := by
                  apply List.filter_congr
                  intro d _
                  rw [liveB, liveB, hs2]
                  rfl
                obtain ⟨A, B, C, D, E, F, G, H, I⟩ := ih s2 f (some c) s' pr' hcp2 hnd.2
                  (fun p hp hmem => by cases hp; exact hnd.1 hmem)
                  (by simpa using Nat.le_of_succ_le_succ hf) heq
                refine ⟨?_, ?_, ?_, ?_, ?_, ?_, ?_, ?_, ?_⟩
                · intro d
                  obtain ⟨a1, a2, a3, a4, a5⟩ := A d
                  rw [hs2] at a1 a2 a3 a4 a5
                  exact ⟨a1, a2, a3, a4, a5⟩
                · intro d hd _
                  have hdc : d ≠ c := fun hh => hd (hh ▸ List.mem_cons_self _ _)
                  rw [B d (fun hh => hd (List.mem_cons_of_mem _ hh)) (fun hh => hdc
                    (Option.some.inj hh).symm), hs2]
                  rfl
                · obtain ⟨c1, c2, c3, c4, c5, c6⟩ := C
                  rw [hs2] at c1 c2 c3 c4 c5 c6
                  exact ⟨c1, c2, c3, c4, c5, c6⟩
                · intro j hj
                  rw [D j hj, hs2, updList_lists, if_neg hj]
                · obtain ⟨e1, e2⟩ := E
                  rw [hs2] at e1 e2
                  simp only [updList_lists, if_pos rfl] at e1 e2
                  exact ⟨e1, e2⟩
                · intro habs
                  rw [hfiltc] at habs
                  simp at habs
                · intro k ks hkks
                  rw [hfiltc] at hkks
                  have hck : c = k := (List.cons.inj hkks).1
                  refine ⟨?_, ?_, ?_⟩
                  · rw [← hkks]
                    cases hrf : rest.filter (liveB s) with
                    | nil =>
                        have hrf2 : rest.filter (liveB s2) = [] := by rw [hfilt, hrf]
                        rw [(F hrf2).2]
                        simp
                    | cons k2 ks2 =>
                        have hrf2 : rest.filter (liveB s2) = k2 :: ks2 := by rw [hfilt, hrf]
                        rw [(G k2 ks2 hrf2).1, List.getLast?_cons_cons]
                  · intro _
                    rw [← hck]
                    cases hrf : rest.filter (liveB s) with
                    | nil =>
                        have hrf2 : rest.filter (liveB s2) = [] := by rw [hfilt, hrf]
                        rw [(F hrf2).1, hs2, updList_lists, if_pos rfl]
                    | cons k2 ks2 =>
                        have hrf2 : rest.filter (liveB s2) = k2 :: ks2 := by rw [hfilt, hrf]
                        rw [(G k2 ks2 hrf2).2.2 c rfl, hs2, updList_lists, if_pos rfl]
                  · intro p hp
                    simp at hp
                · rw [hfiltc]
                  show List.Chain' _ ([] ++ c :: rest.filter (liveB s))
                  rw [List.nil_append, ← hfilt]
                  have := H
                  simpa using this
                · intro d hd hdea
                  rcases List.mem_cons.mp hd with rfl | hd'
                  · exact absurd hdea hdead
                  · refine I d hd' ?_
                    rw [hs2]
                    exact hdea
            | some p =>
                rw [hpc] at heq
                rw [cleanLoop_cons_live_some lid f p c s hdead, hnextc] at heq
                have hpne : p ∉ (c :: rest : List Nat) := hprev p hpc
                have hpnec : p ≠ c := fun hh => hpne (hh ▸ List.mem_cons_self _ _)
                set s2 := updConn s p (fun cn => { cn with nextReceiver := some c }) with hs2
                have hs2conns : ∀ d, d ≠ p → s2.conns d = s.conns d := by
                  intro d hd
                  rw [hs2, updConn_conns, if_neg hd]
                have hcp2 : ChainP s2 rest.head? rest := by
                  refine chainP_congr _ _ ?_ hrest
                  intro d hd
                  rw [hs2conns d (fun hh => hpne (hh ▸ List.mem_cons_of_mem _ hd))]
                have hfilt : rest.filter (liveB s2) = rest.filter (liveB s) := by
                  apply List.filter_congr
                  intro d _
                  rw [liveB, liveB, hs2, updConn_conns]
                  by_cases hdc : d = p
                  · rw [if_pos hdc, hdc]
                  · rw [if_neg hdc]
                obtain ⟨A, B, C, D, E, F, G, H, I⟩ := ih s2 f (some c) s' pr' hcp2 hnd.2
                  (fun q hq hmem => by cases hq; exact hnd.1 hmem)
                  (by simpa using Nat.le_of_succ_le_succ hf) heq
                refine ⟨?_, ?_, ?_, D, ?_, ?_, ?_, ?_, ?_⟩
                · intro d
                  obtain ⟨a1, a2, a3, a4, a5⟩ := A d
                  by_cases hdp : d = p
                  · subst hdp
                    refine ⟨?_, ?_, ?_, ?_, ?_⟩ <;>
                      simp [a1, a2, a3, a4, a5, hs2, updConn_conns]
                  · rw [hs2conns d hdp] at a1 a2 a3 a4 a5
                    exact ⟨a1, a2, a3, a4, a5⟩
                · intro d hd hp2
                  have hdp : d ≠ p := fun hh => hp2 (by rw [hh])
                  rw [B d (fun hh => hd (List.mem_cons_of_mem _ hh)) (fun hh => hd (by
                    rw [← Option.some.inj hh]; exact List.mem_cons_self _ _)), hs2conns d hdp]
                · obtain ⟨c1, c2, c3, c4, c5, c6⟩ := C
                  rw [hs2] at c1 c2 c3 c4 c5 c6
                  exact ⟨c1, c2, c3, c4, c5, c6⟩
                · obtain ⟨e1, e2⟩ := E
                  rw [hs2] at e1 e2
                  exact ⟨e1, e2⟩
                · intro habs
                  rw [hfiltc] at habs
                  simp at habs
                · intro k ks hkks
                  rw [hfiltc] at hkks
                  refine ⟨?_, ?_, ?_⟩
                  · rw [← hkks]
                    cases hrf : rest.filter (liveB s) with
                    | nil =>
                        have hrf2 : rest.filter (liveB s2) = [] := by rw [hfilt, hrf]
                        rw [(F hrf2).2]
                        simp
                    | cons k2 ks2 =>
                        have hrf2 : rest.filter (liveB s2) = k2 :: ks2 := by rw [hfilt, hrf]
                        rw [(G k2 ks2 hrf2).1, List.getLast?_cons_cons]
                  · intro habs
                    simp at habs
                  · intro q hq
                    cases hrf : rest.filter (liveB s) with
                    | nil =>
                        have hrf2 : rest.filter (liveB s2) = [] := by rw [hfilt, hrf]
                        rw [(F hrf2).1, hs2]
                        rfl
                    | cons k2 ks2 =>
                        have hrf2 : rest.filter (liveB s2) = k2 :: ks2 := by rw [hfilt, hrf]
                        rw [(G k2 ks2 hrf2).2.2 c rfl, hs2]
                        rfl
                · rw [hfiltc]
                  show List.Chain' _ ([p] ++ c :: rest.filter (liveB s))
                  rw [List.singleton_append, List.chain'_cons]
                  constructor
                  · rw [B p (fun hh => hpne (List.mem_cons_of_mem _ hh))
                      (fun hh => hpnec (Option.some.inj hh).symm),
                      hs2, updConn_conns, if_pos rfl]
                  · rw [← hfilt]
                    have := H
                    simpa using this
                · intro d hd hdea
                  rcases List.mem_cons.mp hd with rfl | hd'
                  · exact absurd hdea hdead
                  · have hdp : d ≠ p := fun hh => hpne (hh ▸ List.mem_cons_of_mem _ hd')
                    refine I d hd' ?_
                    rw [hs2conns d hdp]
                    exact hdea

@[simp]
theorem follow_none (s : SigState) (f : Nat) : follow s f none = some [] := by
  cases f <;> rfl

/-- Full characterization of `cleanList` on a valid chain: it keeps exactly
the live connections, in order, relinking them and updating `first`/`last`,
and touches nothing else. -/
theorem cleanList_master {s : SigState} {lid : Nat} {ns : List Nat}
    (hns : chainOf s lid = some ns) (hnd : ns.Nodup) (hb : ∀ c ∈ ns, c < s.numConns) :
    (∀ c, ((cleanList s lid).conns c).callback = (s.conns c).callback ∧
      ((cleanList s lid).conns c).thisArg = (s.conns c).thisArg ∧
      ((cleanList s lid).conns c).token = (s.conns c).token ∧
      ((cleanList s lid).conns c).prevEmitter = (s.conns c).prevEmitter ∧
      ((cleanList s lid).conns c).nextEmitter = (s.conns c).nextEmitter) ∧
    (∀ c, c ∉ ns → ((cleanList s lid).conns c).nextReceiver = (s.conns c).nextReceiver) ∧
    ((cleanList s lid).numConns = s.numConns ∧ (cleanList s lid).numLists = s.numLists ∧
      (cleanList s lid).emitterMap = s.emitterMap ∧
      (cleanList s lid).receiverMap = s.receiverMap ∧
      (cleanList s lid).currentEmitter = s.currentEmitter ∧
      (cleanList s lid).trace = s.trace) ∧
    (∀ j, j ≠ lid → (cleanList s lid).lists j = s.lists j) ∧
    ((cleanList s lid).lists lid).refs = (s.lists lid).refs ∧
    chainOf (cleanList s lid) lid = some (ns.filter (liveB s)) ∧
    ((cleanList s lid).lists lid).last = (ns.filter (liveB s)).getLast? := by
  have hcpns : ChainP s ((s.lists lid).first) ns := chainP_chainOf hns
  have hfirst : (s.lists lid).first = ns.head? := chainP_head hcpns
  have hlen : ns.length ≤ s.numConns := nodup_length_le ns s.numConns hnd hb
  rcases hcl : cleanLoop lid s.numConns none ((s.lists lid).first) s with ⟨s1, pr'⟩
  rw [hfirst] at hcl
  obtain ⟨A, B, C, D, E, F, G, H, I⟩ := cleanLoop_spec lid ns s s.numConns none s1 pr'
    (hfirst ▸ hcpns) hnd (fun p hp => by simp at hp) hlen hcl
  have hdef : cleanList s lid =
      (match (s1, pr') with
        | (s1, none) => updList s1 lid (fun l => { l with first := none, last := none })
        | (s1, some p) =>
            updList (updConn s1 p (fun cn => { cn with nextReceiver := none })) lid
              (fun l => { l with last := some p })) := by
    unfold cleanList
    rw [hfirst, hcl]
  cases pr' with
  | none =>
      have hkeep : ns.filter (liveB s) = [] := by
        cases hk : ns.filter (liveB s) with
        | nil => rfl
        | cons k ks =>
            have h1 := (G k ks hk).1
            rw [List.getLast?_eq_getLast _ (by simp)] at h1
            simp at h1
      simp only [hdef]
      obtain ⟨hF1, _⟩ := F hkeep
      refine ⟨?_, ?_, ?_, ?_, ?_, ?_, ?_⟩
      · intro c
        simpa using A c
      · intro c hc
        simpa using B c hc (by simp)
      · obtain ⟨c1, c2, c3, c4, c5, c6⟩ := C
        exact ⟨c1, c2, c3, c4, c5, c6⟩
      · intro j hj
        simp only [updList_lists, if_neg hj]
        exact D j hj
      · simp only [updList_lists, if_pos rfl]
        exact E.2
      · rw [hkeep]
        unfold chainOf
        simp only [updList_lists, updList_numConns, if_pos rfl]
        exact follow_none _ _
      · rw [hkeep]
        simp only [updList_lists, if_pos rfl]
        rfl
  | some p =>
      obtain ⟨k, ks, hk⟩ : ∃ k ks, ns.filter (liveB s) = k :: ks := by
        cases hk : ns.filter (liveB s) with
        | nil => exact absurd (F hk).2 (by simp)
        | cons k ks => exact ⟨k, ks, rfl⟩
      have hkeepne : ns.filter (liveB s) ≠ [] := by rw [hk]; simp
      have hpgl : p = (ns.filter (liveB s)).getLast hkeepne := by
        have h1 := (G k ks hk).1
        rw [← hk] at h1
        rw [List.getLast?_eq_getLast _ hkeepne] at h1
        exact Option.some.inj h1
      have hpkeep : p ∈ ns.filter (liveB s) := hpgl ▸ List.getLast_mem hkeepne
      have hpns : p ∈ ns := List.mem_of_mem_filter hpkeep
      have hfirst1 : (s1.lists lid).first = some k := (G k ks hk).2.1 rfl
      simp only [hdef]
      set s2 := updList (updConn s1 p (fun cn => { cn with nextReceiver := none })) lid
        (fun l => { l with last := some p }) with hs2
      have hs2conns : ∀ c, c ≠ p → s2.conns c = s1.conns c := by
        intro c hc
        rw [hs2, updList_conns, updConn_conns, if_neg hc]
      have hnodupk : (ns.filter (liveB s)).Nodup := hnd.filter _
      refine ⟨?_, ?_, ?_, ?_, ?_, ?_, ?_⟩
      · intro c
        by_cases hc : c = p
        · subst hc
          obtain ⟨a1, a2, a3, a4, a5⟩ := A c
          refine ⟨?_, ?_, ?_, ?_, ?_⟩ <;>
            simp [hs2, updList_conns, updConn_conns, a1, a2, a3, a4, a5]
        · rw [show s2.conns c = s1.conns c from hs2conns c hc]
          exact A c
      · intro c hc
        have hcp : c ≠ p := fun hh => hc (hh ▸ hpns)
        rw [show s2.conns c = s1.conns c from hs2conns c hcp]
        exact B c hc (by simp)
      · obtain ⟨c1, c2, c3, c4, c5, c6⟩ := C
        exact ⟨c1, c2, c3, c4, c5, c6⟩
      · intro j hj
        rw [hs2, updList_lists, if_neg hj, updConn_lists]
        exact D j hj
      · rw [hs2, updList_lists, if_pos rfl]
        exact E.2
      · unfold chainOf
        have hfirst2 : (s2.lists lid).first = some k := by
          rw [hs2, updList_lists, if_pos rfl, updConn_lists]
          exact hfirst1
        rw [hfirst2]
        have hchain2 : List.Chain' (fun a b => (s2.conns a).nextReceiver = some b)
            (ns.filter (liveB s)) := by
          refine @chain'_epilogue s1 s2 p ?_ _ hkeepne hpgl.symm hnodupk ?_
          · intro c hc
            rw [hs2conns c hc]
          · simpa using H
        have hlastnone : (s2.conns ((ns.filter (liveB s)).getLast hkeepne)).nextReceiver
            = none := by
          rw [← hpgl, hs2, updList_conns, updConn_conns, if_pos rfl]
        have hcp2 : ChainP s2 (ns.filter (liveB s)).head? (ns.filter (liveB s)) :=
          chainP_of_chain' s2 _ hchain2 (fun _ => hlastnone)
        rw [hk] at hcp2 ⊢
        rw [show (k :: ks : List Nat).head? = some k from rfl] at hcp2
        refine follow_of_chainP s2 _ _ _ hcp2 ?_
        rw [show s2.numConns = s.numConns from by rw [hs2]; simpa using C.1]
        rw [← hk]
        exact le_trans (List.length_filter_le _ _) hlen
      · rw [hs2, updList_lists, if_pos rfl]
        simp only []
        rw [List.getLast?_eq_getLast _ hkeepne, ← hpgl]

/-!
### Evolution through the interpreter
-/

theorem evolves_trans {s s1 s2 : SigState} (h1 : Evolves s s1) (h2 : Evolves s1 s2) :
    Evolves s s2 := by
  obtain ⟨hw1, ha1, hb1, hc1, hd1, he1, hf1, hg1, ⟨t1, ht1⟩⟩ := h1
  obtain ⟨hw2, ha2, hb2, hc2, hd2, he2, hf2, hg2, ⟨t2, ht2⟩⟩ := h2
  refine ⟨hw2, le_trans ha1 ha2, le_trans hb1 hb2, hc2.trans hc1, ?_, ?_, ?_, ?_,
    ⟨t1 ++ t2, by rw [ht2, ht1, List.append_assoc]⟩⟩
  · intro lid hlid
    rw [hd2 lid (lt_of_lt_of_le hlid hb1), hd1 lid hlid]
  · intro c hc
    rw [he2 c (lt_of_lt_of_le hc ha1), he1 c hc]
  · intro c hc hdead
    exact hf2 c (lt_of_lt_of_le hc ha1) (hf1 c hc hdead)
  · intro lid hlid hrefs
    obtain ⟨u1, hu1⟩ := hg1 lid hlid hrefs
    obtain ⟨u2, hu2⟩ := hg2 lid (lt_of_lt_of_le hlid hb1)
      (by rw [hd1 lid hlid]; exact hrefs)
    refine ⟨u1 ++ u2, ?_⟩
    rw [hu2, chainD]
    rw [hu1]
    simp [List.append_assoc]

/-- `chainOf` ignores the registries, `currentEmitter` and the trace. -/
theorem chainOf_cosmetic {s s' : SigState} (hc : s'.conns = s.conns)
    (hnc : s'.numConns = s.numConns) (hl : s'.lists = s.lists) :
    ∀ lid, chainOf s' lid = chainOf s lid :=
  chainOf_eq_of hnc (fun lid => by rw [hl]) (fun c => by rw [hc])

/-- `WfState` ignores the receiver registry, `currentEmitter` and the
trace. -/
theorem wf_cosmetic {s s' : SigState} (hc : s'.conns = s.conns)
    (hnc : s'.numConns = s.numConns) (hl : s'.lists = s.lists)
    (hnl : s'.numLists = s.numLists) (hm : s'.emitterMap = s.emitterMap)
    (hw : WfState s) : WfState s' := by
  have hch := chainOf_cosmetic hc hnc hl
  refine ⟨structInv_congr hnc hnl (by rw [hm]) hch (fun lid => by rw [hl])
    (fun lid => by rw [hl]) hw.1, uniqueLive_congr hnl hch
    (fun c => Or.inl (by rw [hc]; exact ⟨rfl, rfl, rfl⟩)) hw.2⟩

/-- Appending a ghost trace event evolves the state. -/
theorem evolves_addTrace {s : SigState} (hw : WfState s) (e : Event) :
    Evolves s { s with trace := s.trace ++ [e] } := by
  have hch := @chainOf_cosmetic s { s with trace := s.trace ++ [e] } rfl rfl rfl
  refine ⟨@wf_cosmetic s { s with trace := s.trace ++ [e] } rfl rfl rfl rfl rfl hw,
    le_refl _, le_refl _, rfl, fun _ _ => rfl,
    fun _ _ => rfl, fun _ _ h => h, ?_, ⟨[e], rfl⟩⟩
  intro lid hlid _
  obtain ⟨ns, hns, _, _, _⟩ := (validListAt_iff s lid).mp (hw.1.2.2.1 lid hlid)
  refine ⟨[], ?_⟩
  rw [List.append_nil, chainD_eq hns, hch lid]
  exact hns

/-- Changing a list's refcount (keeping it nonnegative) preserves
well-formedness. -/
theorem wf_refs_change {s : SigState} (lid : Nat) (g : ConnectionList → ConnectionList)
    (hw : WfState s)
    (hfirst : ∀ l, (g l).first = l.first) (hlast : ∀ l, (g l).last = l.last)
    (hrefs : lid < s.numLists → 0 ≤ (g (s.lists lid)).refs) :
    WfState (updList s lid g) := by
  obtain ⟨⟨hmapb, hmapp, hvalid, hdisj, hrefs0⟩, hul⟩ := hw
  have hch : ∀ j, chainOf (updList s lid g) j = chainOf s j := by
    refine chainOf_eq_of rfl ?_ (fun c => rfl)
    intro j
    rw [updList_lists]
    by_cases hj : j = lid
    · rw [if_pos hj, hfirst, hj]
    · rw [if_neg hj]
  refine ⟨⟨?_, hmapp, ?_, ?_, ?_⟩, ?_⟩
  · intro p hp
    exact hmapb p hp
  · intro j hj
    obtain ⟨ns, hns, hnd, hb, hl⟩ := (validListAt_iff s j).mp (hvalid j hj)
    refine (validListAt_iff _ j).mpr ⟨ns, (hch j).trans hns, hnd, hb, ?_⟩
    rw [updList_lists]
    by_cases hjl : j = lid
    · rw [if_pos hjl, hlast, ← hjl]
      exact hl
    · rw [if_neg hjl]
      exact hl
  · intro l1 hl1 l2 hl2 hne c hc
    have hc1 : chainD (updList s lid g) l1 = chainD s l1 := by simp [chainD, hch l1]
    have hc2 : chainD (updList s lid g) l2 = chainD s l2 := by simp [chainD, hch l2]
    rw [hc1] at hc
    rw [hc2]
    exact hdisj l1 hl1 l2 hl2 hne c hc
  · intro j hj
    rw [updList_lists]
    by_cases hjl : j = lid
    · rw [if_pos hjl]
      rw [hjl] at hj
      exact hrefs hj
    · rw [if_neg hjl]
      exact hrefs0 j hj
  · intro j hj
    have hcd : chainD (updList s lid g) j = chainD s j := by simp [chainD, hch j]
    rw [hcd]
    exact hul j hj

/-- Running `cleanList` on a list whose refcount is back to zero evolves
the state. -/
theorem evolves_cleanList {s : SigState} {lid : Nat} (hw : WfState s)
    (hlid : lid < s.numLists) (hz : (s.lists lid).refs = 0) :
    Evolves s (cleanList s lid) := by
  obtain ⟨⟨hmapb, hmapp, hvalid, hdisj, hrefs0⟩, hul⟩ := hw
  obtain ⟨ns, hns, hnd, hb, hl⟩ := (validListAt_iff s lid).mp (hvalid lid hlid)
  obtain ⟨A, B, C, D, E, CH, L⟩ := cleanList_master hns hnd hb
  have hchother : ∀ j, j < s.numLists → j ≠ lid →
      chainOf (cleanList s lid) j = chainOf s j := by
    intro j hjlt hj
    obtain ⟨ns2, hns2, hnd2, hb2, hl2⟩ := (validListAt_iff s j).mp (hvalid j hjlt)
    have hcp2 : ChainP (cleanList s lid) ((s.lists j).first) ns2 := by
      refine chainP_congr _ _ ?_ (chainP_chainOf hns2)
      intro c hc
      refine B c ?_
      intro hcns
      exact hdisj j hjlt lid hlid hj c ((chainD_eq hns2) ▸ hc) ((chainD_eq hns) ▸ hcns)
    have h1 : chainOf (cleanList s lid) j = some ns2 := by
      unfold chainOf
      rw [D j hj, C.1]
      exact follow_of_chainP _ _ _ _ hcp2 (nodup_length_le ns2 s.numConns hnd2 hb2)
    rw [h1, hns2]
  have hcdlid : chainD (cleanList s lid) lid = ns.filter (liveB s) := chainD_eq CH
  have hkeepsub : (ns.filter (liveB s)).Sublist ns := List.filter_sublist _
  have hwf : WfState (cleanList s lid) := by
    refine ⟨⟨?_, ?_, ?_, ?_, ?_⟩, ?_⟩
    · intro p hp
      rw [C.2.1]
      exact hmapb p (C.2.2.1 ▸ hp)
    · rw [C.2.2.1]
      exact hmapp
    · intro j hj
      rw [C.2.1] at hj
      by_cases hjl : j = lid
      · subst hjl
        refine (validListAt_iff _ j).mpr ⟨ns.filter (liveB s), CH, hnd.filter _, ?_, ?_⟩
        · intro c hc
          rw [C.1]
          exact hb c (hkeepsub.subset hc)
        · exact L
      · obtain ⟨ns2, hns2, hnd2, hb2, hl2⟩ := (validListAt_iff s j).mp (hvalid j hj)
        refine (validListAt_iff _ j).mpr ⟨ns2, (hchother j hj hjl).trans hns2, hnd2, ?_, ?_⟩
        · intro c hc
          rw [C.1]
          exact hb2 c hc
        · rw [D j hjl]
          exact hl2
    · intro l1 hl1 l2 hl2 hne c hc
      rw [C.2.1] at hl1 hl2
      have hcd : ∀ l', l' < s.numLists → chainD (cleanList s lid) l' =
          if l' = lid then ns.filter (liveB s) else chainD s l' := by
        intro l' hl'
        by_cases h' : l' = lid
        · rw [if_pos h', h', hcdlid]
        · rw [if_neg h']
          unfold chainD
          rw [hchother l' hl' h']
      rw [hcd l1 hl1] at hc
      rw [hcd l2 hl2]
      by_cases h1 : l1 = lid
      · rw [if_pos h1] at hc
        rw [if_neg (fun hh => hne ((h1.trans hh.symm)))]
        have hcns : c ∈ chainD s l1 := by
          rw [h1, chainD_eq hns]
          exact hkeepsub.subset hc
        exact hdisj l1 hl1 l2 hl2 hne c hcns
      · rw [if_neg h1] at hc
        by_cases h2 : l2 = lid
        · rw [if_pos h2]
          intro hmem
          have hcns : c ∈ chainD s l2 := by
            rw [h2, chainD_eq hns]
            exact hkeepsub.subset hmem
          exact hdisj l1 hl1 l2 hl2 hne c hc hcns
        · rw [if_neg h2]
          exact hdisj l1 hl1 l2 hl2 hne c hc
    · intro j hj
      rw [C.2.1] at hj
      by_cases hjl : j = lid
      · rw [hjl, E]
        exact hrefs0 lid hlid
      · rw [D j hjl]
        exact hrefs0 j hj
    · intro j hj
      rw [C.2.1] at hj
      by_cases hjl : j = lid
      · subst hjl
        rw [hcdlid]
        refine List.Pairwise.imp_of_mem ?_ (((chainD_eq hns) ▸ hul j hj).sublist hkeepsub)
        intro a b _ _ hrel ⟨hla, hlb, hst⟩
        refine hrel ⟨?_, ?_, ?_, ?_, ?_⟩
        · simpa [isLive, (A a).1] using hla
        · simpa [isLive, (A b).1] using hlb
        · have := hst.1
          rwa [(A a).2.2.1, (A b).2.2.1] at this
        · have := hst.2.1
          rwa [(A a).1, (A b).1] at this
        · have := hst.2.2
          rwa [(A a).2.1, (A b).2.1] at this
      · have hcd : chainD (cleanList s lid) j = chainD s j := by
          unfold chainD
          rw [hchother j hj hjl]
        rw [hcd]
        refine List.Pairwise.imp_of_mem ?_ (hul j hj)
        intro a b _ _ hrel ⟨hla, hlb, hst⟩
        refine hrel ⟨?_, ?_, ?_, ?_, ?_⟩
        · simpa [isLive, (A a).1] using hla
        · simpa [isLive, (A b).1] using hlb
        · have := hst.1
          rwa [(A a).2.2.1, (A b).2.2.1] at this
        · have := hst.2.1
          rwa [(A a).1, (A b).1] at this
        · have := hst.2.2
          rwa [(A a).2.1, (A b).2.1] at this
  refine ⟨hwf, le_of_eq C.1.symm, le_of_eq C.2.1.symm, C.2.2.2.2.1, ?_, ?_, ?_, ?_,
    ⟨[], by rw [C.2.2.2.2.2, List.append_nil]⟩⟩
  · intro j hj
    by_cases hjl : j = lid
    · rw [hjl, E]
    · rw [D j hjl]
  · intro c _
    exact (A c).2.2.1
  · intro c _ hdead
    rw [(A c).1]
    exact hdead
  · intro j hj hr
    have hjl : j ≠ lid := by
      intro hh
      rw [hh, hz] at hr
      exact absurd hr (by norm_num)
    refine ⟨[], ?_⟩
    rw [List.append_nil, hchother j hj hjl]
    obtain ⟨ns2, hns2, _, _, _⟩ := (validListAt_iff s j).mp (hvalid j hj)
    rw [hns2, chainD_eq hns2]

/-- Result-level evolution for callback runs. -/
def ResEv (s : SigState) : Res → Prop
  | Res.ok s1 => Evolves s s1
  | Res.exn s1 => Evolves s s1
  | Res.oog => True

/-- Result-level evolution for `emit`. -/
def EResEv (s : SigState) : ERes → Prop
  | ERes.ok s1 _ _ => Evolves s s1
  | ERes.exn s1 _ => Evolves s s1
  | ERes.oog => True

/-- Result-level evolution for `invokeList`. -/
def IResEv (s : SigState) : IRes → Prop
  | IRes.ok _ s1 _ => Evolves s s1
  | IRes.exn s1 _ => Evolves s s1
  | IRes.oog => True

theorem resEv_compose {s s1 : SigState} (h1 : Evolves s s1) {r : Res}
    (h2 : ResEv s1 r) : ResEv s r := by
  cases r with
  | ok s2 => exact evolves_trans h1 h2
  | exn s2 => exact evolves_trans h1 h2
  | oog => trivial

theorem iresEv_compose {s s1 : SigState} (h1 : Evolves s s1) {r : IRes}
    (h2 : IResEv s1 r) : IResEv s r := by
  cases r with
  | ok d s2 inv => exact evolves_trans h1 h2
  | exn s2 inv => exact evolves_trans h1 h2
  | oog => trivial

/-- The restore/decrement epilogue of `emit` yields a net evolution, and
restores the refcount of the dispatched list. -/
theorem emit_epilogue_evolves {s s3 : SigState} {lid : Nat} {o : JSVal}
    (hw : WfState s) (hlid : lid < s.numLists)
    (hev : Evolves (updList { s with currentEmitter := o } lid
      (fun l => { l with refs := l.refs + 1 })) s3) :
    Evolves s (updList { s3 with currentEmitter := s.currentEmitter } lid
      (fun l => { l with refs := l.refs - 1 })) ∧
    ((updList { s3 with currentEmitter := s.currentEmitter } lid
      (fun l => { l with refs := l.refs - 1 })).lists lid).refs = (s.lists lid).refs := by
  obtain ⟨hw3, hnc23, hnl23, hcur3, hrefs23, htok23, hdead23, hpre23, ⟨tr3, htr3⟩⟩ := hev
  set s2 := updList { s with currentEmitter := o } lid
    (fun l => { l with refs := l.refs + 1 }) with hs2
  set s4 := updList { s3 with currentEmitter := s.currentEmitter } lid
    (fun l => { l with refs := l.refs - 1 }) with hs4
  have hs2lists : ∀ j, s2.lists j =
      if j = lid then { s.lists lid with refs := (s.lists lid).refs + 1 } else s.lists j := by
    intro j
    rw [hs2, updList_lists]
  have hs2nc : s2.numConns = s.numConns := rfl
  have hs2nl : s2.numLists = s.numLists := rfl
  have hrefs3lid : (s3.lists lid).refs = (s.lists lid).refs + 1 := by
    have h1 := hrefs23 lid (by rw [hs2nl]; exact hlid)
    rw [h1, hs2lists, if_pos rfl]
  have hrefs4 : (s4.lists lid).refs = (s.lists lid).refs := by
    rw [hs4, updList_lists, if_pos rfl]
    simp only []
    rw [hrefs3lid]
    omega
  have hch2 : ∀ j, chainOf s2 j = chainOf s j := by
    refine chainOf_eq_of rfl ?_ (fun c => rfl)
    intro j
    rw [hs2lists]
    by_cases hj : j = lid
    · rw [if_pos hj, hj]
    · rw [if_neg hj]
  have hch4 : ∀ j, chainOf s4 j = chainOf s3 j := by
    refine chainOf_eq_of rfl ?_ (fun c => rfl)
    intro j
    rw [hs4, updList_lists]
    by_cases hj : j = lid
    · rw [if_pos hj, hj]
    · rw [if_neg hj]
  have hw4 : WfState s4 := by
    rw [hs4]
    refine wf_refs_change lid _
      (@wf_cosmetic s3 { s3 with currentEmitter := s.currentEmitter } rfl rfl rfl rfl rfl hw3)
      (fun l => rfl) (fun l => rfl) ?_
    intro _
    show 0 ≤ (s3.lists lid).refs - 1
    rw [hrefs3lid]
    have := hw.1.2.2.2.2 lid hlid
    omega
  refine ⟨⟨hw4, ?_, ?_, ?_, ?_, ?_, ?_, ?_, ?_⟩, hrefs4⟩
  · exact le_trans (le_of_eq hs2nc.symm) hnc23
  · exact le_trans (le_of_eq hs2nl.symm) hnl23
  · rw [hs4]
    rfl
  · intro j hj
    by_cases hjl : j = lid
    · rw [hjl]
      exact hrefs4
    · rw [hs4, updList_lists, if_neg hjl]
      have h1 := hrefs23 j (by rw [hs2nl]; exact hj)
      rw [h1, hs2lists, if_neg hjl]
  · intro c hc
    have h1 := htok23 c (by rw [hs2nc]; exact hc)
    rw [show s4.conns = s3.conns from by rw [hs4]; rfl, h1]
    rfl
  · intro c hc hdead
    have h1 := hdead23 c (by rw [hs2nc]; exact hc) (by
      show (s2.conns c).callback = none
      rw [show s2.conns = s.conns from by rw [hs2]; rfl]
      exact hdead)
    rw [show s4.conns = s3.conns from by rw [hs4]; rfl]
    exact h1
  · intro j hj hr
    have hr2 : 1 ≤ (s2.lists j).refs := by
      rw [hs2lists]
      by_cases hjl : j = lid
      · rw [if_pos hjl]
        have := hw.1.2.2.2.2 lid hlid
        show 1 ≤ (s.lists lid).refs + 1
        omega
      · rw [if_neg hjl]
        exact hr
    obtain ⟨u, hu⟩ := hpre23 j (by rw [hs2nl]; exact hj) hr2
    refine ⟨u, ?_⟩
    rw [hch4 j, hu]
    have : chainD s2 j = chainD s j := by
      unfold chainD
      rw [hch2 j]
    rw [this]
  · refine ⟨tr3, ?_⟩
    rw [show s4.trace = s3.trace from by rw [hs4]; rfl, htr3]
    rfl

/-- Every interpreter run, at every fuel, is a state evolution: it preserves
well-formedness, restores `currentEmitter` and refcounts, never deletes
connections or lists, and only appends to the trace. -/
theorem master_evolves (env : Env) : ∀ fuel : Nat,
    (∀ acts s, WfState s → ResEv s (runActs env fuel acts s)) ∧
    (∀ a s, WfState s → ResEv s (runAct env fuel a s)) ∧
    (∀ o t ar s, WfState s → EResEv s (emit env fuel o t ar s)) ∧
    (∀ lid t ar s, WfState s → IResEv s (invokeList env fuel lid t ar s)) ∧
    (∀ t ar lst conn? dirty inv s, WfState s →
      IResEv s (invokeLoop env fuel t ar lst conn? dirty inv s)) ∧
    (∀ t ar lst c dirty inv s, WfState s →
      IResEv s (invokeStep env fuel t ar lst c dirty inv s)) := by
  intro fuel
  induction fuel with
  | zero =>
      exact ⟨fun _ _ _ => trivial, fun _ _ _ => trivial, fun _ _ _ _ _ => trivial,
        fun _ _ _ _ _ => trivial, fun _ _ _ _ _ _ _ _ => trivial,
        fun _ _ _ _ _ _ _ _ => trivial⟩
  | succ f ih =>
      obtain ⟨ihA, ihB, ihE, ihIL, ihLP, ihST⟩ := ih
      have hRunActs : ∀ acts s, WfState s → ResEv s (runActs env (f + 1) acts s) := by
        intro acts s hw
        cases acts with
        | nil => exact evolves_refl hw
        | cons a rest =>
            show ResEv s (match runAct env f a s with
              | Res.ok s1 => runActs env f rest s1
              | r => r)
            cases hra : runAct env f a s with
            | ok s1 =>
                have h1 : Evolves s s1 := by
                  have h0 := ihB a s hw
                  rw [hra] at h0
                  exact h0
                exact resEv_compose h1 (ihA rest s1 h1.1)
            | exn s1 =>
                have h0 := ihB a s hw
                rw [hra] at h0
                exact h0
            | oog => trivial
      have hRunAct : ∀ a s, WfState s → ResEv s (runAct env (f + 1) a s) := by
        intro a s hw
        cases a with
        | connectA o t cb ctx =>
            simp only [runAct]
            rcases evolves_connect hw o t cb ctx with ⟨s', heq, hev⟩ | heq | heq
            · rw [heq]
              exact hev
            · rw [heq]
              exact evolves_refl hw
            · rw [heq]
              exact evolves_refl hw
        | disconnectA o t cb ctx => exact evolves_disconnect hw o t cb ctx
        | disconnectEmitterA o => exact evolves_disconnectEmitter hw o
        | disconnectReceiverA r => exact evolves_disconnectReceiver hw r
        | emitA o t a =>
            simp only [runAct]
            have h0 := ihE o t a s hw
            cases hres : emit env f o t a s with
            | ok s1 d inv =>
                rw [hres] at h0
                exact h0
            | exn s1 inv =>
                rw [hres] at h0
                exact h0
            | oog => trivial
        | throwA => exact evolves_refl hw
      have hEmit : ∀ o t ar s, WfState s → EResEv s (emit env (f + 1) o t ar s) := by
        intro o t ar s hw
        cases halk : alookup s.emitterMap o with
        | none =>
            simp only [emit, halk]
            exact evolves_refl hw
        | some lid =>
            simp only [emit, halk]
            have hlid : lid < s.numLists := by
              obtain ⟨k', hk, _⟩ := alookup_mem halk
              exact hw.1.1 _ hk
            have hw2 : WfState (updList { s with currentEmitter := o } lid
                (fun l => { l with refs := l.refs + 1 })) := by
              refine wf_refs_change lid _
                (@wf_cosmetic s { s with currentEmitter := o } rfl rfl rfl rfl rfl hw)
                (fun l => rfl) (fun l => rfl) ?_
              intro _
              show 0 ≤ (s.lists lid).refs + 1
              have := hw.1.2.2.2.2 lid hlid
              omega
            have h0 := ihIL lid t ar _ hw2
            split
            · trivial
            · rename_i s3 inv heq
              rw [heq] at h0
              exact (emit_epilogue_evolves hw hlid h0).1
            · rename_i dirty s3 inv heq
              rw [heq] at h0
              obtain ⟨hev4, hrefs4⟩ := emit_epilogue_evolves hw hlid h0
              by_cases hcond : dirty = true ∧
                  ((updList { s3 with currentEmitter := s.currentEmitter } lid
                    (fun l => { l with refs := l.refs - 1 })).lists lid).refs = 0
              · rw [if_pos hcond]
                have hlid4 : lid < (updList { s3 with currentEmitter := s.currentEmitter } lid
                    (fun l => { l with refs := l.refs - 1 })).numLists :=
                  lt_of_lt_of_le hlid hev4.2.2.1
                exact evolves_trans hev4 (evolves_cleanList hev4.1 hlid4 hcond.2)
              · rw [if_neg hcond]
                exact hev4
      have hInvokeList : ∀ lid t ar s, WfState s →
          IResEv s (invokeList env (f + 1) lid t ar s) := by
        intro lid t ar s hw
        exact ihLP t ar ((s.lists lid).last) ((s.lists lid).first) false [] s hw
      have hInvokeLoop : ∀ t ar lst conn? dirty inv s, WfState s →
          IResEv s (invokeLoop env (f + 1) t ar lst conn? dirty inv s) := by
        intro t ar lst conn? dirty inv s hw
        cases conn? with
        | none => exact evolves_refl hw
        | some c =>
            simp only [invokeLoop]
            split
            · rename_i cb hcb
              by_cases hjt : jsEq (s.conns c).token t = true
              · rw [if_pos hjt]
                generalize ({ conn := c, cb := cb, thisArg := (s.conns c).thisArg, args := ar, seen := emitter s } : Event) = ev
                have hevE : Evolves s { s with trace := s.trace ++ [ev] } :=
                  evolves_addTrace hw ev
                have h0 := ihA (env cb (s.conns c).thisArg ar)
                  { s with trace := s.trace ++ [ev] } hevE.1
                split
                · rename_i s1 hra
                  rw [hra] at h0
                  have h1 : Evolves s s1 := evolves_trans hevE h0
                  exact iresEv_compose h1 (ihST t ar lst c dirty (inv ++ [ev]) s1 h1.1)
                · rename_i s1 hra
                  rw [hra] at h0
                  exact evolves_trans hevE h0
                · trivial
              · rw [if_neg hjt]
                exact ihST t ar lst c dirty inv s hw
            · rename_i hcb
              exact ihST t ar lst c true inv s hw
      have hInvokeStep : ∀ t ar lst c dirty inv s, WfState s →
          IResEv s (invokeStep env (f + 1) t ar lst c dirty inv s) := by
        intro t ar lst c dirty inv s hw
        simp only [invokeStep]
        by_cases hl : lst = some c
        · rw [if_pos hl]
          exact evolves_refl hw
        · rw [if_neg hl]
          exact ihLP t ar lst ((s.conns c).nextReceiver) dirty inv s hw
      exact ⟨hRunActs, hRunAct, hEmit, hInvokeList, hInvokeLoop, hInvokeStep⟩

/-!
## The dispatch walk of `invokeList`

`OkEvents` and `ExnEvents` describe the ghost invocation record of one
pass over a remaining segment `rem` of the entry chain: the invoked
connections are a subsequence of `rem` (in chain order), every invoked
connection matched the token and was live at the pass's start, each event
saw the pass's `currentEmitter`, and (on normal completion) every
connection of `rem` that matched the token but was not invoked is dead in
the final state.
-/

def OkEvents (s sf : SigState) (t ar : JSVal) (rem : List Nat) (evs : List Event) : Prop :=
  (evs.map Event.conn).Sublist rem ∧
  (∀ e ∈ evs, jsEq (s.conns e.conn).token t = true ∧ (s.conns e.conn).callback ≠ none ∧
    e.seen = s.currentEmitter ∧ e.args = ar) ∧
  (∀ c ∈ rem, c ∉ evs.map Event.conn →
    jsEq (s.conns c).token t = false ∨ (sf.conns c).callback = none)

def ExnEvents (s : SigState) (t ar : JSVal) (rem : List Nat) (evs : List Event) : Prop :=
  ∃ rd rr, rem = rd ++ rr ∧ (evs.map Event.conn).Sublist rd ∧
  (∀ e ∈ evs, jsEq (s.conns e.conn).token t = true ∧ (s.conns e.conn).callback ≠ none ∧
    e.seen = s.currentEmitter ∧ e.args = ar)

/-- Postcondition of a (partial) dispatch walk starting at state `s` with
accumulated record `inv` and remaining segment `rem`. -/
def WalkPost (s : SigState) (t ar : JSVal) (rem : List Nat) (inv : List Event) : IRes → Prop
  | IRes.ok _ sf inv2 => Evolves s sf ∧ ∃ evs, inv2 = inv ++ evs ∧ OkEvents s sf t ar rem evs
  | IRes.exn sf inv2 => Evolves s sf ∧ ∃ evs, inv2 = inv ++ evs ∧ ExnEvents s t ar rem evs
  | IRes.oog => True

theorem okEvents_lift {s s1 sf : SigState} {t ar : JSVal} {rem : List Nat} {evs : List Event}
    (hb : ∀ x ∈ rem, x < s.numConns) (hev : Evolves s s1)
    (h : OkEvents s1 sf t ar rem evs) : OkEvents s sf t ar rem evs := by
  obtain ⟨hsub, hes, hcomp⟩ := h
  have hmem : ∀ e ∈ evs, e.conn ∈ rem := by
    intro e he
    exact hsub.subset (List.mem_map_of_mem Event.conn he)
  refine ⟨hsub, ?_, ?_⟩
  · intro e he
    obtain ⟨h1, h2, h3, h4⟩ := hes e he
    have hbc := hb e.conn (hmem e he)
    refine ⟨?_, ?_, ?_, h4⟩
    · rw [← hev.2.2.2.2.2.1 e.conn hbc]
      exact h1
    · intro hdead
      exact h2 (hev.2.2.2.2.2.2.1 e.conn hbc hdead)
    · rw [h3, hev.2.2.2.1]
  · intro c hc hnc
    rcases hcomp c hc hnc with h1 | h1
    · left
      rw [← hev.2.2.2.2.2.1 c (hb c hc)]
      exact h1
    · right
      exact h1

theorem exnEvents_lift {s s1 : SigState} {t ar : JSVal} {rem : List Nat} {evs : List Event}
    (hb : ∀ x ∈ rem, x < s.numConns) (hev : Evolves s s1)
    (h : ExnEvents s1 t ar rem evs) : ExnEvents s t ar rem evs := by
  obtain ⟨rd, rr, hsplit, hsub, hes⟩ := h
  have hmem : ∀ e ∈ evs, e.conn ∈ rem := by
    intro e he
    rw [hsplit]
    exact List.mem_append_left rr (hsub.subset (List.mem_map_of_mem Event.conn he))
  refine ⟨rd, rr, hsplit, hsub, ?_⟩
  intro e he
  obtain ⟨h1, h2, h3, h4⟩ := hes e he
  have hbc := hb e.conn (hmem e he)
  refine ⟨?_, ?_, ?_, h4⟩
  · rw [← hev.2.2.2.2.2.1 e.conn hbc]
    exact h1
  · intro hdead
    exact h2 (hev.2.2.2.2.2.2.1 e.conn hbc hdead)
  · rw [h3, hev.2.2.2.1]

/-- Extend a walk postcondition over a skipped head connection (dead or
token-mismatched). -/
theorem walkPost_cons {s : SigState} {t ar : JSVal} {c : Nat} {rem : List Nat}
    {inv : List Event} {r : IRes}
    (hr : WalkPost s t ar rem inv r)
    (hskip : ∀ sf, Evolves s sf →
      jsEq (s.conns c).token t = false ∨ (sf.conns c).callback = none) :
    WalkPost s t ar (c :: rem) inv r := by
  cases r with
  | oog => trivial
  | ok d sf inv2 =>
      obtain ⟨hev, evs, hinv2, hsub, hes, hcomp⟩ := hr
      refine ⟨hev, evs, hinv2, hsub.cons c, hes, ?_⟩
      intro x hx hnx
      rcases List.mem_cons.mp hx with hxc | hxm
      · rw [hxc]
        exact hskip sf hev
      · exact hcomp x hxm hnx
  | exn sf inv2 =>
      obtain ⟨hev, evs, hinv2, rd, rr, hsplit, hsub, hes⟩ := hr
      exact ⟨hev, evs, hinv2, c :: rd, rr, by rw [hsplit]; rfl, hsub.cons c, hes⟩

/-- Extend a walk postcondition over an invoked head connection. -/
theorem walkPost_cons_invoked {s s1 : SigState} {t ar : JSVal} {c : Nat} {rem : List Nat}
    {inv : List Event} {ev : Event} {r : IRes}
    (hb : ∀ x ∈ rem, x < s.numConns)
    (hev1 : Evolves s s1)
    (hconn : ev.conn = c)
    (hok : jsEq (s.conns c).token t = true ∧ (s.conns c).callback ≠ none ∧
      ev.seen = s.currentEmitter ∧ ev.args = ar)
    (hr : WalkPost s1 t ar rem (inv ++ [ev]) r) :
    WalkPost s t ar (c :: rem) inv r := by
  cases r with
  | oog => trivial
  | ok d sf inv2 =>
      obtain ⟨hev2, evs, hinv2, hpost⟩ := hr
      obtain ⟨hsub, hes, hcomp⟩ := okEvents_lift hb hev1 hpost
      refine ⟨evolves_trans hev1 hev2, ev :: evs, by rw [hinv2, List.append_assoc]; rfl,
        ?_, ?_, ?_⟩
      · show (ev.conn :: evs.map Event.conn).Sublist (c :: rem)
        rw [hconn]
        exact hsub.cons₂ c
      · intro e he
        rcases List.mem_cons.mp he with hee | hem
        · rw [hee, hconn]
          exact hok
        · exact hes e hem
      · intro x hx hnx
        rcases List.mem_cons.mp hx with hxc | hxm
        · exfalso
          apply hnx
          rw [hxc, ← hconn]
          exact List.mem_cons_self _ _
        · exact hcomp x hxm (fun hmm => hnx (List.mem_cons_of_mem _ hmm))
  | exn sf inv2 =>
      obtain ⟨hev2, evs, hinv2, hpost⟩ := hr
      obtain ⟨rd, rr, hsplit, hsub, hes⟩ := exnEvents_lift hb hev1 hpost
      refine ⟨evolves_trans hev1 hev2, ev :: evs, by rw [hinv2, List.append_assoc]; rfl,
        c :: rd, rr, by rw [hsplit]; rfl, ?_, ?_⟩
      · show (ev.conn :: evs.map Event.conn).Sublist (c :: rd)
        rw [hconn]
        exact hsub.cons₂ c
      · intro e he
        rcases List.mem_cons.mp he with hee | hem
        · rw [hee, hconn]
          exact hok
        · exact hes e hem

/-- The dispatch walk of `invokeList`: starting anywhere in the snapshot
segment of the entry chain, the loop satisfies `WalkPost` over the
remaining segment.  The segment `done ++ c :: rem` is a prefix of the
current chain of list `lid`, `lastc` is the snapshotted `last` (the final
node of the segment), and the list is under active iteration
(`refs ≥ 1`), which pins the segment across callback re-entrancy. -/
theorem walk_main (env : Env) : ∀ fuel : Nat,
    (∀ t ar lastc done c rem ext dirty inv s lid,
      WfState s → lid < s.numLists → 1 ≤ (s.lists lid).refs →
      chainOf s lid = some (done ++ (c :: rem) ++ ext) →
      (done ++ c :: rem).getLast? = some lastc →
      WalkPost s t ar (c :: rem) inv
        (invokeLoop env fuel t ar (some lastc) (some c) dirty inv s)) ∧
    (∀ t ar lastc done c rem ext dirty inv s lid,
      WfState s → lid < s.numLists → 1 ≤ (s.lists lid).refs →
      chainOf s lid = some (done ++ (c :: rem) ++ ext) →
      (done ++ c :: rem).getLast? = some lastc →
      WalkPost s t ar rem inv
        (invokeStep env fuel t ar (some lastc) c dirty inv s)) := by
  intro fuel
  induction fuel with
  | zero =>
      exact ⟨fun _ _ _ _ _ _ _ _ _ _ _ _ _ _ _ _ => trivial,
        fun _ _ _ _ _ _ _ _ _ _ _ _ _ _ _ _ => trivial⟩
  | succ f ih =>
      obtain ⟨ihLoop, ihStep⟩ := ih
      have hseg : ∀ (s : SigState) lid (done mid ext : List Nat), WfState s →
          lid < s.numLists → chainOf s lid = some (done ++ mid ++ ext) →
          mid.Nodup ∧ (∀ x ∈ mid, x < s.numConns) := by
        intro s lid done mid ext hw hlid hch
        obtain ⟨_, hnd, hb, _⟩ := hw.1.2.2.1 lid hlid
        rw [chainD_eq hch] at hnd hb
        have hsl : mid.Sublist (done ++ mid ++ ext) :=
          ((List.sublist_append_left mid ext).trans
            (List.sublist_append_right done _)).trans (by rw [List.append_assoc])
        exact ⟨hnd.sublist hsl, fun x hx => hb x (hsl.subset hx)⟩
      have hStep : ∀ t ar lastc done c rem ext dirty inv s lid,
          WfState s → lid < s.numLists → 1 ≤ (s.lists lid).refs →
          chainOf s lid = some (done ++ (c :: rem) ++ ext) →
          (done ++ c :: rem).getLast? = some lastc →
          WalkPost s t ar rem inv
            (invokeStep env (f + 1) t ar (some lastc) c dirty inv s) := by
        intro t ar lastc done c rem ext dirty inv s lid hw hlid hrefs hch hlast
        obtain ⟨hnd, hb⟩ := hseg s lid done (c :: rem) ext hw hlid hch
        simp only [invokeStep]
        by_cases hl : (some lastc : Option Nat) = some c
        · rw [if_pos hl]
          have hlc : lastc = c := Option.some.inj hl
          have hremnil : rem = [] := by
            by_contra hne
            have h1 : (done ++ c :: rem).getLast? = rem.getLast? := by
              rw [show (c :: rem) = [c] ++ rem from rfl, ← List.append_assoc]
              exact List.getLast?_append_of_ne_nil _ hne
            have h2 : c ∈ rem := by
              apply List.mem_of_mem_getLast? (l := rem) (a := c)
              rw [← h1, hlast, hlc]
              rfl
            exact (List.nodup_cons.mp hnd).1 h2
          rw [hremnil]
          exact ⟨evolves_refl hw, [], by rw [List.append_nil],
            List.Sublist.refl [], fun e he => absurd he (List.not_mem_nil e),
            fun x hx => absurd hx (List.not_mem_nil x)⟩
        · rw [if_neg hl]
          have hlc : lastc ≠ c := fun h => hl (by rw [h])
          cases rem with
          | nil =>
              exfalso
              apply hlc
              have : (done ++ [c]).getLast? = some c := List.getLast?_concat done
              rw [hlast] at this
              exact Option.some.inj this
          | cons c2 rem2 =>
              have hnext : (s.conns c).nextReceiver = some c2 := by
                have hcp := chainP_chainOf hch
                have hmid := chainP_next_mid done _ c ((c2 :: rem2) ++ ext)
                  (by rw [show done ++ (c :: c2 :: rem2) ++ ext =
                    done ++ c :: (c2 :: rem2 ++ ext) from by simp] at hcp; exact hcp)
                rw [hmid]
                rfl
              rw [hnext]
              exact ihLoop t ar lastc (done ++ [c]) c2 rem2 ext dirty inv s lid hw hlid
                hrefs (by rw [show (done ++ [c]) ++ (c2 :: rem2) ++ ext =
                  done ++ (c :: c2 :: rem2) ++ ext from by simp]; exact hch)
                (by rw [show (done ++ [c]) ++ c2 :: rem2 =
                  done ++ c :: c2 :: rem2 from by simp]; exact hlast)
      have hLoop : ∀ t ar lastc done c rem ext dirty inv s lid,
          WfState s → lid < s.numLists → 1 ≤ (s.lists lid).refs →
          chainOf s lid = some (done ++ (c :: rem) ++ ext) →
          (done ++ c :: rem).getLast? = some lastc →
          WalkPost s t ar (c :: rem) inv
            (invokeLoop env (f + 1) t ar (some lastc) (some c) dirty inv s) := by
        intro t ar lastc done c rem ext dirty inv s lid hw hlid hrefs hch hlast
        obtain ⟨hnd, hb⟩ := hseg s lid done (c :: rem) ext hw hlid hch
        have hbrem : ∀ x ∈ rem, x < s.numConns := fun x hx =>
          hb x (List.mem_cons_of_mem c hx)
        have hbc : c < s.numConns := hb c (List.mem_cons_self c rem)
        simp only [invokeLoop]
        split
        · rename_i cb hcb
          by_cases hjt : jsEq (s.conns c).token t = true
          · rw [if_pos hjt]
            generalize hevdef : ({ conn := c, cb := cb, thisArg := (s.conns c).thisArg, args := ar, seen := emitter s } : Event) = ev
            have hevc : ev.conn = c := by rw [← hevdef]
            have hevfacts : jsEq (s.conns c).token t = true ∧
                (s.conns c).callback ≠ none ∧ ev.seen = s.currentEmitter ∧ ev.args = ar := by
              refine ⟨hjt, by rw [hcb]; exact Option.some_ne_none cb, ?_, by rw [← hevdef]⟩
              rw [← hevdef]
              rfl
            have hevE : Evolves s { s with trace := s.trace ++ [ev] } :=
              evolves_addTrace hw ev
            have h0 := (master_evolves env f).1 (env cb (s.conns c).thisArg ar)
              { s with trace := s.trace ++ [ev] } hevE.1
            split
            · rename_i s1 hra
              rw [hra] at h0
              have hss1 : Evolves s s1 := evolves_trans hevE h0
              have hlid1 : lid < s1.numLists := lt_of_lt_of_le hlid hss1.2.2.1
              have hrefs1 : 1 ≤ (s1.lists lid).refs := by
                rw [hss1.2.2.2.2.1 lid hlid]
                exact hrefs
              obtain ⟨t2, ht2⟩ := hss1.2.2.2.2.2.2.2.1 lid hlid hrefs
              rw [chainD_eq hch] at ht2
              have hch1 : chainOf s1 lid = some (done ++ (c :: rem) ++ (ext ++ t2)) := by
                rw [ht2]
                simp
              have hpost := ihStep t ar lastc done c rem (ext ++ t2) dirty (inv ++ [ev])
                s1 lid hss1.1 hlid1 hrefs1 hch1 hlast
              exact walkPost_cons_invoked hbrem hss1 hevc hevfacts hpost
            · rename_i s1 hra
              rw [hra] at h0
              have hss1 : Evolves s s1 := evolves_trans hevE h0
              refine ⟨hss1, [ev], rfl, [c], rem, rfl, ?_, ?_⟩
              · show [ev.conn].Sublist [c]
                rw [hevc]
              · intro e he
                rw [List.mem_singleton.mp he, hevc]
                exact hevfacts
            · trivial
          · rw [if_neg hjt]
            have hpost := ihStep t ar lastc done c rem ext dirty inv s lid hw hlid
              hrefs hch hlast
            refine walkPost_cons hpost ?_
            intro sf _
            left
            exact Bool.not_eq_true _ ▸ Bool.of_not_eq_true hjt
        · rename_i hcb
          have hpost := ihStep t ar lastc done c rem ext true inv s lid hw hlid
            hrefs hch hlast
          refine walkPost_cons hpost ?_
          intro sf hev
          right
          exact hev.2.2.2.2.2.2.1 c hbc hcb
      exact ⟨hLoop, hStep⟩

theorem chainOf_updList_keepfirst {s : SigState} {i : Nat} {g : ConnectionList → ConnectionList}
    (hf : ∀ l, (g l).first = l.first) : ∀ j, chainOf (updList s i g) j = chainOf s j := by
  refine chainOf_eq_of rfl ?_ (fun c => rfl)
  intro j
  rw [updList_lists]
  by_cases hj : j = i
  · rw [if_pos hj, hj, hf]
  · rw [if_neg hj]

theorem chainOf_refsbump (s : SigState) (cur : JSVal) (lid j : Nat) :
    chainOf (updList { s with currentEmitter := cur } lid
      (fun l => { l with refs := l.refs + 1 })) j = chainOf s j := by
  have h1 : ∀ l : ConnectionList,
      ({ l with refs := l.refs + 1 } : ConnectionList).first = l.first := fun l => rfl
  exact (chainOf_updList_keepfirst h1 j).trans
    (@chainOf_cosmetic s { s with currentEmitter := cur } rfl rfl rfl j)

theorem chainOf_refsdrop (s : SigState) (cur : JSVal) (lid j : Nat) :
    chainOf (updList { s with currentEmitter := cur } lid
      (fun l => { l with refs := l.refs - 1 })) j = chainOf s j := by
  have h1 : ∀ l : ConnectionList,
      ({ l with refs := l.refs - 1 } : ConnectionList).first = l.first := fun l => rfl
  exact (chainOf_updList_keepfirst h1 j).trans
    (@chainOf_cosmetic s { s with currentEmitter := cur } rfl rfl rfl j)

/-- The full-pass specification of `invokeList` on a list under active
iteration whose entry chain is `ns`. -/
theorem invokeList_spec {env : Env} {fuel lid : Nat} {t ar : JSVal} {s : SigState}
    {ns : List Nat} (hw : WfState s) (hlid : lid < s.numLists)
    (hrefs : 1 ≤ (s.lists lid).refs) (hch : chainOf s lid = some ns) :
    WalkPost s t ar ns [] (invokeList env fuel lid t ar s) := by
  cases fuel with
  | zero => trivial
  | succ f =>
      simp only [invokeList]
      have hfirst : (s.lists lid).first = ns.head? := chainP_head (chainP_chainOf hch)
      have hlastv : (s.lists lid).last = ns.getLast? := by
        have hv := (hw.1.2.2.1 lid hlid).2.2.2
        rw [chainD_eq hch] at hv
        exact hv
      cases ns with
      | nil =>
          rw [hfirst]
          cases f with
          | zero => trivial
          | succ f2 =>
              exact ⟨evolves_refl hw, [], rfl, List.Sublist.refl [],
                fun e he => absurd he (List.not_mem_nil e),
                fun x hx => absurd hx (List.not_mem_nil x)⟩
      | cons c rest =>
          obtain ⟨lastc, hlastc⟩ : ∃ lc, (c :: rest).getLast? = some lc := by
            cases h : (c :: rest).getLast? with
            | some lc => exact ⟨lc, rfl⟩
            | none => exact absurd h (by simp)
          rw [hfirst, hlastv, hlastc]
          exact (walk_main env f).1 t ar lastc [] c rest [] false [] s lid hw hlid hrefs
            (by simpa using hch) (by simpa using hlastc)

/-- Specification of a normally returning `emit`: the pass evolves the
state; either the owner had no registry entry (no-op), or the invoked
events are a token-matching, initially-live subsequence of the owner's
entry chain with every skipped matching connection dead at exit, every
event saw the owner as `emitter()`, and the final chain is the entry chain
plus appended connections — filtered by liveness exactly when the pass's
own dirty flag was set with the refcount back at zero. -/
theorem emit_ok_spec {env : Env} {fuel : Nat} {o t ar : JSVal} {s sf : SigState}
    {d : Bool} {evs : List Event} (hw : WfState s)
    (he : emit env fuel o t ar s = ERes.ok sf d evs) :
    Evolves s sf ∧
    ((alookup s.emitterMap o = none ∧ sf = s ∧ d = false ∧ evs = []) ∨
     (∃ lid ns ext, alookup s.emitterMap o = some lid ∧ lid < s.numLists ∧
       chainOf s lid = some ns ∧
       (evs.map Event.conn).Sublist ns ∧
       (∀ e ∈ evs, jsEq (s.conns e.conn).token t = true ∧
         (s.conns e.conn).callback ≠ none ∧ e.seen = o ∧ e.args = ar) ∧
       (∀ c ∈ ns, c ∉ evs.map Event.conn →
         jsEq (s.conns c).token t = false ∨ (sf.conns c).callback = none) ∧
       ((d = true ∧ (s.lists lid).refs = 0 →
         chainOf sf lid = some ((ns ++ ext).filter (liveB sf)) ∧
         (sf.lists lid).last = ((ns ++ ext).filter (liveB sf)).getLast?) ∧
        (¬(d = true ∧ (s.lists lid).refs = 0) →
         chainOf sf lid = some (ns ++ ext))))) := by
  have hms := (master_evolves env fuel).2.2.1 o t ar s hw
  rw [he] at hms
  refine ⟨hms, ?_⟩
  cases fuel with
  | zero => exact ERes.noConfusion he
  | succ f =>
      cases halk : alookup s.emitterMap o with
      | none =>
          simp only [emit, halk] at he
          injection he with h1 h2 h3
          exact Or.inl ⟨rfl, h1.symm, h2.symm, h3.symm⟩
      | some lid =>
          simp only [emit, halk] at he
          have hlid : lid < s.numLists := by
            obtain ⟨k', hk, _⟩ := alookup_mem halk
            exact hw.1.1 _ hk
          have hw2 : WfState (updList { s with currentEmitter := o } lid
              (fun l => { l with refs := l.refs + 1 })) := by
            refine wf_refs_change lid _
              (@wf_cosmetic s { s with currentEmitter := o } rfl rfl rfl rfl rfl hw)
              (fun l => rfl) (fun l => rfl) ?_
            intro _
            show 0 ≤ (s.lists lid).refs + 1
            have := hw.1.2.2.2.2 lid hlid
            omega
          obtain ⟨ns, hns⟩ : ∃ x, chainOf s lid = some x :=
            Option.isSome_iff_exists.mp (hw.1.2.2.1 lid hlid).1
          have hkeep : ∀ j, chainOf (updList { s with currentEmitter := o } lid
              (fun l => { l with refs := l.refs + 1 })) j = chainOf s j := by
            intro j
            exact chainOf_refsbump s o lid j
          have hrefs2 : 1 ≤ ((updList { s with currentEmitter := o } lid
              (fun l => { l with refs := l.refs + 1 })).lists lid).refs := by
            have h1 : ((updList { s with currentEmitter := o } lid
                (fun l => { l with refs := l.refs + 1 })).lists lid).refs =
                (s.lists lid).refs + 1 := by
              rw [updList_lists, if_pos rfl]
            rw [h1]
            have := hw.1.2.2.2.2 lid hlid
            omega
          have hwalk : WalkPost (updList { s with currentEmitter := o } lid
              (fun l => { l with refs := l.refs + 1 })) t ar ns []
              (invokeList env f lid t ar (updList { s with currentEmitter := o } lid
                (fun l => { l with refs := l.refs + 1 }))) :=
            invokeList_spec hw2 hlid hrefs2 ((hkeep lid).trans hns)
          split at he
          · exact ERes.noConfusion he
          · exact ERes.noConfusion he
          · rename_i dirty s3 inv hinveq
            rw [hinveq] at hwalk
            obtain ⟨hev23, evs2, hevs2, hsub, hes, hcomp⟩ := hwalk
            rw [List.nil_append] at hevs2
            obtain ⟨hev4, hrefs4⟩ := emit_epilogue_evolves hw hlid hev23
            obtain ⟨t2, ht2⟩ := hev23.2.2.2.2.2.2.2.1 lid (by exact hlid) hrefs2
            rw [chainD_eq ((hkeep lid).trans hns)] at ht2
            have hch4 : chainOf (updList { s3 with currentEmitter := s.currentEmitter } lid
                (fun l => { l with refs := l.refs - 1 })) lid = some (ns ++ t2) := by
              rw [chainOf_refsdrop s3 s.currentEmitter lid lid]
              exact ht2
            split at he
            · rename_i hcond
              injection he with hsf hd hevseq
              obtain ⟨hnd4, hb4⟩ : (ns ++ t2).Nodup ∧ (∀ c ∈ ns ++ t2,
                  c < (updList { s3 with currentEmitter := s.currentEmitter } lid
                    (fun l => { l with refs := l.refs - 1 })).numConns) := by
                have hv1 := (hev4.1.1.2.2.1 lid (lt_of_lt_of_le hlid hev4.2.2.1)).2.1
                have hv2 := (hev4.1.1.2.2.1 lid (lt_of_lt_of_le hlid hev4.2.2.1)).2.2.1
                rw [chainD_eq hch4] at hv1 hv2
                exact ⟨hv1, hv2⟩
              obtain ⟨A, B, C, D, E, CH, L⟩ := cleanList_master hch4 hnd4 hb4
              have hlivesame : ∀ c, liveB sf c =
                  liveB (updList { s3 with currentEmitter := s.currentEmitter } lid
                    (fun l => { l with refs := l.refs - 1 })) c := by
                intro c
                unfold liveB
                rw [← hsf, (A c).1]
              have hfeq : (ns ++ t2).filter (liveB (updList
                  { s3 with currentEmitter := s.currentEmitter } lid
                  (fun l => { l with refs := l.refs - 1 }))) =
                  (ns ++ t2).filter (liveB sf) :=
                List.filter_congr (fun c _ => (hlivesame c).symm)
              refine Or.inr ⟨lid, ns, t2, rfl, hlid, hns, ?_, ?_, ?_, ?_, ?_⟩
              · rw [← hevseq, hevs2]
                exact hsub
              · intro e hee
                rw [← hevseq, hevs2] at hee
                exact hes e hee
              · intro c hc hnc
                rw [← hevseq, hevs2] at hnc
                rcases hcomp c hc hnc with h1 | h1
                · exact Or.inl h1
                · right
                  rw [← hsf, (A c).1]
                  exact h1
              · intro _
                constructor
                · rw [← hsf, CH, hfeq, hsf]
                · rw [← hsf, L, hfeq, hsf]
              · intro hn
                exfalso
                apply hn
                refine ⟨hd ▸ hcond.1, ?_⟩
                rw [← hrefs4]
                exact hcond.2
            · rename_i hcond
              injection he with hsf hd hevseq
              refine Or.inr ⟨lid, ns, t2, rfl, hlid, hns, ?_, ?_, ?_, ?_, ?_⟩
              · rw [← hevseq, hevs2]
                exact hsub
              · intro e hee
                rw [← hevseq, hevs2] at hee
                exact hes e hee
              · intro c hc hnc
                rw [← hevseq, hevs2] at hnc
                rcases hcomp c hc hnc with h1 | h1
                · exact Or.inl h1
                · right
                  rw [← hsf]
                  exact h1
              · intro hcnd
                exfalso
                apply hcond
                refine ⟨hd.symm ▸ hcnd.1, ?_⟩
                rw [hrefs4]
                exact hcnd.2
              · intro _
                rw [← hsf]
                exact hch4

/-- Specification of an `emit` whose pass raised: the exception propagated
to the caller with `currentEmitter` and the refcount restored (part of
`Evolves`), the invocations made before the throw are a token-matching,
initially-live subsequence of a prefix of the entry chain, no compaction
ran (the final chain is the entry chain plus appended connections), and
the refcount of the dispatched list is restored. -/
theorem emit_exn_spec {env : Env} {fuel : Nat} {o t ar : JSVal} {s sf : SigState}
    {evs : List Event} (hw : WfState s)
    (he : emit env fuel o t ar s = ERes.exn sf evs) :
    Evolves s sf ∧
    ∃ lid ns ext, alookup s.emitterMap o = some lid ∧ lid < s.numLists ∧
      chainOf s lid = some ns ∧
      chainOf sf lid = some (ns ++ ext) ∧
      (∃ rd rr, ns = rd ++ rr ∧ (evs.map Event.conn).Sublist rd) ∧
      (∀ e ∈ evs, jsEq (s.conns e.conn).token t = true ∧
        (s.conns e.conn).callback ≠ none ∧ e.seen = o ∧ e.args = ar) ∧
      (sf.lists lid).refs = (s.lists lid).refs := by
  have hms := (master_evolves env fuel).2.2.1 o t ar s hw
  rw [he] at hms
  refine ⟨hms, ?_⟩
  cases fuel with
  | zero => exact ERes.noConfusion he
  | succ f =>
      cases halk : alookup s.emitterMap o with
      | none =>
          simp only [emit, halk] at he
          exact ERes.noConfusion he
      | some lid =>
          simp only [emit, halk] at he
          have hlid : lid < s.numLists := by
            obtain ⟨k', hk, _⟩ := alookup_mem halk
            exact hw.1.1 _ hk
          have hw2 : WfState (updList { s with currentEmitter := o } lid
              (fun l => { l with refs := l.refs + 1 })) := by
            refine wf_refs_change lid _
              (@wf_cosmetic s { s with currentEmitter := o } rfl rfl rfl rfl rfl hw)
              (fun l => rfl) (fun l => rfl) ?_
            intro _
            show 0 ≤ (s.lists lid).refs + 1
            have := hw.1.2.2.2.2 lid hlid
            omega
          obtain ⟨ns, hns⟩ : ∃ x, chainOf s lid = some x :=
            Option.isSome_iff_exists.mp (hw.1.2.2.1 lid hlid).1
          have hrefs2 : 1 ≤ ((updList { s with currentEmitter := o } lid
              (fun l => { l with refs := l.refs + 1 })).lists lid).refs := by
            have h1 : ((updList { s with currentEmitter := o } lid
                (fun l => { l with refs := l.refs + 1 })).lists lid).refs =
                (s.lists lid).refs + 1 := by
              rw [updList_lists, if_pos rfl]
            rw [h1]
            have := hw.1.2.2.2.2 lid hlid
            omega
          have hwalk : WalkPost (updList { s with currentEmitter := o } lid
              (fun l => { l with refs := l.refs + 1 })) t ar ns []
              (invokeList env f lid t ar (updList { s with currentEmitter := o } lid
                (fun l => { l with refs := l.refs + 1 }))) :=
            invokeList_spec hw2 hlid hrefs2 ((chainOf_refsbump s o lid lid).trans hns)
          split at he
          · exact ERes.noConfusion he
          · rename_i s3 inv hinveq
            injection he with hsf hevseq
            rw [hinveq] at hwalk
            obtain ⟨hev23, evs2, hevs2, rd, rr, hsplit, hsub, hes⟩ := hwalk
            rw [List.nil_append] at hevs2
            obtain ⟨t2, ht2⟩ := hev23.2.2.2.2.2.2.2.1 lid (by exact hlid) hrefs2
            rw [chainD_eq ((chainOf_refsbump s o lid lid).trans hns)] at ht2
            have hch4 : chainOf (updList { s3 with currentEmitter := s.currentEmitter } lid
                (fun l => { l with refs := l.refs - 1 })) lid = some (ns ++ t2) := by
              rw [chainOf_refsdrop s3 s.currentEmitter lid lid]
              exact ht2
            obtain ⟨hev4, hrefs4⟩ := emit_epilogue_evolves hw hlid hev23
            refine ⟨lid, ns, t2, rfl, hlid, hns, ?_, ?_, ?_, ?_⟩
            · rw [← hsf]
              exact hch4
            · refine ⟨rd, rr, hsplit, ?_⟩
              rw [← hevseq, hevs2]
              exact hsub
            · intro e hee
              rw [← hevseq, hevs2] at hee
              exact hes e hee
            · rw [← hsf]
              exact hrefs4
          · split at he
            · exact ERes.noConfusion he
            · exact ERes.noConfusion he

/-!
## The receiver side: per-receiver chains and `disconnectReceiver`
-/

/-- Follow `nextEmitter` pointers (the per-receiver doubly linked list,
forward direction), collecting ids, with fuel. -/
def followE (s : SigState) : Nat → Option Nat → Option (List Nat)
  | _, none => some []
  | 0, some _ => none
  | fuel + 1, some c => (followE s fuel ((s.conns c).nextEmitter)).map (fun l => c :: l)

/-- `EChainP s x ns`: starting from pointer `x`, following `nextEmitter`
visits exactly the ids `ns` and ends at `null`. -/
def EChainP (s : SigState) : Option Nat → List Nat → Prop
  | x, [] => x = none
  | x, c :: rest => x = some c ∧ EChainP s ((s.conns c).nextEmitter) rest

theorem eChainP_of_followE (s : SigState) :
    ∀ (f : Nat) (x : Option Nat) (ns : List Nat), followE s f x = some ns →
      EChainP s x ns := by
  intro f
  induction f with
  | zero =>
      intro x ns h
      cases x with
      | none =>
          have hns : ns = [] := by simpa [followE] using h.symm
          subst hns; rfl
      | some c => simp [followE] at h
  | succ f ih =>
      intro x ns h
      cases x with
      | none =>
          have hns : ns = [] := by simpa [followE] using h.symm
          subst hns; rfl
      | some c =>
          simp only [followE, Option.map_eq_some'] at h
          obtain ⟨l, hl, rfl⟩ := h
          exact ⟨rfl, ih _ l hl⟩

theorem eChainP_congr : ∀ (ns : List Nat) (x : Option Nat) {s s' : SigState},
    (∀ c ∈ ns, (s'.conns c).nextEmitter = (s.conns c).nextEmitter) →
    EChainP s x ns → EChainP s' x ns := by
  intro ns
  induction ns with
  | nil => intro x s s' _ h; exact h
  | cons c rest ih =>
      intro x s s' hagree h
      refine ⟨h.1, ?_⟩
      rw [hagree c (List.mem_cons_self c rest)]
      exact ih _ (fun d hd => hagree d (List.mem_cons_of_mem c hd)) h.2

/-- The walk of `disconnectReceiver` tombstones every connection of the
per-receiver chain and clears its links, and touches no other
connection. -/
theorem dcRLoop_kills : ∀ (hs : List Nat) (s : SigState) (x : Option Nat) (f : Nat),
    EChainP s x hs → hs.Nodup → hs.length ≤ f →
    (∀ d, d ∉ hs → (dcRLoop s f x).conns d = s.conns d) ∧
    (∀ c ∈ hs, ((dcRLoop s f x).conns c).callback = none ∧
      ((dcRLoop s f x).conns c).thisArg = JSVal.null ∧
      ((dcRLoop s f x).conns c).prevEmitter = none ∧
      ((dcRLoop s f x).conns c).nextEmitter = none) := by
  intro hs
  induction hs with
  | nil =>
      intro s x f hch _ _
      have hx : x = none := hch
      subst hx
      refine ⟨fun d _ => by cases f <;> rfl, fun c hc => absurd hc (List.not_mem_nil c)⟩
  | cons c rest ih =>
      intro s x f hch hnd hlen
      obtain ⟨hx, hrest⟩ := hch
      subst hx
      cases f with
      | zero => simp at hlen
      | succ f2 =>
          have hlen2 : rest.length ≤ f2 := by simpa using hlen
          have hcr : c ∉ rest := (List.nodup_cons.mp hnd).1
          have hch1 : EChainP (updConn s c (fun cn => { cn with callback := none, thisArg := JSVal.null, prevEmitter := none, nextEmitter := none }))
              ((s.conns c).nextEmitter) rest := by
            refine eChainP_congr rest _ ?_ hrest
            intro d hd
            have hne : d ≠ c := fun h => hcr (h ▸ hd)
            rw [updConn_conns, if_neg hne]
          have hrec := ih _ ((s.conns c).nextEmitter) f2 hch1 (List.nodup_cons.mp hnd).2 hlen2
          have heq : dcRLoop s (f2 + 1) (some c) =
              dcRLoop (updConn s c (fun cn => { cn with callback := none, thisArg := JSVal.null, prevEmitter := none, nextEmitter := none }))
                f2 ((s.conns c).nextEmitter) := rfl
          constructor
          · intro d hd
            have hne : d ≠ c := fun h => hd (h ▸ List.mem_cons_self c rest)
            rw [heq, hrec.1 d (fun h => hd (List.mem_cons_of_mem c h)),
              updConn_conns, if_neg hne]
          · intro d hd
            rcases List.mem_cons.mp hd with hdc | hdm
            · subst hdc
              rw [heq, hrec.1 d hcr, updConn_conns, if_pos rfl]
              exact ⟨rfl, rfl, rfl, rfl⟩
            · rw [heq]
              exact hrec.2 d hdm

/-- The connection allocated by `connectAppend` carries the requested
`(token, callback, thisArg)` triple, and the emitter registry is
unchanged. -/
theorem connectAppend_facts {s : SigState} {lid lastId : Nat} {t : JSVal} {cb : Nat}
    {ctxC : JSVal} (hne : lastId ≠ s.numConns) :
    ((connectAppend s lid lastId t cb ctxC).conns s.numConns).token = t ∧
    ((connectAppend s lid lastId t cb ctxC).conns s.numConns).callback = some cb ∧
    ((connectAppend s lid lastId t cb ctxC).conns s.numConns).thisArg = ctxC ∧
    (connectAppend s lid lastId t cb ctxC).emitterMap = s.emitterMap := by
  simp only [connectAppend]
  split
  · rename_i h hh
    by_cases hcase : s.numConns = h
    · subst hcase
      refine ⟨?_, ?_, ?_, rfl⟩ <;>
        simp [updConn_conns, hne, Ne.symm hne]
    · have hcase2 : ¬ h = s.numConns := fun h2 => hcase h2.symm
      refine ⟨?_, ?_, ?_, rfl⟩ <;>
        simp [updConn_conns, hne, Ne.symm hne, hcase, hcase2]
  · refine ⟨?_, ?_, ?_, rfl⟩ <;> simp [updConn_conns, hne, Ne.symm hne]

/-- The connection allocated by `connectFresh` carries the requested
`(token, callback, thisArg)` triple. -/
theorem connectFresh_facts {s : SigState} {o t : JSVal} {cb : Nat} {ctxC : JSVal} :
    ((connectFresh s o t cb ctxC).conns s.numConns).token = t ∧
    ((connectFresh s o t cb ctxC).conns s.numConns).callback = some cb ∧
    ((connectFresh s o t cb ctxC).conns s.numConns).thisArg = ctxC := by
  simp only [connectFresh]
  split
  · rename_i h hh
    by_cases hcase : s.numConns = h
    · subst hcase
      refine ⟨?_, ?_, ?_⟩ <;> simp [updConn_conns]
    · have hcase2 : ¬ h = s.numConns := fun h2 => hcase h2.symm
      refine ⟨?_, ?_, ?_⟩ <;> simp [updConn_conns, hcase, hcase2]
  · refine ⟨?_, ?_, ?_⟩ <;> simp [updConn_conns]

/-- `connect` on an owner that already has a live `===`-matching
connection bails with `false` and no state change. -/
theorem connect_dup_false {s : SigState} (hw : WfState s) {o t : JSVal} {cb : Nat}
    {ctx : JSVal} {lid c : Nat} (halk : alookup s.emitterMap o = some lid)
    (hc : c ∈ chainD s lid) (hcb : (s.conns c).callback = some cb)
    (htk : jsEq (s.conns c).token t = true)
    (hctx : jsEq (s.conns c).thisArg (jsOr ctx JSVal.undef) = true) :
    connect s o t cb ctx = ConnectRes.ret false s := by
  have hlid : lid < s.numLists := by
    obtain ⟨k', hk, _⟩ := alookup_mem halk
    exact hw.1.1 _ hk
  obtain ⟨ns, hns⟩ : ∃ x, chainOf s lid = some x :=
    Option.isSome_iff_exists.mp (hw.1.2.2.1 lid hlid).1
  have hnd : ns.Nodup := by
    have h1 := (hw.1.2.2.1 lid hlid).2.1
    rw [chainD_eq hns] at h1
    exact h1
  have hbd : ∀ x ∈ ns, x < s.numConns := by
    have h1 := (hw.1.2.2.1 lid hlid).2.2.1
    rw [chainD_eq hns] at h1
    exact h1
  rw [chainD_eq hns] at hc
  have hsome : (findConnection s lid t cb (jsOr ctx JSVal.undef)).isSome = true := by
    rw [Option.isSome_iff_ne_none]
    intro hnone
    exact (findLoop_none_iff ns _ s.numConns (chainP_chainOf hns)
      (nodup_length_le ns s.numConns hnd hbd)).mp hnone c hc ⟨htk, hcb, hctx⟩
  simp only [connect, halk, hsome, if_true]

/-- `disconnect` on an owner with a live `===`-matching connection returns
`true`. -/
theorem disconnect_match_true {s : SigState} (hw : WfState s) {o t : JSVal} {cb : Nat}
    {ctx : JSVal} {lid c : Nat} (halk : alookup s.emitterMap o = some lid)
    (hc : c ∈ chainD s lid) (hcb : (s.conns c).callback = some cb)
    (htk : jsEq (s.conns c).token t = true)
    (hctx : jsEq (s.conns c).thisArg (jsOr ctx JSVal.undef) = true) :
    (disconnect s o t cb ctx).1 = true := by
  have hlid : lid < s.numLists := by
    obtain ⟨k', hk, _⟩ := alookup_mem halk
    exact hw.1.1 _ hk
  obtain ⟨ns, hns⟩ : ∃ x, chainOf s lid = some x :=
    Option.isSome_iff_exists.mp (hw.1.2.2.1 lid hlid).1
  have hnd : ns.Nodup := by
    have h1 := (hw.1.2.2.1 lid hlid).2.1
    rw [chainD_eq hns] at h1
    exact h1
  have hbd : ∀ x ∈ ns, x < s.numConns := by
    have h1 := (hw.1.2.2.1 lid hlid).2.2.1
    rw [chainD_eq hns] at h1
    exact h1
  rw [chainD_eq hns] at hc
  have hne : findConnection s lid t cb (jsOr ctx JSVal.undef) ≠ none := by
    intro hnone
    exact (findLoop_none_iff ns _ s.numConns (chainP_chainOf hns)
      (nodup_length_le ns s.numConns hnd hbd)).mp hnone c hc ⟨htk, hcb, hctx⟩
  cases hfc : findConnection s lid t cb (jsOr ctx JSVal.undef) with
  | none => exact absurd hfc hne
  | some c2 => simp only [disconnect, halk, hfc]

/-!
## Concrete example states and callback environments

Used by the claim witnesses and counterexamples: `s2ex` is the registry
with one owner `oV` and two live connections (callbacks `0` and `1`) on
token `tokV`, built by two `connect` calls from the empty state.
-/

def oV : JSVal := JSVal.obj 0
def tokV : JSVal := JSVal.str "changed"
def argV : JSVal := JSVal.num 42

def s1ex : SigState :=
  match connect emptyState oV tokV 0 JSVal.null with
  | ConnectRes.ret _ s => s
  | ConnectRes.crash s => s

def s2ex : SigState :=
  match connect s1ex oV tokV 1 JSVal.null with
  | ConnectRes.ret _ s => s
  | ConnectRes.crash s => s

/-- Callbacks that do nothing. -/
def env0 : Env := fun _ _ _ => []

/-- Callback `0` disconnects itself and then re-emits (a nested pass over
a list whose head is now a tombstone); callback `1` does nothing. -/
def envC3 : Env := fun cb _ _ =>
  if cb = 0 then [Act.disconnectA oV tokV 0 JSVal.null, Act.emitA oV tokV argV] else []

/-- Callback `0` disconnects both connections; callback `1` does
nothing. -/
def envC4 : Env := fun cb _ _ =>
  if cb = 0 then [Act.disconnectA oV tokV 0 JSVal.null, Act.disconnectA oV tokV 1 JSVal.null]
  else []

/-- Callback `1` throws. -/
def envThrow : Env := fun cb _ _ => if cb = 1 then [Act.throwA] else []

/-- The ghost event of `s2ex`'s connection 0 firing at the head of an
emit on `oV`. -/
def eMid : Event := { conn := 0, cb := 0, thisArg := JSVal.undef, args := argV, seen := oV }

/-- The registry state at which the nested `emit` performed by
connection 0's callback runs during `emit envC3 20 oV tokV argV s2ex`:
the outer emit has set `currentEmitter`, bumped `refs`, recorded `eMid`,
and the callback's first action has disconnected connection 0. -/
def sMidC3 : SigState :=
  (disconnect { (updList { s2ex with currentEmitter := oV } 0 (fun l => { l with refs := l.refs + 1 })) with trace := [eMid] } oV tokV 0 JSVal.null).2

/-!
## The claims
-/

/-- C1: A single `emit(owner, token, args)` invokes exactly the live,
token-matching connections of the owner's entry chain, in connection
order (a subsequence of the chain, each at most once); connections
appended during the pass (ids at or above the entry heap bound, hence
outside the entry chain) are not invoked; every entry-chain connection
that matches the token but was not invoked is dead at exit — it was
tombstoned during the call before its turn, and the per-node liveness
check skipped it. -/
theorem c1_dispatch_order {env : Env} {fuel : Nat} {o t ar : JSVal} {s sf : SigState}
    {d : Bool} {evs : List Event} {lid : Nat} {ns : List Nat} (hw : WfState s)
    (he : emit env fuel o t ar s = ERes.ok sf d evs)
    (halk : alookup s.emitterMap o = some lid)
    (hch : chainOf s lid = some ns) :
    (evs.map Event.conn).Sublist ns ∧
    (evs.map Event.conn).Nodup ∧
    (∀ e ∈ evs, e.conn < s.numConns) ∧
    (∀ e ∈ evs, jsEq (s.conns e.conn).token t = true ∧
      (s.conns e.conn).callback ≠ none ∧ e.args = ar) ∧
    (∀ c ∈ ns, c ∉ evs.map Event.conn →
      jsEq (s.conns c).token t = false ∨ (sf.conns c).callback = none) := by
  obtain ⟨hev, hcase⟩ := emit_ok_spec hw he
  rcases hcase with ⟨halk2, _, _, _⟩ | ⟨lid2, ns2, ext, halk2, hlid2, hch2, hsub, hes, hcomp, _⟩
  · rw [halk] at halk2
    exact Option.noConfusion halk2
  · rw [halk] at halk2
    obtain rfl : lid = lid2 := Option.some.inj halk2
    rw [hch] at hch2
    obtain rfl : ns = ns2 := Option.some.inj hch2
    have hnd : ns.Nodup := by
      have h1 := (hw.1.2.2.1 lid hlid2).2.1
      rw [chainD_eq hch] at h1
      exact h1
    have hbd : ∀ c ∈ ns, c < s.numConns := by
      have h1 := (hw.1.2.2.1 lid hlid2).2.2.1
      rw [chainD_eq hch] at h1
      exact h1
    refine ⟨hsub, hnd.sublist hsub, ?_, ?_, hcomp⟩
    · intro e hee
      exact hbd e.conn (hsub.subset (List.mem_map_of_mem Event.conn hee))
    · intro e hee
      obtain ⟨h1, h2, _, h4⟩ := hes e hee
      exact ⟨h1, h2, h4⟩

/-- C5: When an invoked callback throws, `emit` propagates the exception
(the result is the exception branch), dispatch stops at the throwing
connection (the invocation record is a subsequence of a prefix of the
entry chain), and on this exit path the refcount is still restored and
`currentEmitter` is still reset, leaving a well-formed state. -/
theorem c5_exception_path {env : Env} {fuel : Nat} {o t ar : JSVal} {s sf : SigState}
    {evs : List Event} (hw : WfState s)
    (he : emit env fuel o t ar s = ERes.exn sf evs) :
    WfState sf ∧
    sf.currentEmitter = s.currentEmitter ∧
    (∀ j < s.numLists, (sf.lists j).refs = (s.lists j).refs) ∧
    ∃ lid ns rd rr, alookup s.emitterMap o = some lid ∧ chainOf s lid = some ns ∧
      ns = rd ++ rr ∧ (evs.map Event.conn).Sublist rd ∧
      ∀ e ∈ evs, jsEq (s.conns e.conn).token t = true := by
  obtain ⟨hev, lid, ns, ext, halk, hlid, hch, hchf, ⟨rd, rr, hsplit, hsub⟩, hes, hrefs⟩ :=
    emit_exn_spec hw he
  exact ⟨hev.1, hev.2.2.2.1, fun j hj => hev.2.2.2.2.1 j hj,
    lid, ns, rd, rr, halk, hch, hsplit, hsub, fun e hee => (hes e hee).1⟩

/-- C6: `emitter()` returns the module's active-emission context; every
`emit` that returns (normally or by exception) restores the context to
its prior value, and every callback invoked by an `emit`'s own pass saw
that emit's owner as `emitter()` — so for nested emissions the innermost
dispatching owner is observed. -/
theorem c6_current_emitter {env : Env} {fuel : Nat} {o t ar : JSVal} {s : SigState}
    (hw : WfState s) :
    emitter s = s.currentEmitter ∧
    (∀ sf d evs, emit env fuel o t ar s = ERes.ok sf d evs →
      sf.currentEmitter = s.currentEmitter ∧ ∀ e ∈ evs, e.seen = o) ∧
    (∀ sf evs, emit env fuel o t ar s = ERes.exn sf evs →
      sf.currentEmitter = s.currentEmitter ∧ ∀ e ∈ evs, e.seen = o) := by
  refine ⟨rfl, ?_, ?_⟩
  · intro sf d evs he
    obtain ⟨hev, hcase⟩ := emit_ok_spec hw he
    refine ⟨hev.2.2.2.1, ?_⟩
    rcases hcase with ⟨_, _, _, hevs⟩ | ⟨_, _, _, _, _, _, _, hes, _, _⟩
    · rw [hevs]
      intro e hee
      exact absurd hee (List.not_mem_nil e)
    · intro e hee
      exact (hes e hee).2.2.1
  · intro sf evs he
    obtain ⟨hev, lid, ns, ext, _, _, _, _, _, hes, _⟩ := emit_exn_spec hw he
    exact ⟨hev.2.2.2.1, fun e hee => (hes e hee).2.2.1⟩

/-- C10: When an invoked callback throws, the `emit` call performs no
compaction: the dispatched list's final chain is its entry chain plus any
connections appended during the pass, so every connection tombstoned
before or during the call is still linked in the list; both registries
remain in a well-formed state. -/
theorem c10_no_compaction_on_throw {env : Env} {fuel : Nat} {o t ar : JSVal}
    {s sf : SigState} {evs : List Event} (hw : WfState s)
    (he : emit env fuel o t ar s = ERes.exn sf evs) :
    WfState sf ∧
    ∃ lid ns ext, alookup s.emitterMap o = some lid ∧ chainOf s lid = some ns ∧
      chainOf sf lid = some (ns ++ ext) ∧
      (sf.lists lid).refs = (s.lists lid).refs ∧
      ∀ c ∈ ns, (s.conns c).callback = none →
        (sf.conns c).callback = none ∧ c ∈ chainD sf lid := by
  obtain ⟨hev, lid, ns, ext, halk, hlid, hch, hchf, _, _, hrefs⟩ := emit_exn_spec hw he
  have hbd : ∀ c ∈ ns, c < s.numConns := by
    have h1 := (hw.1.2.2.1 lid hlid).2.2.1
    rw [chainD_eq hch] at h1
    exact h1
  refine ⟨hev.1, lid, ns, ext, halk, hch, hchf, hrefs, ?_⟩
  intro c hc hdead
  refine ⟨hev.2.2.2.2.2.2.1 c (hbd c hc) hdead, ?_⟩
  rw [chainD_eq hchf]
  exact List.mem_append_left ext hc

/-- C2: In a well-formed state no per-emitter list holds two distinct live
connections with `===`-equal `(token, callback, thisArg)` triples; the
invariant is preserved by every sequence of API calls (each of connect,
disconnect, emit and the bulk teardowns is an action); `connect` on an
owner that already has a live matching connection returns `false` with
the state unchanged; and within one emit pass no two invocations carry
`===`-equal triples, so a callback fires once, not twice. -/
theorem c2_unique_triple {s : SigState} (hw : WfState s) :
    UniqueLive s ∧
    (∀ env fuel acts s',
      runActs env fuel acts s = Res.ok s' ∨ runActs env fuel acts s = Res.exn s' →
      UniqueLive s') ∧
    (∀ o t cb ctx lid c, alookup s.emitterMap o = some lid → c ∈ chainD s lid →
      (s.conns c).callback = some cb → jsEq (s.conns c).token t = true →
      jsEq (s.conns c).thisArg (jsOr ctx JSVal.undef) = true →
      connect s o t cb ctx = ConnectRes.ret false s) ∧
    (∀ env fuel o t ar sf d evs, emit env fuel o t ar s = ERes.ok sf d evs →
      evs.Pairwise (fun e1 e2 => ¬ sameTriple s e1.conn e2.conn)) := by
  refine ⟨hw.2, ?_, ?_, ?_⟩
  · intro env fuel acts s' hr
    have h0 := (master_evolves env fuel).1 acts s hw
    rcases hr with hr | hr <;> rw [hr] at h0 <;> exact h0.1.2
  · intro o t cb ctx lid c halk hc hcb htk hctx
    exact connect_dup_false hw halk hc hcb htk hctx
  · intro env fuel o t ar sf d evs he
    obtain ⟨hev, hcase⟩ := emit_ok_spec hw he
    rcases hcase with ⟨_, _, _, hevs⟩ | ⟨lid, ns, ext, halk, hlid, hch, hsub, hes, _, _⟩
    · rw [hevs]
      exact List.Pairwise.nil
    · have hul := hw.2 lid hlid
      rw [chainD_eq hch] at hul
      have hp2 : (evs.map Event.conn).Pairwise
          (fun a b => ¬(isLive s a ∧ isLive s b ∧ sameTriple s a b)) := hul.sublist hsub
      have hp3 : evs.Pairwise (fun e1 e2 =>
          ¬(isLive s e1.conn ∧ isLive s e2.conn ∧ sameTriple s e1.conn e2.conn)) :=
        (List.pairwise_map).mp hp2
      refine hp3.imp_of_mem ?_
      intro e1 e2 h1 h2 hnot hsame
      exact hnot ⟨(hes e1 h1).2.1, (hes e2 h2).2.1, hsame⟩

/-- C8: `disconnect` with no registry entry, or with an entry but no live
`===`-matching connection, returns `false` and leaves the state
unchanged; `disconnectEmitter` and `disconnectReceiver` with no entry
return the state unchanged.  (All four operations are total functions of
the embedding; only `connect` has a crashing branch.) -/
theorem c8_noop_teardown {s : SigState} (hw : WfState s) :
    (∀ o t cb ctx, alookup s.emitterMap o = none → disconnect s o t cb ctx = (false, s)) ∧
    (∀ o t cb ctx lid, alookup s.emitterMap o = some lid →
      (∀ c ∈ chainD s lid, ¬ matchesQ s c t cb (jsOr ctx JSVal.undef)) →
      disconnect s o t cb ctx = (false, s)) ∧
    (∀ o, alookup s.emitterMap o = none → disconnectEmitter s o = s) ∧
    (∀ r, alookup s.receiverMap r = none → disconnectReceiver s r = s) := by
  refine ⟨?_, ?_, ?_, ?_⟩
  · intro o t cb ctx halk
    simp only [disconnect, halk]
  · intro o t cb ctx lid halk hno
    have hlid : lid < s.numLists := by
      obtain ⟨k', hk, _⟩ := alookup_mem halk
      exact hw.1.1 _ hk
    obtain ⟨ns, hns⟩ : ∃ x, chainOf s lid = some x :=
      Option.isSome_iff_exists.mp (hw.1.2.2.1 lid hlid).1
    have hnd : ns.Nodup := by
      have h1 := (hw.1.2.2.1 lid hlid).2.1
      rw [chainD_eq hns] at h1
      exact h1
    have hbd : ∀ x ∈ ns, x < s.numConns := by
      have h1 := (hw.1.2.2.1 lid hlid).2.2.1
      rw [chainD_eq hns] at h1
      exact h1
    rw [chainD_eq hns] at hno
    have hfc : findConnection s lid t cb (jsOr ctx JSVal.undef) = none :=
      (findLoop_none_iff ns _ s.numConns (chainP_chainOf hns)
        (nodup_length_le ns s.numConns hnd hbd)).mpr hno
    simp only [disconnect, halk, hfc]
  · intro o halk
    simp only [disconnectEmitter, halk]
  · intro r halk
    simp only [disconnectReceiver, halk]

/-- C7: For a receiver `r` with a registry entry whose per-receiver chain
is `hs`, `disconnectReceiver r` tombstones every connection of the chain
(callback and context cleared) and clears its receiver-side links, leaves
every per-emitter chain untouched (the tombstones stay in place pending
compaction), and deletes `r`'s registry entry; afterwards — from the
resulting state or any state it evolves into — no `emit` on any owner
invokes any of those connections. -/
theorem c7_disconnect_receiver {s : SigState} {r : JSVal} {h : Nat} {hs : List Nat}
    (hw : WfState s) (halk : alookup s.receiverMap r = some h)
    (hfe : followE s s.numConns (some h) = some hs)
    (hnd : hs.Nodup) (hb : ∀ c ∈ hs, c < s.numConns) :
    (∀ c ∈ hs, ((disconnectReceiver s r).conns c).callback = none ∧
      ((disconnectReceiver s r).conns c).thisArg = JSVal.null ∧
      ((disconnectReceiver s r).conns c).prevEmitter = none ∧
      ((disconnectReceiver s r).conns c).nextEmitter = none) ∧
    (∀ j, chainOf (disconnectReceiver s r) j = chainOf s j) ∧
    alookup (disconnectReceiver s r).receiverMap r = none ∧
    (∀ sx, Evolves (disconnectReceiver s r) sx → ∀ env fuel o t ar,
      (∀ sf d evs, emit env fuel o t ar sx = ERes.ok sf d evs →
        ∀ e ∈ evs, e.conn ∉ hs) ∧
      (∀ sf evs, emit env fuel o t ar sx = ERes.exn sf evs →
        ∀ e ∈ evs, e.conn ∉ hs)) := by
  have hdef : disconnectReceiver s r = { dcRLoop s s.numConns (some h) with
      receiverMap := aremove (dcRLoop s s.numConns (some h)).receiverMap r } := by
    simp only [disconnectReceiver, halk]
  have hkills := dcRLoop_kills hs s (some h) s.numConns (eChainP_of_followE s _ _ _ hfe)
    hnd (nodup_length_le hs s.numConns hnd hb)
  have hframe := dcRLoop_frame s.numConns s (some h)
  have hdead : ∀ c ∈ hs, ((disconnectReceiver s r).conns c).callback = none := by
    intro c hc
    rw [hdef]
    exact (hkills.2 c hc).1
  have hnc : (disconnectReceiver s r).numConns = s.numConns := by
    rw [hdef]
    exact hframe.2.1
  refine ⟨?_, ?_, ?_, ?_⟩
  · intro c hc
    rw [hdef]
    exact hkills.2 c hc
  · intro j
    rw [hdef]
    refine @chainOf_eq_of s _ ?_ ?_ ?_ j
    · exact hframe.2.1
    · intro jj
      show ((dcRLoop s s.numConns (some h)).lists jj).first = (s.lists jj).first
      rw [hframe.1]
    · intro c
      exact (hframe.2.2.2.2.2.2.2 c).1
  · rw [hdef]
    show alookup (aremove (dcRLoop s s.numConns (some h)).receiverMap r) r = none
    exact alookup_aremove_self _ r
  · intro sx hevx env fuel o t ar
    have hdeadx : ∀ c ∈ hs, (sx.conns c).callback = none := by
      intro c hc
      refine hevx.2.2.2.2.2.2.1 c ?_ (hdead c hc)
      rw [hnc]
      exact hb c hc
    constructor
    · intro sf d evs he e hee hmem
      obtain ⟨_, hcase⟩ := emit_ok_spec hevx.1 he
      rcases hcase with ⟨_, _, _, hevs⟩ | ⟨lid, ns, ext, _, _, _, _, hes, _, _⟩
      · rw [hevs] at hee
        exact absurd hee (List.not_mem_nil e)
      · exact (hes e hee).2.1 (hdeadx e.conn hmem)
    · intro sf evs he e hee hmem
      obtain ⟨_, lid, ns, ext, _, _, _, _, _, hes, _⟩ := emit_exn_spec hevx.1 he
      exact (hes e hee).2.1 (hdeadx e.conn hmem)

/-- C9: Both `connect` and `disconnect` coerce a falsy context to
`undefined` (`thisArg || void 0`), and a context-free connection's
receiver identity is the callback itself (`thisArg || callback`);
consequently a second `connect` with the same owner, token and callback
and any falsy context hits the duplicate check and returns `false` with
no state change, and `disconnect` with any falsy context matches a
connection made with any other falsy context. -/
theorem c9_falsy_context {s : SigState} {o t : JSVal} {cb : Nat} {x y : JSVal}
    (hw : WfState s) (ho : jsEq o o = true) (ht : jsEq t t = true)
    (hx : truthy x = false) (hy : truthy y = false) :
    jsOr x JSVal.undef = JSVal.undef ∧
    jsOr y JSVal.undef = JSVal.undef ∧
    jsOr JSVal.undef (cbVal (some cb)) = JSVal.fn cb ∧
    (∀ s1, connect s o t cb x = ConnectRes.ret true s1 →
      connect s1 o t cb y = ConnectRes.ret false s1 ∧
      (disconnect s1 o t cb y).1 = true) := by
  have hxu : jsOr x JSVal.undef = JSVal.undef := by
    simp [jsOr, hx]
  have hyu : jsOr y JSVal.undef = JSVal.undef := by
    simp [jsOr, hy]
  refine ⟨hxu, hyu, rfl, ?_⟩
  intro s1 hcon
  simp only [connect, hxu] at hcon
  cases halk : alookup s.emitterMap o with
  | some lid =>
      simp only [halk] at hcon
      have hlid : lid < s.numLists := by
        obtain ⟨k', hk, _⟩ := alookup_mem halk
        exact hw.1.1 _ hk
      obtain ⟨ns, hns⟩ : ∃ z, chainOf s lid = some z :=
        Option.isSome_iff_exists.mp (hw.1.2.2.1 lid hlid).1
      have hbd : ∀ c ∈ ns, c < s.numConns := by
        have h1 := (hw.1.2.2.1 lid hlid).2.2.1
        rw [chainD_eq hns] at h1
        exact h1
      split at hcon
      · exact absurd (ConnectRes.ret.inj hcon).1 (by simp)
      · split at hcon
        · exact ConnectRes.noConfusion hcon
        · rename_i hfind hlast lastId hlasteq
          have hs1 : connectAppend s lid lastId t cb JSVal.undef = s1 :=
            (ConnectRes.ret.inj hcon).2
          have hfindn : findConnection s lid t cb JSVal.undef = none := by
            cases hfc : findConnection s lid t cb JSVal.undef with
            | none => rfl
            | some c2 =>
                exfalso
                apply hfind
                rw [hfc]
                rfl
          obtain ⟨hevolve, hchain⟩ := evolves_connectAppend hw halk hfindn hlasteq
          have hlastmem : lastId ∈ ns := by
            have hl4 := (hw.1.2.2.1 lid hlid).2.2.2
            rw [chainD_eq hns] at hl4
            apply List.mem_of_mem_getLast? (l := ns) (a := lastId)
            rw [← hl4, hlasteq]
            rfl
          have hne : lastId ≠ s.numConns := Nat.ne_of_lt (hbd lastId hlastmem)
          obtain ⟨htok, hcbf, hthis, hemap⟩ :=
            @connectAppend_facts s lid lastId t cb JSVal.undef hne
          have hw1 : WfState s1 := hs1 ▸ hevolve.1
          have halk1 : alookup s1.emitterMap o = some lid := by
            rw [← hs1, hemap]
            exact halk
          have hc1 : s.numConns ∈ chainD s1 lid := by
            rw [← hs1, chainD_eq hchain]
            exact List.mem_append_right _ (List.mem_singleton.mpr rfl)
          have hcb1 : (s1.conns s.numConns).callback = some cb := by
            rw [← hs1]
            exact hcbf
          have htk1 : jsEq ((s1.conns s.numConns).token) t = true := by
            rw [← hs1, htok]
            exact ht
          have hctx1 : jsEq ((s1.conns s.numConns).thisArg) (jsOr y JSVal.undef) = true := by
            rw [← hs1, hthis, hyu]
            rfl
          exact ⟨connect_dup_false hw1 halk1 hc1 hcb1 htk1 hctx1,
            disconnect_match_true hw1 halk1 hc1 hcb1 htk1 hctx1⟩
  | none =>
      simp only [halk] at hcon
      have hs1 : connectFresh s o t cb JSVal.undef = s1 := (ConnectRes.ret.inj hcon).2
      obtain ⟨hevolve, halkf, hchainf⟩ := evolves_connectFresh hw o t cb JSVal.undef
      have honan : o ≠ JSVal.nan := by
        intro hh
        rw [hh] at ho
        exact absurd ho (by decide)
      have hw1 : WfState s1 := hs1 ▸ hevolve.1
      have halk1 : alookup s1.emitterMap o = some s.numLists := by
        rw [← hs1]
        exact halkf honan
      have hc1 : s.numConns ∈ chainD s1 s.numLists := by
        rw [← hs1, chainD_eq hchainf]
        exact List.mem_singleton.mpr rfl
      obtain ⟨htok, hcbf, hthis⟩ := @connectFresh_facts s o t cb JSVal.undef
      have hcb1 : (s1.conns s.numConns).callback = some cb := by
        rw [← hs1]
        exact hcbf
      have htk1 : jsEq ((s1.conns s.numConns).token) t = true := by
        rw [← hs1, htok]
        exact ht
      have hctx1 : jsEq ((s1.conns s.numConns).thisArg) (jsOr y JSVal.undef) = true := by
        rw [← hs1, hthis, hyu]
        rfl
      exact ⟨connect_dup_false hw1 halk1 hc1 hcb1 htk1 hctx1,
        disconnect_match_true hw1 halk1 hc1 hcb1 htk1 hctx1⟩

/-- `cleanList`'s loop never touches the two registries. -/
theorem cleanLoop_maps (lid : Nat) : ∀ (f : Nat) (prev x : Option Nat) (s : SigState),
    (cleanLoop lid f prev x s).1.emitterMap = s.emitterMap ∧
    (cleanLoop lid f prev x s).1.receiverMap = s.receiverMap := by
  intro f
  induction f with
  | zero =>
      intro prev x s
      cases x <;> exact ⟨rfl, rfl⟩
  | succ f ih =>
      intro prev x s
      cases x with
      | none => exact ⟨rfl, rfl⟩
      | some c =>
          rw [cleanLoop_cons]
          by_cases hd : (s.conns c).callback = none
          · rw [if_pos hd]
            exact ih prev _ _
          · rw [if_neg hd]
            cases prev with
            | none => exact ih (some c) _ _
            | some p => exact ih (some c) _ _

/-- Projections of the run used to refute the registry-removal half of
the claim about registry entries: a compaction that empties the list. -/
def runC4 : ERes := emit envC4 20 oV tokV argV s2ex

def sfC4 : SigState :=
  match runC4 with
  | ERes.ok s _ _ => s
  | ERes.exn s _ => s
  | ERes.oog => emptyState

def evsC4 : List Event :=
  match runC4 with
  | ERes.ok _ _ e => e
  | ERes.exn _ e => e
  | ERes.oog => []

/-- C4 counterexample: a run in which connection 0's callback disconnects
both connections, so the ensuing compaction empties the owner's list —
yet the owner's registry entry survives (`cleanList` never deletes map
entries), with the refcount back at zero (not under active iteration).
This refutes both the removal clause and the stated iff. -/
theorem c4_registry_entry_cex :
    emit envC4 20 oV tokV argV s2ex = ERes.ok sfC4 true evsC4 ∧
    chainOf sfC4 0 = some [] ∧
    (sfC4.lists 0).first = none ∧
    (sfC4.lists 0).last = none ∧
    (sfC4.lists 0).refs = 0 ∧
    alookup sfC4.emitterMap oV = some 0 := by
  refine ⟨rfl, by decide, by decide, by decide, by decide, by decide⟩

/-- C4 (amended): `cleanList` never removes a registry entry: both weak
maps are exactly preserved by compaction, so an owner whose compaction
empties its list keeps its registry entry, now mapped to an empty list
(the stated iff fails in this direction; entries disappear only via
`disconnectEmitter`). -/
theorem c4_registry_entry_amended (s : SigState) (lid : Nat) :
    (cleanList s lid).emitterMap = s.emitterMap ∧
    (cleanList s lid).receiverMap = s.receiverMap := by
  unfold cleanList
  rcases hcl : cleanLoop lid s.numConns none ((s.lists lid).first) s with ⟨s1, pr⟩
  have hm := cleanLoop_maps lid s.numConns none ((s.lists lid).first) s
  rw [hcl] at hm
  cases pr with
  | none => exact hm
  | some p => exact hm

/-- Projections of the run used to refute the nested-pass clause of the
compaction-trigger claim. -/
def runC3 : ERes := emit envC3 20 oV tokV argV s2ex

def sfC3 : SigState :=
  match runC3 with
  | ERes.ok s _ _ => s
  | ERes.exn s _ => s
  | ERes.oog => emptyState

def evsC3 : List Event :=
  match runC3 with
  | ERes.ok _ _ e => e
  | ERes.exn _ e => e
  | ERes.oog => []

/-- Projections of the nested `emit` inside that run (it starts from
`sMidC3`, the reconstructed mid-call state). -/
def runC3n : ERes := emit envC3 15 oV tokV argV sMidC3

def smC3 : SigState :=
  match runC3n with
  | ERes.ok s _ _ => s
  | ERes.exn s _ => s
  | ERes.oog => emptyState

def evsC3n : List Event :=
  match runC3n with
  | ERes.ok _ _ e => e
  | ERes.exn _ e => e
  | ERes.oog => []

/-- C3 counterexample: connection 0's callback disconnects connection 0
and then re-emits.  The nested pass walks the chain with node 0 already
dead and returns `dirty = true` (second conjunct block: that emit runs
from the reconstructed mid-call state `sMidC3` and its own flag is
`true`, but the refcount is still positive there so compaction is
deferred — and the flag is then discarded).  The outer pass saw node 0
alive, so the outer call ends with `dirty = false`, the refcount back at
zero, and no compaction: the tombstoned node 0 is still linked in the
final chain.  The final trace `[0, 1, 1]` shows the nested pass inside
the outer one.  This refutes the claim's "or any pass nested inside it"
clause. -/
theorem c3_compaction_trigger_cex :
    (emit envC3 20 oV tokV argV s2ex = ERes.ok sfC3 false evsC3 ∧
      (sfC3.lists 0).refs = 0 ∧
      (sfC3.conns 0).callback = none ∧
      chainOf sfC3 0 = some [0, 1] ∧
      sfC3.trace.map Event.conn = [0, 1, 1]) ∧
    (emit envC3 15 oV tokV argV sMidC3 = ERes.ok smC3 true evsC3n ∧
      (sMidC3.conns 0).callback = none ∧
      (smC3.lists 0).refs = 1 ∧
      chainOf smC3 0 = some [0, 1]) := by
  refine ⟨⟨rfl, by decide, by decide, by decide, by decide⟩,
    ⟨rfl, by decide, by decide, by decide⟩⟩

/-- C3 (amended): at a normal `emit` exit, compaction triggers exactly on
the pass's own dirty flag (the ghost `d` of the result — a tombstone
observed by the walk of this call's own `invokeList`) together with the
refcount having returned to zero; a tombstone observed only by a nested
pass does not trigger it.  When it runs, compaction removes every
tombstoned node from the owner's full list, relinks the remaining live
nodes in order and updates head and tail. -/
theorem c3_compaction_trigger_amended {env : Env} {fuel : Nat} {o t ar : JSVal}
    {s sf : SigState} {d : Bool} {evs : List Event} {lid : Nat} {ns : List Nat}
    (hw : WfState s) (he : emit env fuel o t ar s = ERes.ok sf d evs)
    (halk : alookup s.emitterMap o = some lid) (hch : chainOf s lid = some ns)
    (hd : d = true) (hz : (s.lists lid).refs = 0) :
    ∃ ext, chainOf sf lid = some ((ns ++ ext).filter (liveB sf)) ∧
      (sf.lists lid).last = ((ns ++ ext).filter (liveB sf)).getLast? ∧
      ∀ c ∈ chainD sf lid, (sf.conns c).callback ≠ none := by
  obtain ⟨hev, hcase⟩ := emit_ok_spec hw he
  rcases hcase with ⟨halk2, _, _, _⟩ | ⟨lid2, ns2, ext, halk2, hlid2, hch2, _, _, _, hcond, _⟩
  · rw [halk] at halk2
    exact Option.noConfusion halk2
  · rw [halk] at halk2
    obtain rfl : lid = lid2 := Option.some.inj halk2
    rw [hch] at hch2
    obtain rfl : ns = ns2 := Option.some.inj hch2
    obtain ⟨hchf, hlastf⟩ := hcond ⟨hd, hz⟩
    refine ⟨ext, hchf, hlastf, ?_⟩
    intro c hc
    rw [chainD_eq hchf] at hc
    have hlive : liveB sf c = true := (List.mem_filter.mp hc).2
    unfold liveB at hlive
    exact Option.ne_none_iff_isSome.mpr hlive

/-- Projections of a plain dispatch (both callbacks do nothing). -/
def runE0 : ERes := emit env0 10 oV tokV argV s2ex

def sfE0 : SigState :=
  match runE0 with
  | ERes.ok s _ _ => s
  | ERes.exn s _ => s
  | ERes.oog => emptyState

def evsE0 : List Event :=
  match runE0 with
  | ERes.ok _ _ e => e
  | ERes.exn _ e => e
  | ERes.oog => []

/-- Projections of a dispatch whose second callback throws. -/
def runT : ERes := emit envThrow 10 oV tokV argV s2ex

def sfT : SigState :=
  match runT with
  | ERes.ok s _ _ => s
  | ERes.exn s _ => s
  | ERes.oog => emptyState

def evsT : List Event :=
  match runT with
  | ERes.ok _ _ e => e
  | ERes.exn _ e => e
  | ERes.oog => []

theorem c1_dispatch_order_witness :
    (evsE0.map Event.conn).Sublist [0, 1] ∧
    (evsE0.map Event.conn).Nodup ∧
    (∀ e ∈ evsE0, e.conn < s2ex.numConns) ∧
    (∀ e ∈ evsE0, jsEq (s2ex.conns e.conn).token tokV = true ∧
      (s2ex.conns e.conn).callback ≠ none ∧ e.args = argV) ∧
    (∀ c ∈ [0, 1], c ∉ evsE0.map Event.conn →
      jsEq (s2ex.conns c).token tokV = false ∨ (sfE0.conns c).callback = none) :=
  c1_dispatch_order (by decide)
    (show emit env0 10 oV tokV argV s2ex = ERes.ok sfE0 false evsE0 from rfl) rfl rfl

theorem c2_unique_triple_witness :
    UniqueLive s2ex ∧
    (∀ env fuel acts s',
      runActs env fuel acts s2ex = Res.ok s' ∨ runActs env fuel acts s2ex = Res.exn s' →
      UniqueLive s') ∧
    (∀ o t cb ctx lid c, alookup s2ex.emitterMap o = some lid → c ∈ chainD s2ex lid →
      (s2ex.conns c).callback = some cb → jsEq (s2ex.conns c).token t = true →
      jsEq (s2ex.conns c).thisArg (jsOr ctx JSVal.undef) = true →
      connect s2ex o t cb ctx = ConnectRes.ret false s2ex) ∧
    (∀ env fuel o t ar sf d evs, emit env fuel o t ar s2ex = ERes.ok sf d evs →
      evs.Pairwise (fun e1 e2 => ¬ sameTriple s2ex e1.conn e2.conn)) :=
  c2_unique_triple (by decide)

theorem c3_compaction_trigger_amended_witness :
    ∃ ext, chainOf sfC4 0 = some (([0, 1] ++ ext).filter (liveB sfC4)) ∧
      (sfC4.lists 0).last = (([0, 1] ++ ext).filter (liveB sfC4)).getLast? ∧
      ∀ c ∈ chainD sfC4 0, (sfC4.conns c).callback ≠ none :=
  c3_compaction_trigger_amended (by decide)
    (show emit envC4 20 oV tokV argV s2ex = ERes.ok sfC4 true evsC4 from rfl)
    rfl rfl rfl (by decide)

theorem c5_exception_path_witness :
    WfState sfT ∧
    sfT.currentEmitter = s2ex.currentEmitter ∧
    (∀ j < s2ex.numLists, (sfT.lists j).refs = (s2ex.lists j).refs) ∧
    ∃ lid ns rd rr, alookup s2ex.emitterMap oV = some lid ∧ chainOf s2ex lid = some ns ∧
      ns = rd ++ rr ∧ (evsT.map Event.conn).Sublist rd ∧
      ∀ e ∈ evsT, jsEq (s2ex.conns e.conn).token tokV = true :=
  c5_exception_path (by decide)
    (show emit envThrow 10 oV tokV argV s2ex = ERes.exn sfT evsT from rfl)

theorem c6_current_emitter_witness :
    emitter s2ex = s2ex.currentEmitter ∧
    (∀ sf d evs, emit env0 10 oV tokV argV s2ex = ERes.ok sf d evs →
      sf.currentEmitter = s2ex.currentEmitter ∧ ∀ e ∈ evs, e.seen = oV) ∧
    (∀ sf evs, emit env0 10 oV tokV argV s2ex = ERes.exn sf evs →
      sf.currentEmitter = s2ex.currentEmitter ∧ ∀ e ∈ evs, e.seen = oV) :=
  c6_current_emitter (by decide)

theorem c7_disconnect_receiver_witness :
    (∀ c ∈ [0], ((disconnectReceiver s2ex (JSVal.fn 0)).conns c).callback = none ∧
      ((disconnectReceiver s2ex (JSVal.fn 0)).conns c).thisArg = JSVal.null ∧
      ((disconnectReceiver s2ex (JSVal.fn 0)).conns c).prevEmitter = none ∧
      ((disconnectReceiver s2ex (JSVal.fn 0)).conns c).nextEmitter = none) ∧
    (∀ j, chainOf (disconnectReceiver s2ex (JSVal.fn 0)) j = chainOf s2ex j) ∧
    alookup (disconnectReceiver s2ex (JSVal.fn 0)).receiverMap (JSVal.fn 0) = none ∧
    (∀ sx, Evolves (disconnectReceiver s2ex (JSVal.fn 0)) sx → ∀ env fuel o t ar,
      (∀ sf d evs, emit env fuel o t ar sx = ERes.ok sf d evs →
        ∀ e ∈ evs, e.conn ∉ [0]) ∧
      (∀ sf evs, emit env fuel o t ar sx = ERes.exn sf evs →
        ∀ e ∈ evs, e.conn ∉ [0])) :=
  c7_disconnect_receiver (by decide) rfl rfl (by decide) (by decide)

theorem c8_noop_teardown_witness :
    (∀ o t cb ctx, alookup s2ex.emitterMap o = none →
      disconnect s2ex o t cb ctx = (false, s2ex)) ∧
    (∀ o t cb ctx lid, alookup s2ex.emitterMap o = some lid →
      (∀ c ∈ chainD s2ex lid, ¬ matchesQ s2ex c t cb (jsOr ctx JSVal.undef)) →
      disconnect s2ex o t cb ctx = (false, s2ex)) ∧
    (∀ o, alookup s2ex.emitterMap o = none → disconnectEmitter s2ex o = s2ex) ∧
    (∀ r, alookup s2ex.receiverMap r = none → disconnectReceiver s2ex r = s2ex) :=
  c8_noop_teardown (by decide)

theorem c9_falsy_context_witness :
    jsOr (JSVal.num 0) JSVal.undef = JSVal.undef ∧
    jsOr (JSVal.str "") JSVal.undef = JSVal.undef ∧
    jsOr JSVal.undef (cbVal (some 1)) = JSVal.fn 1 ∧
    (∀ s1, connect s1ex oV tokV 1 (JSVal.num 0) = ConnectRes.ret true s1 →
      connect s1 oV tokV 1 (JSVal.str "") = ConnectRes.ret false s1 ∧
      (disconnect s1 oV tokV 1 (JSVal.str "")).1 = true) :=
  c9_falsy_context (by decide) (by decide) (by decide) (by decide) (by decide)

theorem c10_no_compaction_on_throw_witness :
    WfState sfT ∧
    ∃ lid ns ext, alookup s2ex.emitterMap oV = some lid ∧ chainOf s2ex lid = some ns ∧
      chainOf sfT lid = some (ns ++ ext) ∧
      (sfT.lists lid).refs = (s2ex.lists lid).refs ∧
      ∀ c ∈ ns, (s2ex.conns c).callback = none →
        (sfT.conns c).callback = none ∧ c ∈ chainD sfT lid :=
  c10_no_compaction_on_throw (by decide)
    (show emit envThrow 10 oV tokV argV s2ex = ERes.exn sfT evsT from rfl)
